import Mathlib

/-!
# Upper-envelope line containers (`data_structures/line_container.cpp`)

A shallow embedding of the three line containers of the repository and of
the `line` record they share, for the signed-integer instantiation of the
numeric type `T`.

* Values of `T` are mathematical integers (`Int`): the statements below are
  about runs in which no arithmetic operation overflows, where machine
  arithmetic and integer arithmetic agree.  The constant `line<T>::inf`
  (`std::numeric_limits<T>::max()` for an integral `T`) is the parameter
  `inf` of the definitions that use it, and the values of the type are the
  integers of `[-inf - 1, inf]`.  Where a proof needs the computed
  boundaries to be values of the type, the hypothesis is that the `boundary`
  calls which the run makes do not overflow (`build_ok`, `calls_ok`,
  `construct_ok`).
* The containers `std::multiset<line<T>>`, `std::deque<line<T>>` and
  `std::vector<line<T>>` are lists of lines in iteration order (front to
  back).
* An iterator into the multiset is a position of the list: `insert_line`
  is written over the three pieces "elements before `it`" (kept reversed,
  nearest neighbour first), "the element at `it`" and "elements after `it`".
  The loops on the back of the deque and of the vector run on the reversed
  list in the same way.
* A call that does not return a value ends in a `failure`.
-/

/-- The record `line<T>`: slope `a`, intercept `b`, query marker `q` and the
mutable cached boundary `l`. -/
structure line where
  a : Int
  b : Int
  q : Bool
  l : Int
deriving DecidableEq, Repr

/-- How a call that does not return a value ends. -/
inductive failure where
  /-- The `assert(!this->empty())` of `maximum` fired. -/
  | assertion_failed
  /-- An end iterator (or the front of an empty deque) was dereferenced:
  undefined behaviour, no check in the source. -/
  | end_dereferenced
deriving DecidableEq, Repr

namespace line

/-- The method `T eval(T x) const { return a * x + b; }`. -/
def eval (s : line) (x : Int) : Int := s.a * x + s.b

/-- The comparison `operator<`: `(q || o.q) ? l < o.l : a < o.a`. -/
def lt (s o : line) : Bool :=
  if s.q || o.q then decide (s.l < o.l) else decide (s.a < o.a)

/-- Integral `div`: `a / b - ((a ^ b) < 0 && (a % b))`, with the truncating
`/` and `%` of C++ and the two's-complement exclusive or. -/
def div (a b : Int) : Int :=
  a.tdiv b - (if Int.xor a b < 0 ∧ a.tmod b ≠ 0 then 1 else 0)

/-- The method `boundary`: `if (a == o.a) return b > o.b ? inf : -inf;`
`return div(o.b - b, a - o.a);` -/
def boundary (inf : Int) (s o : line) : Int :=
  if s.a = o.a then (if s.b > o.b then inf else -inf)
  else div (o.b - s.b) (s.a - o.a)

end line

/-- The search `std::lower_bound` / `multiset::lower_bound` for a probe: the first
element `e` of the range with `!(e < probe)`, `none` for the end iterator.
(The C++ result is specified only when the range is partitioned by
`e < probe`; see `partitioned`.) -/
def lower_bound (c : List line) (probe : line) : Option line :=
  c.find? (fun e => !(e.lt probe))

/-- The range is partitioned with respect to `e < probe`: no element that is
not less than the probe precedes one that is. -/
def partitioned (c : List line) (probe : line) : Prop :=
  c.Pairwise (fun e f => e.lt probe = false → f.lt probe = false)

/-! ## Dynamic container -/

namespace line_container

/-- The method `set_boundary(x, y)`; `y = none` is `y == this->end()`.  Returns the
updated element at `x` and the boolean result. -/
def set_boundary (inf : Int) (x : line) (y : Option line) : line × Bool :=
  match y with
  | none => ({ x with l := inf }, false)
  | some y => ({ x with l := x.boundary inf y }, decide (x.boundary inf y ≥ y.l))

/-- The loop `while (set_boundary(it, next(it))) this->erase(next(it));`
on the element at `it` and the elements after it.  Returns both. -/
def erase_right (inf : Int) (it : line) : List line → line × List line
  | [] => ((set_boundary inf it none).1, [])
  | y :: ys =>
    if (set_boundary inf it (some y)).2 then erase_right inf (set_boundary inf it (some y)).1 ys
    else ((set_boundary inf it (some y)).1, y :: ys)

/-- The loop
`while (it != this->begin() && covered(prev(it))) { this->erase(prev(it)); set_boundary(prev(it), it); }`
where `p` is the element at `prev(it)`, the list holds the elements before
`p` (nearest first) and `it` is the element at `it` (`none` for `end()`).
Returns the elements before `it`, nearest first. -/
def erase_left (inf : Int) (it : Option line) (p : line) : List line → List line
  | [] => [p]
  | pp :: rest =>
    if (set_boundary inf pp (some p)).2 then
      erase_left inf it (set_boundary inf (set_boundary inf pp (some p)).1 it).1 rest
    else p :: (set_boundary inf pp (some p)).1 :: rest

/-- The statements of `insert_line` after `auto it = this->insert(...)`:
the two erasing loops and the `covered(it)` test between them, on the
elements before `it` (nearest first), the element at `it` and the elements
after it.  Returns the multiset in iteration order. -/
def restore (inf : Int) (before : List line) (it : line) (after : List line) : List line :=
  let r := erase_right inf it after
  match before with
  | [] => r.1 :: r.2
  | p :: rest =>
    if (set_boundary inf p (some r.1)).2 then
      (erase_left inf r.2.head?
        (set_boundary inf (set_boundary inf p (some r.1)).1 r.2.head?).1 rest).reverse ++ r.2
    else
      (erase_left inf (some r.1) (set_boundary inf p (some r.1)).1 rest).reverse ++ r.1 :: r.2

/-- The method `insert_line(a, b)` on the multiset `c` (in iteration order).
`this->insert({ a, b, false })` puts the new element, with `l` zero, after
every element that is not greater, i.e. before the first `e` with `it < e`. -/
def insert_line (inf : Int) (c : List line) (a b : Int) : List line :=
  restore inf (c.takeWhile (fun e => !((⟨a, b, false, 0⟩ : line).lt e))).reverse ⟨a, b, false, 0⟩
    (c.dropWhile (fun e => !((⟨a, b, false, 0⟩ : line).lt e)))

/-- The method `maximum(x0)`: `assert(!this->empty());`
`return this->lower_bound({ 0, 0, true, x0 })->eval(x0);` -/
def maximum (c : List line) (x0 : Int) : Except failure Int :=
  if c.isEmpty then .error .assertion_failed
  else match lower_bound c ⟨0, 0, true, x0⟩ with
    | none => .error .end_dereferenced
    | some e => .ok (e.eval x0)

/-- The container after the calls `insert_line(a, b)` for `(a, b)` in `ls`,
in order, starting from the empty container. -/
def build (inf : Int) (ls : List (Int × Int)) : List line :=
  ls.foldl (fun c s => insert_line inf c s.1 s.2) []

end line_container

/-! ## Monotonic container -/

namespace line_container_monotonic

/-- The loop `while (this->size() >= 2 && next(bk)->l >= bk->l)
{ this->pop_back(), bk++; bk->l = bk->boundary(ins); }` where `bk` is the
last element and the list holds the elements before it, nearest first.
Returns the deque back to front. -/
def pop_loop (inf : Int) (ins : line) (bk : line) : List line → List line
  | [] => [bk]
  | n :: rest =>
    if n.l ≥ bk.l then pop_loop inf ins { n with l := n.boundary inf ins } rest
    else bk :: n :: rest

/-- The method `insert_line(a, b)` on the deque `c` (front to back). -/
def insert_line (inf : Int) (c : List line) (a b : Int) : List line :=
  let ins : line := ⟨a, b, false, inf⟩
  match c.reverse with
  | [] => [ins]
  | bk :: rest =>
    if bk.a = a ∧ bk.b ≥ b then c
    else (ins :: pop_loop inf ins { bk with l := bk.boundary inf ins } rest).reverse

/-- The loop `while (this->front().l < x0) this->pop_front();` followed by
`return this->front().eval(x0);`.  Returns the value and the deque left. -/
def pop_front_loop (x0 : Int) : List line → Except failure (Int × List line)
  | [] => .error .end_dereferenced
  | f :: rest => if f.l < x0 then pop_front_loop x0 rest else .ok (f.eval x0, f :: rest)

/-- The method `maximum(x0)`: `assert(!this->empty());` and the front-popping
loop.  Returns the value and the deque after the call. -/
def maximum (c : List line) (x0 : Int) : Except failure (Int × List line) :=
  if c.isEmpty then .error .assertion_failed else pop_front_loop x0 c

end line_container_monotonic

/-! ## Static container -/

namespace line_container_static

/-- The loop `while (hull.size() >= 2 && (hull.end() - 2)->l >= (hull.end() - 2)->boundary(elt)) hull.pop_back();`
on the hull kept back to front. -/
def pop_loop (inf : Int) (elt : line) : List line → List line
  | h1 :: h2 :: rest =>
    if h2.l ≥ h2.boundary inf elt then pop_loop inf elt (h2 :: rest) else h1 :: h2 :: rest
  | h => h

/-- The pop loop as the specification words it (not as the source has it):
the last hull element is popped while the hull has at least two elements
and the second-to-last element's boundary against the candidate is `>=` the
boundary recorded on the second-to-last element.  On the hull kept back to
front. -/
def pop_loop_as_specified (inf : Int) (elt : line) : List line → List line
  | h1 :: h2 :: rest =>
    if h2.boundary inf elt ≥ h2.l then pop_loop_as_specified inf elt (h2 :: rest)
    else h1 :: h2 :: rest
  | h => h

/-- One iteration of the constructor's `for` loop, on the hull kept back to
front. -/
def step (inf : Int) (hull : List line) (elt : line) : List line :=
  match pop_loop inf elt hull with
  | [] => [⟨elt.a, elt.b, false, inf⟩]
  | h :: rest => ⟨elt.a, elt.b, false, inf⟩ :: { h with l := h.boundary inf elt } :: rest

/-- The call `std::sort(sorted_input.begin(), sorted_input.end())`: ascending by
`operator<`, which on unmarked lines compares slopes only.  Lines of equal
slope keep their input order here (C++ leaves their order unspecified). -/
def sort (input : List line) : List line :=
  input.insertionSort (fun x y => y.lt x = false)

/-- The constructor from a batch `(a, b)`: the hull, front to back. -/
def construct (inf : Int) (batch : List (Int × Int)) : List line :=
  ((sort (batch.map (fun s => (⟨s.1, s.2, false, 0⟩ : line)))).foldl (step inf) []).reverse

/-- The method `maximum(x0)`, without an emptiness check:
`return std::lower_bound(hull.begin(), hull.end(), line<T>({ 0, 0, true, x0 }))->eval(x0);` -/
def maximum (hull : List line) (x0 : Int) : Except failure Int :=
  match lower_bound hull ⟨0, 0, true, x0⟩ with
  | none => .error .end_dereferenced
  | some e => .ok (e.eval x0)

end line_container_static

/-- The value `v` is the maximum of `a * x + b` over the lines `(a, b)` of
`ls`: it is attained by a line of `ls` and no line of `ls` exceeds it. -/
def is_maximum (x : Int) (ls : List (Int × Int)) (v : Int) : Prop :=
  (∃ s ∈ ls, v = s.1 * x + s.2) ∧ ∀ s ∈ ls, s.1 * x + s.2 ≤ v

instance (x : Int) (ls : List (Int × Int)) (v : Int) : Decidable (is_maximum x ls v) := by
  unfold is_maximum; infer_instance

/-! ## Sequences of calls -/

/-- A call on a Dynamic or Monotonic container. -/
inductive call where
  | insert_line (a b : Int)
  | maximum (x0 : Int)
deriving DecidableEq, Repr

/-- The lines passed to the `insert_line` calls of a sequence, in order. -/
def inserted : List call → List (Int × Int)
  | [] => []
  | call.insert_line a b :: r => (a, b) :: inserted r
  | call.maximum _ :: r => inserted r

/-- The points passed to the `maximum` calls of a sequence, in order. -/
def queried : List call → List Int
  | [] => []
  | call.insert_line _ _ :: r => queried r
  | call.maximum x0 :: r => x0 :: queried r

/-- The Monotonic deque after a sequence of calls made on the deque `c`.
A `maximum` call that does not return ends the run. -/
def line_container_monotonic.exec (inf : Int) : List line → List call → Except failure (List line)
  | c, [] => .ok c
  | c, call.insert_line a b :: r => exec inf (line_container_monotonic.insert_line inf c a b) r
  | c, call.maximum x0 :: r =>
    match line_container_monotonic.maximum c x0 with
    | .ok vc => exec inf vc.2 r
    | .error e => .error e

/-- The Dynamic multiset after a sequence of calls made on the multiset `c`
(`maximum` does not modify it).  A `maximum` call that does not return ends
the run. -/
def line_container.exec (inf : Int) : List line → List call → Except failure (List line)
  | c, [] => .ok c
  | c, call.insert_line a b :: r => exec inf (line_container.insert_line inf c a b) r
  | c, call.maximum x0 :: r =>
    match line_container.maximum c x0 with
    | .ok _ => exec inf c r
    | .error e => .error e

/-! ## Invariants of the containers -/

/-- In a container `p` is directly followed by `n`: the slopes ascend and the
stored boundary of `p` is its boundary against `n`. -/
def adj (inf : Int) (p n : line) : Prop :=
  p.a ≤ n.a ∧ p.l = p.boundary inf n

/-- The link between neighbours of the Monotonic deque: `adj`, and the
stored boundaries, cut off at `inf`, do not descend. -/
def mono_link (inf : Int) (p n : line) : Prop :=
  adj inf p n ∧ min p.l inf ≤ n.l

/-- Invariant of the Monotonic deque (front to back): neighbours are linked
and the last line has stored boundary `inf`. -/
def mono_inv (inf : Int) (c : List line) : Prop :=
  c.Chain' (mono_link inf) ∧ ∀ e ∈ c.getLast?, e.l = inf

/-- At the point `x` every line of `ls` is at most as high as some line of
the container `c`. -/
def covers (x : Int) (c : List line) (ls : List (Int × Int)) : Prop :=
  ∀ s ∈ ls, ∃ e ∈ c, s.1 * x + s.2 ≤ e.eval x

/-- Every line of the container is one of the lines `ls`. -/
def from_lines (c : List line) (ls : List (Int × Int)) : Prop :=
  ∀ e ∈ c, (e.a, e.b) ∈ ls

/-- What holds of the Monotonic deque `c` after the calls `hist` (at least
one of them an `insert_line`): the deque invariant, only inserted lines are
kept, and at every point of `(-inf, inf]` that is not below an earlier query
the deque is as high as every inserted line. -/
def mono_state (inf : Int) (hist : List call) (c : List line) : Prop :=
  mono_inv inf c ∧ c ≠ [] ∧ from_lines c (inserted hist) ∧
  ∀ x, (∀ q ∈ queried hist, q ≤ x) → -inf < x → x ≤ inf → covers x c (inserted hist)

/-- The link between neighbours of the Dynamic multiset: `adj`, and the
stored boundaries ascend strictly. -/
def dyn_link (inf : Int) (p n : line) : Prop :=
  adj inf p n ∧ p.l < n.l

/-- Invariant of the Dynamic multiset (in iteration order): neighbours are
linked, the last line has stored boundary `inf`, no stored boundary is below
`-inf`, and no stored line carries the query marker. -/
def dyn_inv (inf : Int) (c : List line) : Prop :=
  c.Chain' (dyn_link inf) ∧ (∀ e ∈ c.getLast?, e.l = inf) ∧ ∀ e ∈ c, -inf ≤ e.l ∧ e.q = false

/-- What holds of the Dynamic multiset `c` after the lines `ls` were
inserted: the multiset invariant, only inserted lines are kept, and at every
point of `(-inf, inf]` the multiset is as high as every inserted line. -/
def dyn_state (inf : Int) (ls : List (Int × Int)) (c : List line) : Prop :=
  dyn_inv inf c ∧ (ls ≠ [] → c ≠ []) ∧ from_lines c ls ∧
  ∀ x, -inf < x → x ≤ inf → covers x c ls

/-- What the `maximum` calls of a sequence of calls on the Dynamic multiset
`c` return, in order; the run ends at the first call that does not return. -/
def line_container.results (inf : Int) : List line → List call → List (Except failure Int)
  | _, [] => []
  | c, call.insert_line a b :: r => results inf (line_container.insert_line inf c a b) r
  | c, call.maximum x0 :: r =>
    match line_container.maximum c x0 with
    | .ok v => .ok v :: results inf c r
    | .error e => [.error e]

/-- What the `maximum` calls of a sequence of calls on the Monotonic deque
`c` return, in order; the run ends at the first call that does not return. -/
def line_container_monotonic.results (inf : Int) :
    List line → List call → List (Except failure Int)
  | _, [] => []
  | c, call.insert_line a b :: r => results inf (line_container_monotonic.insert_line inf c a b) r
  | c, call.maximum x0 :: r =>
    match line_container_monotonic.maximum c x0 with
    | .ok vc => .ok vc.1 :: results inf vc.2 r
    | .error e => [.error e]

/-- What holds of the Monotonic deque `cm` and the Dynamic multiset `cd`
after the same calls `hist`, the first of them `insert_line` of the line
`first`: each is in a reached state, the deque stores no boundary below
`-inf`, the multiset starts with `first`, and so does the deque as long as
no query was above `-inf`. -/
def joint_state (inf : Int) (first : Int × Int) (hist : List call) (cm cd : List line) : Prop :=
  mono_state inf hist cm ∧ dyn_state inf (inserted hist) cd ∧ inserted hist ≠ [] ∧
  (∀ e ∈ cm, -inf ≤ e.l) ∧
  cd.head?.map (fun e => (e.a, e.b)) = some first ∧
  ((∀ q ∈ queried hist, q ≤ -inf) → cm.head?.map (fun e => (e.a, e.b)) = some first)

/-! ## Runs without overflow

The only arithmetic of `insert_line` and of the Static constructor is that
of the `boundary` calls they make.  Each function `..._ok` below follows the
control flow of the function it is named after and tells whether every
`boundary` call made on the way stays within the numeric type; as long as
it does, the run on machine integers and the run on `Int` are the same, so
the next call checked is the next call made. -/

/-- The integer `v` is a value of the numeric type, whose range is
`[-inf - 1, inf]`. -/
def representable (inf v : Int) : Bool :=
  decide (-inf - 1 ≤ v) && decide (v ≤ inf)

/-- No operation of the call `s.boundary(o)` overflows.  For equal slopes
there is no arithmetic.  Otherwise `o.b - b` and `a - o.a` are computed and
must be values of the type, and the `/` and `%` of `div` overflow exactly
for the minimum of the type over `-1`; the subtraction that ends `div`
cannot overflow then. -/
def line.boundary_ok (inf : Int) (s o : line) : Bool :=
  if s.a = o.a then true
  else representable inf (o.b - s.b) && representable inf (s.a - o.a) &&
    !(decide (o.b - s.b = -inf - 1) && decide (s.a - o.a = -1))

namespace line_container

/-- No overflow in `set_boundary(x, y)`: its one arithmetic step is
`x->boundary(*y)`, made when `y` is not the end iterator. -/
def set_boundary_ok (inf : Int) (x : line) (y : Option line) : Bool :=
  match y with
  | none => true
  | some y => x.boundary_ok inf y

/-- No overflow in the loop `erase_right`: every iteration calls
`set_boundary(it, next(it))`. -/
def erase_right_ok (inf : Int) (it : line) : List line → Bool
  | [] => true
  | y :: ys =>
    set_boundary_ok inf it (some y) &&
      (if (set_boundary inf it (some y)).2 then
        erase_right_ok inf (set_boundary inf it (some y)).1 ys
      else true)

/-- No overflow in the loop `erase_left`: every test calls
`set_boundary(prev(prev(it)), prev(it))` through `covered`, and every
iteration calls `set_boundary(prev(it), it)` after the erasure. -/
def erase_left_ok (inf : Int) (it : Option line) (p : line) : List line → Bool
  | [] => true
  | pp :: rest =>
    set_boundary_ok inf pp (some p) &&
      (if (set_boundary inf pp (some p)).2 then
        set_boundary_ok inf (set_boundary inf pp (some p)).1 it &&
          erase_left_ok inf it (set_boundary inf (set_boundary inf pp (some p)).1 it).1 rest
      else true)

/-- No overflow in the statements of `insert_line` after the insertion (see
`restore`): the right-erasing loop, the `set_boundary(prev(it), it)` of
`covered(it)`, the `set_boundary(prev(it), it = erase(it))` when `it` is
covered, and the left-erasing loop. -/
def restore_ok (inf : Int) (before : List line) (it : line) (after : List line) : Bool :=
  let r := erase_right inf it after
  erase_right_ok inf it after &&
    match before with
    | [] => true
    | p :: rest =>
      set_boundary_ok inf p (some r.1) &&
        (if (set_boundary inf p (some r.1)).2 then
          set_boundary_ok inf (set_boundary inf p (some r.1)).1 r.2.head? &&
            erase_left_ok inf r.2.head?
              (set_boundary inf (set_boundary inf p (some r.1)).1 r.2.head?).1 rest
        else erase_left_ok inf (some r.1) (set_boundary inf p (some r.1)).1 rest)

/-- No overflow in the call `insert_line(a, b)` on the multiset `c`. -/
def insert_line_ok (inf : Int) (c : List line) (a b : Int) : Bool :=
  restore_ok inf (c.takeWhile (fun e => !((⟨a, b, false, 0⟩ : line).lt e))).reverse
    ⟨a, b, false, 0⟩ (c.dropWhile (fun e => !((⟨a, b, false, 0⟩ : line).lt e)))

/-- No overflow in the calls `insert_line(a, b)` for `(a, b)` in `ls`, in
order, made on the multiset `c`. -/
def inserts_ok (inf : Int) : List line → List (Int × Int) → Bool
  | _, [] => true
  | c, s :: r => insert_line_ok inf c s.1 s.2 && inserts_ok inf (insert_line inf c s.1 s.2) r

/-- No overflow in the run `build`: the calls `insert_line(a, b)` for
`(a, b)` in `ls`, in order, starting from the empty container. -/
def build_ok (inf : Int) (ls : List (Int × Int)) : Bool :=
  inserts_ok inf [] ls

/-- No overflow in the `insert_line` calls of a sequence of calls made on
the multiset `c` (see `results`; `maximum` computes no boundary and does not
modify the multiset). -/
def calls_ok (inf : Int) : List line → List call → Bool
  | _, [] => true
  | c, call.insert_line a b :: r =>
    insert_line_ok inf c a b && calls_ok inf (insert_line inf c a b) r
  | c, call.maximum x0 :: r =>
    match maximum c x0 with
    | .ok _ => calls_ok inf c r
    | .error _ => true

end line_container

namespace line_container_monotonic

/-- No overflow in the back-popping loop `pop_loop`: every iteration calls
`bk->boundary(ins)` on the new last element. -/
def pop_loop_ok (inf : Int) (ins : line) (bk : line) : List line → Bool
  | [] => true
  | n :: rest =>
    if n.l ≥ bk.l then
      n.boundary_ok inf ins && pop_loop_ok inf ins { n with l := n.boundary inf ins } rest
    else true

/-- No overflow in the call `insert_line(a, b)` on the deque `c`: unless it
returns at once, it calls `bk->boundary(ins)` on the last element and runs
the back-popping loop. -/
def insert_line_ok (inf : Int) (c : List line) (a b : Int) : Bool :=
  match c.reverse with
  | [] => true
  | bk :: rest =>
    if bk.a = a ∧ bk.b ≥ b then true
    else bk.boundary_ok inf ⟨a, b, false, inf⟩ &&
      pop_loop_ok inf ⟨a, b, false, inf⟩ { bk with l := bk.boundary inf ⟨a, b, false, inf⟩ } rest

/-- No overflow in the `insert_line` calls of a sequence of calls made on
the deque `c` (see `results`; `maximum` computes no boundary). -/
def calls_ok (inf : Int) : List line → List call → Bool
  | _, [] => true
  | c, call.insert_line a b :: r =>
    insert_line_ok inf c a b && calls_ok inf (insert_line inf c a b) r
  | c, call.maximum x0 :: r =>
    match maximum c x0 with
    | .ok vc => calls_ok inf vc.2 r
    | .error _ => true

end line_container_monotonic

namespace line_container_static

/-- No overflow in the pop loop of the constructor: every test made on a
hull of at least two elements calls `(hull.end() - 2)->boundary(elt)`. -/
def pop_loop_ok (inf : Int) (elt : line) : List line → Bool
  | _ :: h2 :: rest =>
    h2.boundary_ok inf elt &&
      (if h2.l ≥ h2.boundary inf elt then pop_loop_ok inf elt (h2 :: rest) else true)
  | _ => true

/-- No overflow in one iteration of the constructor: the pop loop, then
`hull.back().boundary(elt)` when the hull left is not empty. -/
def step_ok (inf : Int) (hull : List line) (elt : line) : Bool :=
  pop_loop_ok inf elt hull &&
    match pop_loop inf elt hull with
    | [] => true
    | h :: _ => h.boundary_ok inf elt

/-- No overflow in the iterations of the constructor over the lines `S`,
started on the hull `hull` (back to front). -/
def steps_ok (inf : Int) : List line → List line → Bool
  | _, [] => true
  | hull, elt :: r => step_ok inf hull elt && steps_ok inf (step inf hull elt) r

/-- The loop of the constructor run on the sorted input `S`: the hull, front
to back.  (`construct inf batch` is `construct_sorted inf` of the stably
sorted batch; `std::sort` may leave lines of equal slope in any order.) -/
def construct_sorted (inf : Int) (S : List line) : List line :=
  (S.foldl (step inf) []).reverse

/-- No overflow in the loop of the constructor run on the sorted input `S`. -/
def construct_ok (inf : Int) (S : List line) : Bool :=
  steps_ok inf [] S

/-- The list `S` is a possible outcome of
`std::sort(sorted_input.begin(), sorted_input.end())` on the batch: it holds
the lines of the batch, and no element is less than an earlier one. -/
def sorted_input (batch : List (Int × Int)) (S : List line) : Prop :=
  S.Perm (batch.map (fun s => (⟨s.1, s.2, false, 0⟩ : line))) ∧
  S.Pairwise (fun p n => n.lt p = false)

end line_container_static

/-! ## The Static hull and the binary search -/

/-- The bisection that `std::lower_bound` runs on a random-access range (the
loop of the standard library: `half = len >> 1`, `middle = first + half`,
then `first = middle + 1, len = len - half - 1` when `*middle < probe` and
`len = half` otherwise).  Returns the position reached, `c.length` for the
end iterator; the first argument bounds the number of iterations. -/
def bisect (c : List line) (probe : line) : Nat → Nat → Nat → Nat
  | 0, first, _ => first
  | fuel + 1, first, len =>
    if len = 0 then first
    else
      match c.get? (first + len / 2) with
      | some m =>
        if m.lt probe then bisect c probe fuel (first + len / 2 + 1) (len - len / 2 - 1)
        else bisect c probe fuel first (len / 2)
      | none => first

/-- The link between neighbours of the Static hull: `adj`, and the stored
boundaries do not descend. -/
def static_link (inf : Int) (p n : line) : Prop :=
  adj inf p n ∧ p.l ≤ n.l

/-- Invariant of the Static hull between two iterations of the constructor,
on the hull kept back to front: neighbours are linked, the last line has
stored boundary `inf`, and every stored boundary lies in `[-inf, inf]`. -/
def static_inv (inf : Int) (h : List line) : Prop :=
  h.Chain' (flip (static_link inf)) ∧ (∀ e ∈ h.head?, e.l = inf) ∧
  ∀ e ∈ h, -inf ≤ e.l ∧ e.l ≤ inf

/-! ## The Static container over a type with exact division

The instantiation of `line<T>` and `line_container_static<T>` at a
non-integral `T`, where `div(a, b)` is `a / b`: the finite values are the
elements of an ordered field `K`, and the stored boundary ranges over `K`
extended by the two sentinels `inf` (top) and `-inf` (bottom). -/

namespace non_integral

/-- The struct `line<T>` for a non-integral `T`: finite slope `a` and
intercept `b`, the flag `q` and the stored boundary `l`, which may be a
sentinel. -/
structure line (K : Type) where
  a : K
  b : K
  q : Bool
  l : WithBot (WithTop K)

/-- The constant `line<T>::inf`, the upper sentinel. -/
def inf (K : Type) : WithBot (WithTop K) := ((⊤ : WithTop K) : WithBot (WithTop K))

/-- The value `-line<T>::inf`, the lower sentinel. -/
def neg_inf (K : Type) : WithBot (WithTop K) := ⊥

/-- A finite value as a value of the extended type. -/
def fin {K : Type} (x : K) : WithBot (WithTop K) := ((x : WithTop K) : WithBot (WithTop K))

namespace line

/-- The method `T eval(T x) const { return a * x + b; }`. -/
def eval {K : Type} [LinearOrderedField K] (s : line K) (x : K) : K := s.a * x + s.b

/-- The comparison `operator<`: `(q || o.q) ? l < o.l : a < o.a`. -/
def lt {K : Type} [LinearOrderedField K] (s o : line K) : Bool :=
  if s.q || o.q then decide (s.l < o.l) else decide (s.a < o.a)

/-- The non-integral overload of `div`: `return a / b;`. -/
def div {K : Type} [LinearOrderedField K] (a b : K) : K := a / b

/-- The method `boundary`:
`if (a == o.a) return b > o.b ? inf : -inf; return div(o.b - b, a - o.a);`. -/
def boundary {K : Type} [LinearOrderedField K] (s o : line K) : WithBot (WithTop K) :=
  if s.a = o.a then (if s.b > o.b then inf K else neg_inf K)
  else fin (div (o.b - s.b) (s.a - o.a))

end line

/-- The search `std::lower_bound` for a probe: the first element `e` of the
range with `!(e < probe)`, `none` for the end iterator. -/
def lower_bound {K : Type} [LinearOrderedField K] (c : List (line K)) (probe : line K) :
    Option (line K) :=
  c.find? (fun e => !(e.lt probe))

namespace line_container_static

/-- The loop `while (hull.size() >= 2 && (hull.end() - 2)->l >= (hull.end() - 2)->boundary(elt)) hull.pop_back();`
on the hull kept back to front. -/
def pop_loop {K : Type} [LinearOrderedField K] (elt : line K) : List (line K) → List (line K)
  | h1 :: h2 :: rest =>
    if h2.l ≥ h2.boundary elt then pop_loop elt (h2 :: rest) else h1 :: h2 :: rest
  | h => h

/-- One iteration of the constructor's `for` loop, on the hull kept back to
front. -/
def step {K : Type} [LinearOrderedField K] (hull : List (line K)) (elt : line K) :
    List (line K) :=
  match pop_loop elt hull with
  | [] => [⟨elt.a, elt.b, false, inf K⟩]
  | h :: rest => ⟨elt.a, elt.b, false, inf K⟩ :: { h with l := h.boundary elt } :: rest

/-- The call `std::sort(sorted_input.begin(), sorted_input.end())`: ascending by
`operator<`, which on unmarked lines compares slopes only. -/
def sort {K : Type} [LinearOrderedField K] (input : List (line K)) : List (line K) :=
  input.insertionSort (fun x y => y.lt x = false)

/-- The constructor from a batch `(a, b)`: the hull, front to back. -/
def construct {K : Type} [LinearOrderedField K] (batch : List (K × K)) : List (line K) :=
  ((sort (batch.map (fun s => (⟨s.1, s.2, false, fin 0⟩ : line K)))).foldl step []).reverse

/-- The method `maximum(x0)`, without an emptiness check:
`return std::lower_bound(hull.begin(), hull.end(), line<T>({ 0, 0, true, x0 }))->eval(x0);` -/
def maximum {K : Type} [LinearOrderedField K] (hull : List (line K)) (x0 : K) :
    Except failure K :=
  match lower_bound hull ⟨0, 0, true, fin x0⟩ with
  | none => .error .end_dereferenced
  | some e => .ok (e.eval x0)

end line_container_static

/-- The value `v` is the maximum of `a * x + b` over the lines `(a, b)` of
`ls`: it is attained by a line of `ls` and no line of `ls` exceeds it. -/
def is_maximum {K : Type} [LinearOrderedField K] (x : K) (ls : List (K × K)) (v : K) : Prop :=
  (∃ s ∈ ls, v = s.1 * x + s.2) ∧ ∀ s ∈ ls, s.1 * x + s.2 ≤ v

instance {K : Type} [LinearOrderedField K] (x : K) (ls : List (K × K)) (v : K) :
    Decidable (is_maximum x ls v) := by
  unfold is_maximum; infer_instance

/-- The link between neighbours of the hull, front to back: slopes strictly
ascend, the stored boundary of `p` is the finite crossing point with `n`,
and the stored boundaries strictly ascend. -/
def link {K : Type} [LinearOrderedField K] (p n : line K) : Prop :=
  p.a < n.a ∧ p.l = fin (line.div (n.b - p.b) (p.a - n.a)) ∧ p.l < n.l

/-- Invariant of the hull, kept back to front, after the lines `ls` have
been processed: neighbours are linked, the last line has stored boundary
`inf`, every hull line is one of `ls`, and at every point every line of
`ls` is at most as high as some hull line. -/
def hull_inv {K : Type} [LinearOrderedField K] (ls : List (line K)) (h : List (line K)) :
    Prop :=
  h.Chain' (flip link) ∧ (∀ e ∈ h.head?, e.l = inf K) ∧
  (∀ e ∈ h, ∃ s ∈ ls, s.a = e.a ∧ s.b = e.b) ∧
  ∀ x : K, ∀ s ∈ ls, ∃ e ∈ h, s.eval x ≤ e.eval x

end non_integral

/-! ## The integral `div` is the floor quotient -/

/-- The two's-complement exclusive or is negative exactly when the signs differ. -/
theorem xor_neg_iff (a b : Int) :
    Int.xor a b < 0 ↔ ((a < 0 ∧ 0 ≤ b) ∨ (0 ≤ a ∧ b < 0)) := by
  cases a <;> cases b <;> simp [Int.xor, Int.negSucc_lt_zero, Int.ofNat_nonneg]
  all_goals omega

/-- The truncating remainder has the sign of the dividend. -/
theorem tmod_sign (a b : Int) :
    (0 ≤ a → 0 ≤ a.tmod b) ∧ (a ≤ 0 → a.tmod b ≤ 0) := by
  refine ⟨fun h => Int.tmod_nonneg b h, fun h => ?_⟩
  obtain ⟨c, rfl⟩ : ∃ c, a = -c := ⟨-a, by omega⟩
  have hc : 0 ≤ c := by omega
  have := Int.tmod_nonneg b hc
  have h2 : (-c).tmod b = -(c.tmod b) := by
    rw [Int.tmod_def, Int.tmod_def, Int.neg_tdiv]; ring
  omega

/-- The truncating remainder is smaller in magnitude than the divisor. -/
theorem tmod_abs_lt (a b : Int) (hb : b ≠ 0) : |a.tmod b| < |b| := by
  have key : ∀ (a b : Int), 0 ≤ a → 0 < b → |a.tmod b| < |b| := by
    intro a b ha hb
    have h1 := Int.tmod_nonneg b ha
    have h2 := Int.tmod_lt_of_pos a hb
    rw [abs_of_nonneg h1, abs_of_pos hb]; exact h2
  have hneg : ∀ (a b : Int), (-a).tmod b = -(a.tmod b) := by
    intro a b
    rw [Int.tmod_def, Int.tmod_def, Int.neg_tdiv]; ring
  rcases le_or_lt 0 a with ha | ha <;> rcases lt_or_gt_of_ne hb with hb' | hb'
  · have := key a (-b) ha (by omega)
    rwa [Int.tmod_neg, abs_neg] at this
  · exact key a b ha hb'
  · have := key (-a) (-b) (by omega) (by omega)
    rwa [Int.tmod_neg, hneg, abs_neg, abs_neg] at this
  · have := key (-a) b (by omega) hb'
    rwa [hneg, abs_neg] at this

/-- The defining property of the floor quotient, for `line.div`. -/
theorem div_spec (a b : Int) :
    (0 < b → b * line.div a b ≤ a ∧ a < b * line.div a b + b) ∧
    (b < 0 → b * line.div a b + b < a ∧ a ≤ b * line.div a b) := by
  have h1 := Int.tdiv_add_tmod a b
  have hs := tmod_sign a b
  have hx := xor_neg_iff a b
  unfold line.div
  constructor
  · intro hb
    have h2 := tmod_abs_lt a b hb.ne'
    rw [abs_of_pos hb, abs_lt] at h2
    split_ifs with hc
    · have ha : a < 0 := by rcases hx.mp hc.1 with h | h <;> omega
      have h3 : a.tmod b < 0 := lt_of_le_of_ne (hs.2 ha.le) hc.2
      constructor <;> nlinarith
    · have : 0 ≤ a.tmod b := by
        by_contra hlt
        have ha : a < 0 := by
          by_contra hna
          exact hlt (hs.1 (by omega))
        exact hc ⟨hx.mpr (Or.inl ⟨ha, hb.le⟩), by omega⟩
      constructor <;> nlinarith
  · intro hb
    have h2 := tmod_abs_lt a b hb.ne
    rw [abs_of_neg hb, abs_lt] at h2
    split_ifs with hc
    · have ha : 0 ≤ a := by rcases hx.mp hc.1 with h | h <;> omega
      have h3 : 0 < a.tmod b := lt_of_le_of_ne (hs.1 ha) (Ne.symm hc.2)
      constructor <;> nlinarith
    · have : a.tmod b ≤ 0 := by
        by_contra hlt
        have ha : 0 ≤ a := by
          by_contra hna
          exact hlt (hs.2 (by omega))
        exact hc ⟨hx.mpr (Or.inr ⟨ha, hb⟩), by omega⟩
      constructor <;> nlinarith

/-- C4: for every integer `a` and every `b ≠ 0`, the integral `line::div(a, b)`
(truncating quotient, minus one when `a ^ b` is negative and `a % b` is
non-zero) is `⌊a / b⌋`, the exact quotient rounded toward minus infinity. -/
theorem div_eq_floor (a b : Int) (hb : b ≠ 0) :
    line.div a b = ⌊(a : ℚ) / (b : ℚ)⌋ := by
  symm
  rw [Int.floor_eq_iff]
  have h := div_spec a b
  rcases lt_or_gt_of_ne hb with hb' | hb'
  · obtain ⟨h1, h2⟩ := h.2 hb'
    have hbq : (b : ℚ) < 0 := by exact_mod_cast hb'
    constructor
    · rw [le_div_iff_of_neg hbq]
      have : ((a : ℤ) : ℚ) ≤ ((b * line.div a b : ℤ) : ℚ) := by exact_mod_cast h2
      push_cast at this; linarith
    · rw [div_lt_iff_of_neg hbq]
      have : ((b * line.div a b + b : ℤ) : ℚ) < ((a : ℤ) : ℚ) := by exact_mod_cast h1
      push_cast at this; linarith
  · obtain ⟨h1, h2⟩ := h.1 hb'
    have hbq : (0 : ℚ) < (b : ℚ) := by exact_mod_cast hb'
    constructor
    · rw [le_div_iff₀ hbq]
      have : ((b * line.div a b : ℤ) : ℚ) ≤ ((a : ℤ) : ℚ) := by exact_mod_cast h1
      push_cast at this; linarith
    · rw [div_lt_iff₀ hbq]
      have : ((a : ℤ) : ℚ) < ((b * line.div a b + b : ℤ) : ℚ) := by exact_mod_cast h2
      push_cast at this; linarith

/-- The theorem `div_eq_floor` at `a = -7`, `b = 2`: the truncating quotient
is `-3`, the floor is `-4`. -/
theorem div_eq_floor_witness :
    (2 : Int) ≠ 0 ∧ line.div (-7) 2 = ⌊((-7 : Int) : ℚ) / ((2 : Int) : ℚ)⌋ :=
  ⟨by decide, div_eq_floor (-7) 2 (by decide)⟩

/-! ## Evaluations on concrete inputs -/

/-- The container built by `insert_line(2,0)`, `insert_line(0,5)`,
`insert_line(-1,10)`: the line `(0,5)` is erased by the third call. -/
theorem build_scenario (inf : Int) (h : 10 ≤ inf) :
    line_container.build inf [(2, 0), (0, 5), (-1, 10)]
      = [⟨-1, 10, false, 3⟩, ⟨2, 0, false, inf⟩] := by
  have e1 : line.div (-5) (-2) = 2 := by decide
  have e2 : line.div (-5) (-1) = 5 := by decide
  have e3 : line.div (-10) (-3) = 3 := by decide
  have h1 : ¬ (inf ≤ 2) := by omega
  have h2 : ¬ (inf ≤ 3) := by omega
  simp [line_container.build, line_container.insert_line, line_container.restore,
    line_container.erase_right,
    line_container.set_boundary, line.boundary, line.lt, e1, e2, e3, h1, h2]

/-- C10: on the Dynamic container, for every integer type whose maximum is
at least 10, after `insert_line(2,0)`, `insert_line(0,5)`,
`insert_line(-1,10)` in that order, `maximum(0) = 10`, `maximum(10) = 20`
and `maximum(3) = 7`. -/
theorem dynamic_scenario (inf : Int) (h : 10 ≤ inf) :
    line_container.maximum (line_container.build inf [(2, 0), (0, 5), (-1, 10)]) 0 = .ok 10 ∧
    line_container.maximum (line_container.build inf [(2, 0), (0, 5), (-1, 10)]) 10 = .ok 20 ∧
    line_container.maximum (line_container.build inf [(2, 0), (0, 5), (-1, 10)]) 3 = .ok 7 := by
  rw [build_scenario inf h]
  have h1 : ¬ (inf < 10) := by omega
  simp [line_container.maximum, lower_bound, line.lt, line.eval, h1]

/-- The theorem `dynamic_scenario` for 32-bit `int`. -/
theorem dynamic_scenario_witness :
    (10 : Int) ≤ 2147483647 ∧
    line_container.maximum
      (line_container.build 2147483647 [(2, 0), (0, 5), (-1, 10)]) 0 = .ok 10 ∧
    line_container.maximum
      (line_container.build 2147483647 [(2, 0), (0, 5), (-1, 10)]) 10 = .ok 20 ∧
    line_container.maximum
      (line_container.build 2147483647 [(2, 0), (0, 5), (-1, 10)]) 3 = .ok 7 :=
  ⟨by decide, dynamic_scenario 2147483647 (by decide)⟩

/-- C3 (the code at the failing input): for 32-bit `int`, the Static
container constructed from the batch `(0,0)`, `(10,-1)`, `(11,-5)` holds
only `(0,0)` and `(11,-5)`, and `maximum(2)` returns `17`, which is not the
maximum `19 = 10 * 2 - 1` of the batch at `2`. -/
theorem static_maximum_not_envelope :
    line_container_static.construct 2147483647 [(0, 0), (10, -1), (11, -5)]
      = [⟨0, 0, false, 0⟩, ⟨11, -5, false, 2147483647⟩] ∧
    line_container_static.maximum
      (line_container_static.construct 2147483647 [(0, 0), (10, -1), (11, -5)]) 2 = .ok 17 ∧
    ¬ is_maximum 2 [(0, 0), (10, -1), (11, -5)] 17 ∧
    is_maximum 2 [(0, 0), (10, -1), (11, -5)] 19 := by
  refine ⟨by decide, by rfl, by decide, by decide⟩

/-- C8 (the code at the failing input): for 32-bit `int` and the batch
`(0,0)`, `(10,-1)`, `(11,-5)`, `maximum(2)` is `17` on the Static container
and `19` on the Dynamic container filled in batch order. -/
theorem static_differs_from_dynamic :
    line_container_static.maximum
      (line_container_static.construct 2147483647 [(0, 0), (10, -1), (11, -5)]) 2 = .ok 17 ∧
    line_container.maximum
      (line_container.build 2147483647 [(0, 0), (10, -1), (11, -5)]) 2 = .ok 19 := by
  refine ⟨by rfl, by rfl⟩

/-- C5 (the code on empty containers): `maximum` on the empty Dynamic and
Monotonic containers ends in the failed assertion; on the Static container,
default-constructed or constructed from an empty batch, no assertion is
checked and the end iterator of the empty hull is dereferenced. -/
theorem maximum_on_empty (inf x : Int) :
    line_container.maximum [] x = .error failure.assertion_failed ∧
    line_container_monotonic.maximum [] x = .error failure.assertion_failed ∧
    line_container_static.maximum [] x = .error failure.end_dereferenced ∧
    line_container_static.maximum (line_container_static.construct inf []) x
      = .error failure.end_dereferenced := by
  refine ⟨rfl, rfl, rfl, rfl⟩

/-! ## Meaning of the stored boundary -/

/-- For a line `s` of smaller slope than `o`, `s.boundary o` is the last
point at which `s` is at least as high as `o`. -/
theorem boundary_le_iff (inf : Int) (s o : line) (h : s.a < o.a) (x : Int) :
    x ≤ s.boundary inf o ↔ o.eval x ≤ s.eval x := by
  unfold line.boundary line.eval
  rw [if_neg (ne_of_lt h)]
  have hd : s.a - o.a < 0 := by omega
  obtain ⟨h1, h2⟩ := (div_spec (o.b - s.b) (s.a - o.a)).2 hd
  generalize line.div (o.b - s.b) (s.a - o.a) = q at h1 h2
  constructor
  · intro hx
    nlinarith
  · intro hx
    by_contra hlt
    push_neg at hlt
    have : q + 1 ≤ x := hlt
    nlinarith

/-- At a point up to the boundary (and above `-inf`) the left line is at
least as high as the right one. -/
theorem eval_le_of_le_boundary (inf : Int) (s o : line) (h : s.a ≤ o.a) (x : Int)
    (hx : -inf < x) (hle : x ≤ s.boundary inf o) : o.eval x ≤ s.eval x := by
  rcases lt_or_eq_of_le h with hlt | heq
  · exact (boundary_le_iff inf s o hlt x).mp hle
  · unfold line.boundary at hle
    rw [if_pos heq] at hle
    unfold line.eval
    split_ifs at hle with hb
    · rw [heq]; omega
    · omega

/-- At a point past the boundary (and up to `inf`) the right line is at
least as high as the left one. -/
theorem eval_le_of_boundary_lt (inf : Int) (s o : line) (h : s.a ≤ o.a) (x : Int)
    (hx : x ≤ inf) (hlt : s.boundary inf o < x) : s.eval x ≤ o.eval x := by
  rcases lt_or_eq_of_le h with hl | heq
  · have := (boundary_le_iff inf s o hl x).not.mp (by omega)
    omega
  · unfold line.boundary at hlt
    rw [if_pos heq] at hlt
    unfold line.eval
    split_ifs at hlt with hb
    · omega
    · rw [heq]; omega

/-! ## Monotonic container: the deque invariant -/

theorem adj_congr_right (inf : Int) (p n n' : line) (ha : n'.a = n.a) (hb : n'.b = n.b)
    (h : adj inf p n) : adj inf p n' := by
  unfold adj line.boundary at *
  rw [ha, hb]; exact h

/-- The boundary depends on the left line only through its slope and
intercept. -/
theorem boundary_congr_left (inf : Int) (s s' o : line) (ha : s'.a = s.a) (hb : s'.b = s.b) :
    s'.boundary inf o = s.boundary inf o := by
  unfold line.boundary
  rw [ha, hb]

namespace line_container_monotonic

/-- The front-popping loop of `maximum` stops at the first line whose stored
boundary is not below `x`; such a line exists because the last one has
stored boundary `inf`. -/
theorem pop_front_loop_spec (inf x : Int) (hx : x ≤ inf) :
    ∀ c : List line, mono_inv inf c → c ≠ [] →
      ∃ pre f rest, c = pre ++ f :: rest ∧
        pop_front_loop x c = .ok (f.eval x, f :: rest) ∧ x ≤ f.l ∧ ∀ p ∈ pre, p.l < x := by
  intro c
  induction c with
  | nil => intro _ h; exact absurd rfl h
  | cons f t ih =>
    intro hinv _
    by_cases hf : f.l < x
    · cases t with
      | nil =>
        have := hinv.2 f (by simp)
        omega
      | cons n t' =>
        have hinv' : mono_inv inf (n :: t') := by
          refine ⟨(List.chain'_cons.mp hinv.1).2, ?_⟩
          intro e he
          exact hinv.2 e (by simpa using he)
        obtain ⟨pre, g, rest, hc, hp, hg, hpre⟩ := ih hinv' (by simp)
        refine ⟨f :: pre, g, rest, by rw [hc]; rfl, ?_, hg, ?_⟩
        · rw [pop_front_loop, if_pos hf]; exact hp
        · intro p hp'
          rcases List.mem_cons.mp hp' with rfl | h
          · exact hf
          · exact hpre p h
    · refine ⟨[], f, t, rfl, ?_, by omega, by simp⟩
      rw [pop_front_loop, if_neg hf]

end line_container_monotonic

/-- In a linked deque, at a point `x` in `(-inf, inf]` that is not past the
stored boundary of the first line, no later line is higher than the first. -/
theorem mono_first_is_top (inf x : Int) (hlo : -inf < x) (hhi : x ≤ inf) :
    ∀ (rest : List line) (f : line), (f :: rest).Chain' (mono_link inf) → x ≤ f.l →
      ∀ e ∈ rest, e.eval x ≤ f.eval x := by
  intro rest
  induction rest with
  | nil => intro f _ _ e he; simp at he
  | cons n t ih =>
    intro f hch hxf e he
    obtain ⟨hlink, hch'⟩ := List.chain'_cons.mp hch
    have h1 : n.eval x ≤ f.eval x :=
      eval_le_of_le_boundary inf f n hlink.1.1 x hlo (by rw [← hlink.1.2]; exact hxf)
    have h2 : x ≤ n.l := le_trans (le_min hxf hhi) hlink.2
    rcases List.mem_cons.mp he with rfl | h
    · exact h1
    · exact le_trans (ih n hch' h2 e h) h1

/-- In a linked deque, lines whose stored boundaries are all below `x ≤ inf`
are at `x` at most as high as the line that follows them. -/
theorem mono_popped_below (inf x : Int) (hhi : x ≤ inf) :
    ∀ (pre : List line) (f : line) (rest : List line),
      (pre ++ f :: rest).Chain' (mono_link inf) → (∀ p ∈ pre, p.l < x) →
      ∀ p ∈ pre, p.eval x ≤ f.eval x := by
  intro pre
  induction pre with
  | nil => intro f rest _ _ p hp; simp at hp
  | cons p0 t ih =>
    intro f rest hch hlt p hp
    have hch' : (t ++ f :: rest).Chain' (mono_link inf) := by
      have : (p0 :: (t ++ f :: rest)).Chain' (mono_link inf) := hch
      exact (List.chain'_cons'.mp this).2
    have hrec := ih f rest hch' (fun q hq => hlt q (List.mem_cons_of_mem _ hq))
    rcases List.mem_cons.mp hp with rfl | h
    · cases t with
      | nil =>
        have hl : mono_link inf p f := by
          have : (p :: f :: rest).Chain' (mono_link inf) := hch
          exact (List.chain'_cons.mp this).1
        exact eval_le_of_boundary_lt inf p f hl.1.1 x hhi (by rw [← hl.1.2]; exact hlt p (by simp))
      | cons n t' =>
        have hl : mono_link inf p n := by
          have : (p :: n :: (t' ++ f :: rest)).Chain' (mono_link inf) := hch
          exact (List.chain'_cons.mp this).1
        have h1 := eval_le_of_boundary_lt inf p n hl.1.1 x hhi
          (by rw [← hl.1.2]; exact hlt p (by simp))
        exact le_trans h1 (hrec n (by simp))
    · exact hrec p h

namespace line_container_monotonic

/-- The back-popping loop of `insert_line`: the deque it leaves (back to
front) is linked up to the new line, keeps only lines of the old deque, and
at every point of `(-inf, inf]` every old line is at most as high as a line
that is kept or the new line. -/
theorem pop_loop_spec (inf : Int) (ins : line) (hins : ins.l = inf) :
    ∀ (rest : List line) (bk : line),
      rest.Chain' (flip (mono_link inf)) →
      (∀ n ∈ rest.head?, adj inf n bk) →
      adj inf bk ins →
      (∀ e ∈ rest, e.a ≤ ins.a) →
      (ins :: pop_loop inf ins bk rest).Chain' (flip (mono_link inf)) ∧
      (∀ e ∈ pop_loop inf ins bk rest, ∃ e' ∈ bk :: rest, e.a = e'.a ∧ e.b = e'.b) ∧
      (∀ x, -inf < x → x ≤ inf → ∀ e ∈ bk :: rest,
        ∃ e' ∈ ins :: pop_loop inf ins bk rest, e.eval x ≤ e'.eval x) := by
  intro rest
  induction rest with
  | nil =>
    intro bk _ _ hb _
    refine ⟨?_, ?_, ?_⟩
    · simp only [pop_loop, List.chain'_cons, List.chain'_singleton, and_true]
      exact ⟨hb, by rw [hins]; exact min_le_right _ _⟩
    · intro e he
      exact ⟨e, by simpa [pop_loop] using he, rfl, rfl⟩
    · intro x _ _ e he
      refine ⟨e, ?_, le_refl _⟩
      simp only [pop_loop]
      simp only [List.mem_singleton] at he
      simp [he]
  | cons n t ih =>
    intro bk hch hadj hb hsl
    have hnb : adj inf n bk := hadj n (by simp)
    by_cases hpop : n.l ≥ bk.l
    · -- the last line is popped
      have hrec := ih { n with l := n.boundary inf ins }
        (List.Chain'.tail hch)
        (by
          intro m hm
          cases t with
          | nil => simp at hm
          | cons m' t' =>
            simp only [List.head?_cons, Option.mem_def, Option.some.injEq] at hm
            subst hm
            have : flip (mono_link inf) n m' := (List.chain'_cons.mp hch).1
            exact adj_congr_right inf m' n _ rfl rfl this.1)
        ⟨hsl n (by simp), rfl⟩
        (fun e he => hsl e (List.mem_cons_of_mem _ he))
      have heq : pop_loop inf ins bk (n :: t)
          = pop_loop inf ins { n with l := n.boundary inf ins } t := by
        rw [pop_loop, if_pos hpop]
      rw [heq]
      refine ⟨hrec.1, ?_, ?_⟩
      · intro e he
        obtain ⟨e', he', h1, h2⟩ := hrec.2.1 e he
        rcases List.mem_cons.mp he' with rfl | h
        · exact ⟨n, by simp, h1, h2⟩
        · exact ⟨e', by simp [h], h1, h2⟩
      · intro x hlo hhi e he
        have hn : ∃ e' ∈ ins :: pop_loop inf ins { n with l := n.boundary inf ins } t,
            n.eval x ≤ e'.eval x := by
          obtain ⟨e', he', h⟩ := hrec.2.2 x hlo hhi { n with l := n.boundary inf ins } (by simp)
          exact ⟨e', he', h⟩
        rcases List.mem_cons.mp he with rfl | h
        · by_cases hxn : x ≤ n.l
          · obtain ⟨e', he', h'⟩ := hn
            refine ⟨e', he', le_trans ?_ h'⟩
            exact eval_le_of_le_boundary inf n e hnb.1 x hlo (by rw [← hnb.2]; exact hxn)
          · refine ⟨ins, by simp, ?_⟩
            exact eval_le_of_boundary_lt inf e ins hb.1 x hhi (by rw [← hb.2]; omega)
        · rcases List.mem_cons.mp h with rfl | h'
          · exact hn
          · exact hrec.2.2 x hlo hhi e (List.mem_cons_of_mem _ h')
    · -- the loop stops
      have heq : pop_loop inf ins bk (n :: t) = bk :: n :: t := by
        rw [pop_loop, if_neg hpop]
      rw [heq]
      refine ⟨?_, ?_, ?_⟩
      · refine List.chain'_cons.mpr ⟨⟨hb, by rw [hins]; exact min_le_right _ _⟩, ?_⟩
        refine List.chain'_cons.mpr ⟨⟨hnb, ?_⟩, hch⟩
        have : min n.l inf ≤ n.l := min_le_left _ _
        omega
      · intro e he
        exact ⟨e, he, rfl, rfl⟩
      · intro x _ _ e he
        exact ⟨e, List.mem_cons_of_mem _ he, le_refl _⟩

/-- One `insert_line(a, b)` with a slope not below the slopes of the deque
keeps the invariant, keeps only inserted lines, leaves the deque non-empty,
and at every point of `(-inf, inf]` the new deque is at least as high as the
old deque and as the new line. -/
theorem mono_insert_line_spec (inf : Int) (c : List line) (a b : Int)
    (hinv : mono_inv inf c) (hsl : ∀ e ∈ c, e.a ≤ a) :
    mono_inv inf (insert_line inf c a b) ∧
    insert_line inf c a b ≠ [] ∧
    (∀ e ∈ insert_line inf c a b, (e.a = a ∧ e.b = b) ∨ ∃ e' ∈ c, e.a = e'.a ∧ e.b = e'.b) ∧
    (∀ x, -inf < x → x ≤ inf →
      (∀ e ∈ c, ∃ e' ∈ insert_line inf c a b, e.eval x ≤ e'.eval x) ∧
      (∃ e' ∈ insert_line inf c a b, a * x + b ≤ e'.eval x)) := by
  unfold insert_line
  rcases hrev : c.reverse with _ | ⟨bk, rest⟩
  · -- empty deque
    have hc : c = [] := by simpa using hrev
    subst hc
    refine ⟨⟨by simp, by simp⟩, by simp, ?_, ?_⟩
    · intro e he
      simp only [List.mem_singleton] at he
      subst he
      exact Or.inl ⟨rfl, rfl⟩
    · intro x _ _
      refine ⟨by simp, ⟨_, List.mem_singleton_self _, le_of_eq ?_⟩⟩
      simp [line.eval]
  · have hc : c = (bk :: rest).reverse := by rw [← hrev, List.reverse_reverse]
    have hbk : bk ∈ c := by rw [hc]; simp
    have hmem : ∀ e, e ∈ c ↔ e ∈ bk :: rest := by intro e; rw [hc]; simp [or_comm]
    by_cases hret : bk.a = a ∧ bk.b ≥ b
    · -- same slope, no better intercept: the call returns at once
      simp only [hret, ge_iff_le, and_self, if_true]
      refine ⟨hinv, ?_, ?_, ?_⟩
      · intro h; rw [h] at hbk; simp at hbk
      · intro e he; exact Or.inr ⟨e, he, rfl, rfl⟩
      · intro x _ _
        refine ⟨fun e he => ⟨e, he, le_refl _⟩, ⟨bk, hbk, ?_⟩⟩
        unfold line.eval
        rw [hret.1]; omega
    · simp only [hret, if_false]
      have hchr : (bk :: rest).Chain' (flip (mono_link inf)) := by
        have := hinv.1
        rw [hc, List.chain'_reverse] at this
        exact this
      have hspec := pop_loop_spec inf ⟨a, b, false, inf⟩ rfl rest
        { bk with l := bk.boundary inf ⟨a, b, false, inf⟩ }
        (List.Chain'.tail hchr)
        (by
          intro m hm
          cases rest with
          | nil => simp at hm
          | cons m' t' =>
            simp only [List.head?_cons, Option.mem_def, Option.some.injEq] at hm
            subst hm
            have : flip (mono_link inf) bk m' := (List.chain'_cons.mp hchr).1
            exact adj_congr_right inf m' bk _ rfl rfl this.1)
        ⟨hsl bk hbk, rfl⟩
        (fun e he => hsl e ((hmem e).mpr (List.mem_cons_of_mem _ he)))
      refine ⟨⟨?_, ?_⟩, by simp, ?_, ?_⟩
      · rw [List.chain'_reverse]
        exact hspec.1
      · intro e he
        rw [List.getLast?_reverse] at he
        simp only [List.head?_cons, Option.mem_def, Option.some.injEq] at he
        rw [← he]
      · intro e he
        simp only [List.mem_reverse] at he
        rcases List.mem_cons.mp he with rfl | h
        · exact Or.inl ⟨rfl, rfl⟩
        · obtain ⟨e', he', h1, h2⟩ := hspec.2.1 e h
          right
          rcases List.mem_cons.mp he' with rfl | h'
          · exact ⟨bk, hbk, h1, h2⟩
          · exact ⟨e', (hmem e').mpr (List.mem_cons_of_mem _ h'), h1, h2⟩
      · intro x hlo hhi
        constructor
        · intro e he
          rcases List.mem_cons.mp ((hmem e).mp he) with rfl | h
          · obtain ⟨e', he', h'⟩ := hspec.2.2 x hlo hhi
              { e with l := e.boundary inf ⟨a, b, false, inf⟩ } (by simp)
            exact ⟨e', List.mem_reverse.mpr he', h'⟩
          · obtain ⟨e', he', h'⟩ := hspec.2.2 x hlo hhi e (List.mem_cons_of_mem _ h)
            exact ⟨e', List.mem_reverse.mpr he', h'⟩
        · refine ⟨⟨a, b, false, inf⟩, by simp, le_of_eq ?_⟩
          simp [line.eval]

end line_container_monotonic

/-! ## Monotonic container: runs of calls -/

theorem inserted_append (l1 l2 : List call) :
    inserted (l1 ++ l2) = inserted l1 ++ inserted l2 := by
  induction l1 with
  | nil => rfl
  | cons c t ih => cases c <;> simp [inserted, ih]

/-- The query points of two runs of calls made one after the other. -/
theorem queried_append (l1 l2 : List call) :
    queried (l1 ++ l2) = queried l1 ++ queried l2 := by
  induction l1 with
  | nil => rfl
  | cons c t ih => cases c <;> simp [queried, ih]

namespace line_container_monotonic

/-- A `maximum(x)` call on a deque in a state reached by earlier calls, at a
point of `(-inf, inf]` not below the earlier queries: the call returns, the
value is the maximum over the inserted lines, and the deque left is again
in a reached state. -/
theorem mono_maximum_spec (inf : Int) (hist : List call) (c : List line) (x : Int)
    (hst : mono_state inf hist c) (hq : ∀ q ∈ queried hist, q ≤ x)
    (hlo : -inf < x) (hhi : x ≤ inf) :
    ∃ v c', maximum c x = .ok (v, c') ∧ is_maximum x (inserted hist) v ∧
      mono_state inf (hist ++ [call.maximum x]) c' := by
  obtain ⟨hinv, hne, hfrom, hcov⟩ := hst
  obtain ⟨pre, f, rest, hc, hpop, hxf, hpre⟩ := pop_front_loop_spec inf x hhi c hinv hne
  have hch : (pre ++ f :: rest).Chain' (mono_link inf) := by rw [← hc]; exact hinv.1
  have hch' : (f :: rest).Chain' (mono_link inf) := (List.chain'_split.mp hch).2
  have hfc : f ∈ c := by rw [hc]; simp
  have htop : ∀ x', x ≤ x' → x' ≤ inf → ∀ e ∈ c, ∃ e' ∈ f :: rest, e.eval x' ≤ e'.eval x' := by
    intro x' hx' hhi' e he
    rw [hc] at he
    rcases List.mem_append.mp he with h | h
    · exact ⟨f, by simp, mono_popped_below inf x' hhi' pre f rest hch
        (fun p hp => lt_of_lt_of_le (hpre p hp) hx') e h⟩
    · exact ⟨e, h, le_refl _⟩
  refine ⟨f.eval x, f :: rest, ?_, ⟨?_, ?_⟩, ?_⟩
  · unfold maximum
    cases c with
    | nil => exact absurd rfl hne
    | cons _ _ => simpa using hpop
  · exact ⟨(f.a, f.b), hfrom f hfc, rfl⟩
  · intro s hs
    obtain ⟨e, he, h1⟩ := hcov x hq hlo hhi s hs
    obtain ⟨e', he', h2⟩ := htop x (le_refl _) hhi e he
    have h3 : e'.eval x ≤ f.eval x := by
      rcases List.mem_cons.mp he' with rfl | h
      · exact le_refl _
      · exact mono_first_is_top inf x hlo hhi rest f hch' hxf e' h
    exact le_trans h1 (le_trans h2 h3)
  · refine ⟨⟨hch', ?_⟩, by simp, ?_, ?_⟩
    · intro e he
      apply hinv.2 e
      rw [hc, List.getLast?_append_of_ne_nil _ (by simp)]
      exact he
    · intro e he
      rw [inserted_append]
      simp only [inserted, List.append_nil]
      exact hfrom e (by rw [hc]; exact List.mem_append_right _ he)
    · intro x' hq' hlo' hhi' s hs
      rw [inserted_append] at hs
      simp only [inserted, List.append_nil] at hs
      have hxx : x ≤ x' := hq' x (by rw [queried_append]; simp [queried])
      have hq'' : ∀ q ∈ queried hist, q ≤ x' := fun q hq0 =>
        hq' q (by rw [queried_append]; exact List.mem_append_left _ hq0)
      obtain ⟨e, he, h1⟩ := hcov x' hq'' hlo' hhi' s hs
      obtain ⟨e', he', h2⟩ := htop x' hxx hhi' e he
      exact ⟨e', he', le_trans h1 h2⟩

/-- An `insert_line(a, b)` call with a slope not below the inserted slopes,
on a deque in a state reached by earlier calls, leaves a reached state. -/
theorem mono_insert_line_state (inf : Int) (hist : List call) (c : List line) (a b : Int)
    (hst : mono_state inf hist c) (hsl : ∀ s ∈ inserted hist, s.1 ≤ a) :
    mono_state inf (hist ++ [call.insert_line a b]) (insert_line inf c a b) := by
  obtain ⟨hinv, _, hfrom, hcov⟩ := hst
  obtain ⟨h1, h2, h3, h4⟩ := mono_insert_line_spec inf c a b hinv
    (fun e he => hsl (e.a, e.b) (hfrom e he))
  have hins : inserted (hist ++ [call.insert_line a b]) = inserted hist ++ [(a, b)] := by
    rw [inserted_append]; rfl
  have hqs : queried (hist ++ [call.insert_line a b]) = queried hist := by
    rw [queried_append]; simp [queried]
  refine ⟨h1, h2, ?_, ?_⟩
  · intro e he
    rw [hins]
    rcases h3 e he with ⟨ha, hb⟩ | ⟨e', he', ha, hb⟩
    · rw [ha, hb]; simp
    · rw [ha, hb]; exact List.mem_append_left _ (hfrom e' he')
  · intro x hq hlo hhi s hs
    rw [hins] at hs
    rw [hqs] at hq
    obtain ⟨hold, hnew⟩ := h4 x hlo hhi
    rcases List.mem_append.mp hs with h | h
    · obtain ⟨e, he, h1⟩ := hcov x hq hlo hhi s h
      obtain ⟨e', he', h2⟩ := hold e he
      exact ⟨e', he', le_trans h1 h2⟩
    · simp only [List.mem_singleton] at h
      subst h
      exact hnew

/-- The first `insert_line(a, b)` call, on the empty deque. -/
theorem insert_line_first (inf a b : Int) :
    mono_state inf [call.insert_line a b] (insert_line inf [] a b) := by
  refine ⟨⟨by simp [insert_line], by simp [insert_line]⟩, by simp [insert_line], ?_, ?_⟩
  · intro e he
    simp only [insert_line, List.reverse_nil, List.mem_singleton] at he
    subst he
    simp [inserted]
  · intro x _ _ _ s hs
    simp only [inserted, List.mem_singleton] at hs
    subst hs
    exact ⟨⟨a, b, false, inf⟩, by simp [insert_line], le_of_eq (by simp [line.eval])⟩

/-- A run of calls with non-decreasing slopes and non-decreasing query
points in `(-inf, inf]`, from a reached state: no call fails and the final
deque is in a reached state. -/
theorem exec_spec (inf : Int) :
    ∀ (calls hist : List call) (c : List line),
      mono_state inf hist c →
      ((inserted (hist ++ calls)).map Prod.fst).Pairwise (· ≤ ·) →
      (queried (hist ++ calls)).Pairwise (· ≤ ·) →
      (∀ q ∈ queried calls, -inf < q ∧ q ≤ inf) →
      ∃ c', exec inf c calls = .ok c' ∧ mono_state inf (hist ++ calls) c' := by
  intro calls
  induction calls with
  | nil =>
    intro hist c hst _ _ _
    exact ⟨c, rfl, by simpa using hst⟩
  | cons k r ih =>
    intro hist c hst hs hq hr
    have happ : hist ++ k :: r = (hist ++ [k]) ++ r := by simp
    cases k with
    | insert_line a b =>
      have hsl : ∀ s ∈ inserted hist, s.1 ≤ a := by
        intro s hs0
        rw [inserted_append, List.map_append, List.pairwise_append] at hs
        exact hs.2.2 s.1 (List.mem_map_of_mem _ hs0) a (by simp [inserted])
      have hst' := mono_insert_line_state inf hist c a b hst hsl
      obtain ⟨c', h1, h2⟩ := ih (hist ++ [call.insert_line a b]) _ hst'
        (by rw [← happ]; exact hs) (by rw [← happ]; exact hq)
        (fun q hq0 => hr q (by simpa [queried] using hq0))
      exact ⟨c', by rw [exec]; exact h1, by rw [happ]; exact h2⟩
    | maximum x =>
      have hqx : ∀ q ∈ queried hist, q ≤ x := by
        intro q hq0
        rw [queried_append, List.pairwise_append] at hq
        exact hq.2.2 q hq0 x (by simp [queried])
      have hx := hr x (by simp [queried])
      obtain ⟨v, c1, hm, _, hst'⟩ := mono_maximum_spec inf hist c x hst hqx hx.1 hx.2
      obtain ⟨c', h1, h2⟩ := ih (hist ++ [call.maximum x]) c1 hst'
        (by rw [← happ]; exact hs) (by rw [← happ]; exact hq)
        (fun q hq0 => hr q (by simp [queried, hq0]))
      exact ⟨c', by rw [exec, hm]; exact h1, by rw [happ]; exact h2⟩

end line_container_monotonic

/-! ## Dynamic container: the multiset invariant -/

/-- Past the boundary of two lines of different slopes the right line is
strictly higher. -/
theorem eval_lt_of_boundary_lt (inf : Int) (s o : line) (h : s.a < o.a) (x : Int)
    (hlt : s.boundary inf o < x) : s.eval x < o.eval x := by
  have := (boundary_le_iff inf s o h x).not.mp (by omega)
  omega

/-- The boundary of two lines whose intercept difference is representable
is not below `-inf`. -/
theorem neg_inf_le_boundary (inf : Int) (hinf : 0 ≤ inf) (s o : line) (h : s.a ≤ o.a)
    (hb : s.a ≠ o.a → o.b - s.b ≤ inf) : -inf ≤ s.boundary inf o := by
  rcases lt_or_eq_of_le h with hlt | heq
  · rw [boundary_le_iff inf s o hlt]
    have h1 := hb (ne_of_lt hlt)
    unfold line.eval
    nlinarith
  · unfold line.boundary
    rw [if_pos heq]
    split_ifs <;> omega

/-- What `boundary_ok` says of two lines of different slopes. -/
theorem boundary_ok_spec (inf : Int) (s o : line) (hne : s.a ≠ o.a)
    (hok : s.boundary_ok inf o = true) :
    (-inf - 1 ≤ o.b - s.b ∧ o.b - s.b ≤ inf) ∧ (-inf - 1 ≤ s.a - o.a ∧ s.a - o.a ≤ inf) ∧
    ¬ (o.b - s.b = -inf - 1 ∧ s.a - o.a = -1) := by
  unfold line.boundary_ok at hok
  rw [if_neg hne] at hok
  simp only [representable, Bool.and_eq_true, decide_eq_true_eq, Bool.not_eq_true',
    Bool.and_eq_false_iff, decide_eq_false_iff_not] at hok
  obtain ⟨⟨h1, h2⟩, h3⟩ := hok
  refine ⟨h1, h2, ?_⟩
  rintro ⟨e1, e2⟩
  rcases h3 with h | h
  · exact h e1
  · exact h e2

/-- A boundary computed without overflow, of a line against one of no
smaller slope, is not below `-inf`. -/
theorem boundary_ok_low (inf : Int) (hinf : 0 ≤ inf) (s o : line) (h : s.a ≤ o.a)
    (hok : s.boundary_ok inf o = true) : -inf ≤ s.boundary inf o :=
  neg_inf_le_boundary inf hinf s o h (fun hne => (boundary_ok_spec inf s o hne hok).1.2)

/-- A boundary computed without overflow, of a line against one of no
smaller slope, is not above `inf`. -/
theorem boundary_ok_high (inf : Int) (hinf : 0 ≤ inf) (s o : line) (h : s.a ≤ o.a)
    (hok : s.boundary_ok inf o = true) : s.boundary inf o ≤ inf := by
  rcases lt_or_eq_of_le h with hlt | heq
  · obtain ⟨⟨h1, _⟩, _, h3⟩ := boundary_ok_spec inf s o (ne_of_lt hlt) hok
    by_contra hcon
    push_neg at hcon
    have e1 := (boundary_le_iff inf s o hlt (inf + 1)).mp (by omega)
    unfold line.eval at e1
    have h4 : ¬ (o.b - s.b = -inf - 1 ∧ o.a - s.a = 1) := by
      rintro ⟨e2, e3⟩
      exact h3 ⟨e2, by omega⟩
    have h5 : 1 ≤ o.a - s.a := by omega
    rcases eq_or_lt_of_le h5 with h6 | h6
    · have : o.b - s.b ≠ -inf - 1 := fun e2 => h4 ⟨e2, h6.symm⟩
      have e2 : o.a * (inf + 1) = s.a * (inf + 1) + (inf + 1) := by
        have : o.a = s.a + 1 := by omega
        rw [this]; ring
      have e3 : o.b - s.b ≤ -inf - 1 := by linarith
      exact this (by omega)
    · have : 2 * (inf + 1) ≤ (o.a - s.a) * (inf + 1) :=
        Int.mul_le_mul_of_nonneg_right (by omega) (by omega)
      nlinarith
  · unfold line.boundary
    rw [if_pos heq]
    split_ifs <;> omega

/-- Strictly ascending stored boundaries also ascend when cut off at `inf`. -/
theorem dyn_link_mono_link (inf : Int) (p n : line) (h : dyn_link inf p n) :
    mono_link inf p n :=
  ⟨h.1, le_trans (min_le_left _ _) (le_of_lt h.2)⟩

/-- In a linked multiset, at a point above `-inf` that is not past the
stored boundary of the first line, no later line is higher than the first. -/
theorem dyn_first_is_top (inf x : Int) (hlo : -inf < x) :
    ∀ (rest : List line) (f : line), (f :: rest).Chain' (dyn_link inf) → x ≤ f.l →
      ∀ e ∈ rest, e.eval x ≤ f.eval x := by
  intro rest
  induction rest with
  | nil => intro f _ _ e he; simp at he
  | cons n t ih =>
    intro f hch hxf e he
    obtain ⟨hlink, hch'⟩ := List.chain'_cons.mp hch
    have h1 : n.eval x ≤ f.eval x :=
      eval_le_of_le_boundary inf f n hlink.1.1 x hlo (by rw [← hlink.1.2]; exact hxf)
    have h2 : x ≤ n.l := le_trans hxf (le_of_lt hlink.2)
    rcases List.mem_cons.mp he with rfl | h
    · exact h1
    · exact le_trans (ih n hch' h2 e h) h1

/-- In a linked multiset whose last stored boundary is `inf`, every stored
boundary is at most `inf`. -/
theorem dyn_le_inf (inf : Int) :
    ∀ c : List line, c.Chain' (dyn_link inf) → (∀ e ∈ c.getLast?, e.l = inf) →
      ∀ e ∈ c, e.l ≤ inf := by
  intro c
  induction c with
  | nil => intro _ _ e he; simp at he
  | cons f t ih =>
    intro hch hlast e he
    cases t with
    | nil =>
      simp only [List.mem_singleton] at he
      subst he
      exact le_of_eq (hlast e (by simp))
    | cons n t' =>
      obtain ⟨hlink, hch'⟩ := List.chain'_cons.mp hch
      have hrec := ih hch' (fun e he => hlast e (by simpa using he))
      rcases List.mem_cons.mp he with rfl | h
      · exact le_trans (le_of_lt hlink.2) (hrec n (by simp))
      · exact hrec e h

/-- The lines of a linked multiset are sorted by slope. -/
theorem dyn_sorted (inf : Int) (c : List line) (h : c.Chain' (dyn_link inf)) :
    c.Pairwise (fun p n => p.a ≤ n.a) := by
  have h1 : c.Chain' (fun p n : line => p.a ≤ n.a) := h.imp (fun _ _ hl => hl.1.1)
  haveI : IsTrans line (fun p n : line => p.a ≤ n.a) := ⟨fun _ _ _ h1 h2 => le_trans h1 h2⟩
  exact List.chain'_iff_pairwise.mp h1

/-- Where `multiset::insert` puts the new line: the lines before it have
slopes up to `a`, the lines after it have larger slopes. -/
theorem insert_position (a b l : Int) :
    ∀ c : List line, c.Pairwise (fun p n => p.a ≤ n.a) → (∀ e ∈ c, e.q = false) →
      (∀ e ∈ c.takeWhile (fun e => !((⟨a, b, false, l⟩ : line).lt e)), e.a ≤ a) ∧
      (∀ e ∈ c.dropWhile (fun e => !((⟨a, b, false, l⟩ : line).lt e)), a < e.a) := by
  intro c
  induction c with
  | nil => intro _ _; simp
  | cons f t ih =>
    intro hs hq
    have hfq : f.q = false := hq f (by simp)
    have hrec := ih (List.Pairwise.of_cons hs) (fun e he => hq e (List.mem_cons_of_mem _ he))
    by_cases hf : a < f.a
    · have hlt : (⟨a, b, false, l⟩ : line).lt f = true := by simp [line.lt, hfq, hf]
      simp only [List.takeWhile_cons, List.dropWhile_cons, hlt, Bool.not_true]
      refine ⟨by simp, ?_⟩
      intro e he
      rcases List.mem_cons.mp he with rfl | h
      · exact hf
      · exact lt_of_lt_of_le hf (List.rel_of_pairwise_cons hs h)
    · have hlt : (⟨a, b, false, l⟩ : line).lt f = false := by simp [line.lt, hfq, hf]
      simp only [List.takeWhile_cons, List.dropWhile_cons, hlt, Bool.not_false, if_true]
      refine ⟨?_, hrec.2⟩
      intro e he
      rcases List.mem_cons.mp he with rfl | h
      · omega
      · exact hrec.1 e h

namespace line_container

/-- What `erase_right_ok` says when there is a line behind `it`: the
boundary against it is computed without overflow, and so is the rest of the
loop when that line is erased. -/
theorem erase_right_ok_cons (inf : Int) (it y : line) (ys : List line)
    (h : erase_right_ok inf it (y :: ys) = true) :
    it.boundary_ok inf y = true ∧
    (it.boundary inf y ≥ y.l →
      erase_right_ok inf { it with l := it.boundary inf y } ys = true) := by
  rw [erase_right_ok] at h
  simp only [set_boundary_ok, set_boundary, Bool.and_eq_true, decide_eq_true_eq] at h
  refine ⟨h.1, fun hc => ?_⟩
  have := h.2
  rw [if_pos hc] at this
  exact this

/-- The right-erasing loop of `insert_line`, run without overflow on the new
line `it` and the lines of larger slope behind it: what is left is a linked multiset that
starts with `it`; at every point of `(-inf, inf]` every line that was behind
`it` is at most as high as a line that is left; and if a line was erased,
the first line behind `it` was, its region ending no later than the
boundary of `it` against it. -/
theorem erase_right_spec (inf : Int) (hinf : 0 ≤ inf) :
    ∀ (post : List line) (it : line),
      post.Chain' (dyn_link inf) → (∀ e ∈ post.getLast?, e.l = inf) →
      (∀ e ∈ post, -inf ≤ e.l ∧ e.q = false) → it.q = false →
      (∀ y ∈ post, it.a < y.a) → erase_right_ok inf it post = true →
      (∃ L, (erase_right inf it post).1 = { it with l := L }) ∧
      dyn_inv inf ((erase_right inf it post).1 :: (erase_right inf it post).2) ∧
      (∀ x, -inf < x → x ≤ inf → ∀ y ∈ post,
        ∃ e ∈ (erase_right inf it post).1 :: (erase_right inf it post).2,
          y.eval x ≤ e.eval x) ∧
      ((erase_right inf it post).2 = post ∨
        ∃ y0 ys E, post = y0 :: ys ∧ y0.l ≤ it.boundary inf y0 ∧
          ys = E ++ (erase_right inf it post).2) := by
  intro post
  induction post with
  | nil =>
    intro it _ _ _ hq _ _
    refine ⟨⟨inf, rfl⟩, ⟨by simp [erase_right], ?_, ?_⟩, by simp, Or.inl rfl⟩
    · intro e he
      simp only [erase_right, set_boundary, List.getLast?_singleton, Option.mem_def,
        Option.some.injEq] at he
      rw [← he]
    · intro e he
      simp only [erase_right, set_boundary, List.mem_singleton] at he
      subst he
      exact ⟨by simp only; omega, hq⟩
  | cons y ys ih =>
    intro it hch hlast hbq hq hsl hok
    have hy := hsl y (by simp)
    obtain ⟨hok1, hok2⟩ := erase_right_ok_cons inf it y ys hok
    by_cases hc : it.boundary inf y ≥ y.l
    · -- `y` is erased
      have heq : erase_right inf it (y :: ys)
          = erase_right inf { it with l := it.boundary inf y } ys := by
        rw [erase_right]; simp [set_boundary, hc]
      have hrec := ih { it with l := it.boundary inf y } (List.Chain'.tail hch)
        (by
          intro e he
          cases ys with
          | nil => simp at he
          | cons y' t => exact hlast e (by simpa using he))
        (fun e he => hbq e (List.mem_cons_of_mem _ he)) hq
        (fun z hz => hsl z (List.mem_cons_of_mem _ hz)) (hok2 hc)
      rw [heq]
      obtain ⟨⟨L, hL⟩, hinv, hdom, hsuf⟩ := hrec
      refine ⟨⟨L, by rw [hL]⟩, hinv, ?_, Or.inr ⟨y, ys, ?_⟩⟩
      · intro x hlo hhi z hz
        have hit : ∃ e ∈ (erase_right inf { it with l := it.boundary inf y } ys).1 ::
            (erase_right inf { it with l := it.boundary inf y } ys).2,
            it.eval x ≤ e.eval x :=
          ⟨_, List.mem_cons_self _ _, le_of_eq (by rw [hL]; rfl)⟩
        rcases List.mem_cons.mp hz with rfl | h
        · by_cases hxy : x ≤ z.l
          · obtain ⟨e, he, h'⟩ := hit
            refine ⟨e, he, le_trans ?_ h'⟩
            exact (boundary_le_iff inf it z hy x).mp (le_trans hxy hc)
          · cases ys with
            | nil =>
              have := hlast z (by simp)
              omega
            | cons y' t =>
              have hl : dyn_link inf z y' := (List.chain'_cons.mp hch).1
              obtain ⟨e, he, h'⟩ := hdom x hlo hhi y' (by simp)
              refine ⟨e, he, le_trans ?_ h'⟩
              exact eval_le_of_boundary_lt inf z y' hl.1.1 x hhi (by rw [← hl.1.2]; omega)
        · exact hdom x hlo hhi z h
      · rcases hsuf with h | ⟨y0, ys', E, h1, _, h3⟩
        · exact ⟨[], rfl, hc, by rw [h]; rfl⟩
        · exact ⟨y0 :: E, rfl, hc, h1.trans (congrArg (List.cons y0) h3)⟩
    · -- the loop stops at `y`
      have heq : erase_right inf it (y :: ys)
          = ({ it with l := it.boundary inf y }, y :: ys) := by
        rw [erase_right]; simp [set_boundary, hc]
      rw [heq]
      refine ⟨⟨_, rfl⟩, ⟨?_, ?_, ?_⟩, ?_, Or.inl rfl⟩
      · refine List.chain'_cons.mpr ⟨⟨⟨le_of_lt hy, rfl⟩, ?_⟩, hch⟩
        simp only
        omega
      · intro e he
        exact hlast e (by simpa using he)
      · intro e he
        rcases List.mem_cons.mp he with rfl | h
        · refine ⟨?_, hq⟩
          exact boundary_ok_low inf hinf it y (le_of_lt hy) hok1
        · exact hbq e h
      · intro x _ _ z hz
        exact ⟨z, List.mem_cons_of_mem _ hz, le_refl _⟩

end line_container

/-- Three lines of ascending slopes, the middle one covered by the outer two
(its boundary against the right line is not past the boundary of the left
line against it): the boundary of the outer two is not past the boundary of
the left and the middle line. -/
theorem boundary_middle (inf : Int) (pp p it : line) (h1 : pp.a ≤ p.a) (h2 : p.a ≤ it.a)
    (hu : -inf ≤ p.boundary inf it) (huv : p.boundary inf it ≤ pp.boundary inf p)
    (hv : pp.boundary inf p < inf) : pp.boundary inf it ≤ pp.boundary inf p := by
  by_contra hcon
  push_neg at hcon
  have hx1 : -inf < pp.boundary inf p + 1 := by omega
  have hx2 : pp.boundary inf p + 1 ≤ inf := by omega
  have e1 := eval_le_of_le_boundary inf pp it (le_trans h1 h2) _ hx1 (by omega)
  have e2 := eval_le_of_boundary_lt inf pp p h1 _ hx2 (by omega)
  have e3 := eval_le_of_boundary_lt inf p it h2 _ hx2 (by omega)
  rcases lt_or_eq_of_le h1 with hlt1 | heq1
  · have := eval_lt_of_boundary_lt inf pp p hlt1 (pp.boundary inf p + 1) (by omega)
    omega
  · rcases lt_or_eq_of_le h2 with hlt2 | heq2
    · have := eval_lt_of_boundary_lt inf p it hlt2 (pp.boundary inf p + 1) (by omega)
      omega
    · have heq3 : pp.a = it.a := heq1.trans heq2
      unfold line.boundary at hu huv hv hcon
      rw [if_pos heq1] at huv hv hcon
      rw [if_pos heq2] at hu huv
      rw [if_pos heq3] at hcon
      split_ifs at hu huv hv hcon <;> omega

namespace line_container

/-- The left-erasing loop stops at once when the two lines before `it` are
linked. -/
theorem erase_left_stop (inf : Int) (it : Option line) (p pp : line) (rest : List line)
    (h : dyn_link inf pp p) : erase_left inf it p (pp :: rest) = p :: pp :: rest := by
  have h1 : pp.boundary inf p = pp.l := h.1.2.symm
  have h2 : ¬ (pp.l ≥ p.l) := by have := h.2; omega
  rw [erase_left]
  simp [set_boundary, h1, h2]

/-- What `erase_left_ok` says when there is a line `pp` before `p`: the
boundary of `pp` against `p` is computed without overflow, and when `p` is
erased so are the boundary of `pp` against `it` and the rest of the loop. -/
theorem erase_left_ok_cons (inf : Int) (it p pp : line) (rest : List line)
    (h : erase_left_ok inf (some it) p (pp :: rest) = true) :
    pp.boundary_ok inf p = true ∧
    (pp.boundary inf p ≥ p.l →
      pp.boundary_ok inf it = true ∧
      erase_left_ok inf (some it) { pp with l := pp.boundary inf it } rest = true) := by
  rw [erase_left_ok] at h
  simp only [set_boundary_ok, set_boundary, Bool.and_eq_true, decide_eq_true_eq] at h
  refine ⟨h.1, fun hc => ?_⟩
  have := h.2
  rw [if_pos hc, Bool.and_eq_true] at this
  exact ⟨this.1, this.2⟩

/-- The left-erasing loop of `insert_line`, run without overflow when the
line `p` before `it` is linked to `it`.  `L0` is the stored boundary that `p` had before the
call: the lines before `p` were linked to `p` with it, and on the points
past the region of `it` up to `L0` the line `p` is strictly higher than
`it`.  What is left before `it` is linked up to `it`, and at every point of
`(-inf, inf]` every line that was before `it` is at most as high as `it` or
a line that is left. -/
theorem erase_left_spec (inf : Int) (hinf : 0 ≤ inf) (it : line) :
    ∀ (rest : List line) (p : line) (L0 : Int),
      rest.Chain' (flip (dyn_link inf)) →
      (∀ pp ∈ rest.head?, adj inf pp p ∧ pp.l < L0) →
      dyn_link inf p it → -inf ≤ p.l →
      (∀ e ∈ rest, -inf ≤ e.l) →
      erase_left_ok inf (some it) p rest = true →
      (∀ x, -inf < x → it.l < x → x ≤ L0 → it.eval x < p.eval x) →
      L0 ≤ inf →
      (it :: erase_left inf (some it) p rest).Chain' (flip (dyn_link inf)) ∧
      (∀ e ∈ erase_left inf (some it) p rest, -inf ≤ e.l) ∧
      (∀ e ∈ erase_left inf (some it) p rest,
        ∃ e' ∈ p :: rest, e.a = e'.a ∧ e.b = e'.b ∧ e.q = e'.q) ∧
      (∀ x, -inf < x → x ≤ inf → ∀ e ∈ p :: rest,
        ∃ e' ∈ it :: erase_left inf (some it) p rest, e.eval x ≤ e'.eval x) := by
  intro rest
  induction rest with
  | nil =>
    intro p L0 _ _ hp hpl _ _ _ _
    refine ⟨?_, ?_, ?_, ?_⟩
    · simp only [erase_left, List.chain'_cons, List.chain'_singleton, and_true]
      exact hp
    · intro e he
      simp only [erase_left, List.mem_singleton] at he
      subst he; exact hpl
    · intro e he
      exact ⟨e, by simpa [erase_left] using he, rfl, rfl, rfl⟩
    · intro x _ _ e he
      exact ⟨e, List.mem_cons_of_mem _ (by simpa [erase_left] using he), le_refl _⟩
  | cons pp t ih =>
    intro p L0 hch hadj hp hpl hbl hok hz hL0
    obtain ⟨hppp, hppL⟩ := hadj pp (by simp)
    obtain ⟨_, hok2⟩ := erase_left_ok_cons inf it p pp t hok
    have hb1 : pp.boundary inf p = pp.l := hppp.2.symm
    by_cases hc : pp.l ≥ p.l
    · -- `p` is erased
      have heq : erase_left inf (some it) p (pp :: t)
          = erase_left inf (some it) { pp with l := pp.boundary inf it } t := by
        rw [erase_left]
        simp only [set_boundary, hb1, hc, decide_True, if_true]
      have hslope : pp.a ≤ it.a := le_trans hppp.1 hp.1.1
      have hmid : pp.boundary inf it ≤ pp.l := by
        have := boundary_middle inf pp p it hppp.1 hp.1.1 (by rw [← hp.1.2]; exact hpl)
          (by rw [← hp.1.2, hb1]; exact hc) (by rw [hb1]; omega)
        rwa [hb1] at this
      have hlt : pp.boundary inf it < it.l := by
        by_contra hcon
        push_neg at hcon
        have hw1 : -inf < it.l + 1 := by have := hp.2; omega
        have hw2 : it.l + 1 ≤ L0 := by omega
        have e1 := hz (it.l + 1) hw1 (by omega) hw2
        have e2 := eval_le_of_boundary_lt inf p it hp.1.1 (it.l + 1) (by omega)
          (by rw [← hp.1.2]; have := hp.2; omega)
        omega
      have hrec := ih { pp with l := pp.boundary inf it } pp.l (List.Chain'.tail hch)
        (by
          intro m hm
          cases t with
          | nil => simp at hm
          | cons m' t' =>
            simp only [List.head?_cons, Option.mem_def, Option.some.injEq] at hm
            subst hm
            have : flip (dyn_link inf) pp m' := (List.chain'_cons.mp hch).1
            exact ⟨adj_congr_right inf m' pp _ rfl rfl this.1, this.2⟩)
        ⟨⟨hslope, rfl⟩, hlt⟩
        (boundary_ok_low inf hinf pp it hslope (hok2 (by rw [hb1]; exact hc)).1)
        (fun e he => hbl e (List.mem_cons_of_mem _ he))
        (hok2 (by rw [hb1]; exact hc)).2
        (by
          intro x hx1 hx2 hx3
          have e1 := hz x hx1 hx2 (by omega)
          have e2 := eval_le_of_le_boundary inf pp p hppp.1 x hx1 (by rw [hb1]; exact hx3)
          show it.eval x < pp.eval x
          omega)
        (by omega)
      rw [heq]
      obtain ⟨r1, r2, r3, r4⟩ := hrec
      refine ⟨r1, r2, ?_, ?_⟩
      · intro e he
        obtain ⟨e', he', h1, h2, h3⟩ := r3 e he
        rcases List.mem_cons.mp he' with rfl | h
        · exact ⟨pp, by simp, h1, h2, h3⟩
        · exact ⟨e', by simp [h], h1, h2, h3⟩
      · intro x hlo hhi e he
        have hpp : ∃ e' ∈ it :: erase_left inf (some it) { pp with l := pp.boundary inf it } t,
            pp.eval x ≤ e'.eval x := r4 x hlo hhi { pp with l := pp.boundary inf it } (by simp)
        rcases List.mem_cons.mp he with rfl | h
        · by_cases hxv : x ≤ pp.l
          · obtain ⟨e', he', h'⟩ := hpp
            refine ⟨e', he', le_trans ?_ h'⟩
            exact eval_le_of_le_boundary inf pp e hppp.1 x hlo (by rw [hb1]; exact hxv)
          · refine ⟨it, by simp, ?_⟩
            exact eval_le_of_boundary_lt inf e it hp.1.1 x hhi (by rw [← hp.1.2]; omega)
        · rcases List.mem_cons.mp h with rfl | h'
          · exact hpp
          · exact r4 x hlo hhi e (List.mem_cons_of_mem _ h')
    · -- the loop stops
      have hlink : dyn_link inf pp p := ⟨hppp, by omega⟩
      rw [erase_left_stop inf (some it) p pp t hlink]
      refine ⟨?_, ?_, ?_, ?_⟩
      · exact List.chain'_cons.mpr ⟨hp, List.chain'_cons.mpr ⟨hlink, hch⟩⟩
      · intro e he
        rcases List.mem_cons.mp he with rfl | h
        · exact hpl
        · exact hbl e h
      · intro e he
        exact ⟨e, he, rfl, rfl, rfl⟩
      · intro x _ _ e he
        exact ⟨e, List.mem_cons_of_mem _ he, le_refl _⟩

end line_container

namespace line_container

/-- The new line is covered by the line `p` before it, whose old boundary
was against the first line `y0` behind: then the right-erasing loop erased
nothing. -/
theorem covered_erases_nothing (inf : Int) (hinf : 0 ≤ inf) (p it : line) (after : List line)
    (hch : (p :: after).Chain' (dyn_link inf)) (hlast : ∀ e ∈ (p :: after).getLast?, e.l = inf)
    (hbq : ∀ e ∈ p :: after, -inf ≤ e.l ∧ e.q = false) (hq : it.q = false)
    (hpa : p.a ≤ it.a) (ha : ∀ y ∈ after, it.a < y.a)
    (hokR : erase_right_ok inf it after = true)
    (hcov : p.boundary inf it ≥ (erase_right inf it after).1.l) :
    (erase_right inf it after).2 = after := by
  have hchA : after.Chain' (dyn_link inf) := List.Chain'.tail hch
  have hlastA : ∀ e ∈ after.getLast?, e.l = inf := by
    intro e he
    cases after with
    | nil => simp at he
    | cons y t => exact hlast e (by simpa using he)
  obtain ⟨⟨L, hL⟩, hinv, _, hsuf⟩ := erase_right_spec inf hinf after it hchA hlastA
    (fun e he => hbq e (List.mem_cons_of_mem _ he)) hq ha hokR
  rcases hsuf with h | ⟨y0, ys, E, h1, h2, h3⟩
  · exact h
  · exfalso
    subst h1
    have hy0 := ha y0 (by simp)
    have hlink : dyn_link inf p y0 := (List.chain'_cons.mp hch).1
    have hpl : -inf ≤ p.l := (hbq p (by simp)).1
    have hle := dyn_le_inf inf (p :: y0 :: ys) hch hlast
    -- the point just past the old region of `p`
    have f1 : y0.eval (p.l + 1) ≤ it.eval (p.l + 1) :=
      (boundary_le_iff inf it y0 hy0 _).mp (by have := hlink.2; omega)
    have f2 : p.eval (p.l + 1) < y0.eval (p.l + 1) :=
      eval_lt_of_boundary_lt inf p y0 (lt_of_le_of_lt hpa hy0) _ (by rw [← hlink.1.2]; omega)
    have f3 : p.boundary inf it < p.l + 1 := by
      by_contra hcon
      push_neg at hcon
      have := eval_le_of_le_boundary inf p it hpa (p.l + 1) (by omega) hcon
      omega
    have hL' : (erase_right inf it (y0 :: ys)).1.l = L := by rw [hL]
    cases hr : (erase_right inf it (y0 :: ys)).2 with
    | nil =>
      rw [hr] at hinv
      have := hinv.2.1 (erase_right inf it (y0 :: ys)).1 (by simp)
      have := hle y0 (by simp)
      have := hlink.2
      omega
    | cons z t =>
      rw [hr] at hinv h3
      have hl2 : dyn_link inf (erase_right inf it (y0 :: ys)).1 z := (List.chain'_cons.mp hinv.1).1
      have hzmem : z ∈ ys := by rw [h3]; simp
      have hbz : it.boundary inf z = (erase_right inf it (y0 :: ys)).1.l := by
        rw [hl2.1.2, hL]
        exact (boundary_congr_left inf it _ z rfl rfl).symm
      have f4 : it.eval (p.l + 1) < z.eval (p.l + 1) :=
        eval_lt_of_boundary_lt inf it z (ha z (List.mem_cons_of_mem _ hzmem)) _
          (by rw [hbz]; omega)
      have f5 : z.eval (p.l + 1) ≤ y0.eval (p.l + 1) :=
        dyn_first_is_top inf (p.l + 1) (by omega) ys y0 hchA (by have := hlink.2; omega) z hzmem
      omega

/-- Absence of overflow in `restore` is absence of overflow in its
right-erasing loop, and more. -/
theorem restore_ok_right (inf : Int) (before : List line) (it : line) (after : List line)
    (h : restore_ok inf before it after = true) : erase_right_ok inf it after = true := by
  unfold restore_ok at h
  simp only [Bool.and_eq_true] at h
  exact h.1

/-- What `restore_ok` says when there is a line `p` before `it`: the
boundary of `p` against `it` is computed without overflow, and when `it` is
not covered the left-erasing loop runs without overflow. -/
theorem restore_ok_cons (inf : Int) (p : line) (rest : List line) (it : line)
    (after : List line) (h : restore_ok inf (p :: rest) it after = true) :
    p.boundary_ok inf (erase_right inf it after).1 = true ∧
    (¬ p.boundary inf (erase_right inf it after).1 ≥ (erase_right inf it after).1.l →
      erase_left_ok inf (some (erase_right inf it after).1)
        { p with l := p.boundary inf (erase_right inf it after).1 } rest = true) := by
  unfold restore_ok at h
  simp only [set_boundary_ok, set_boundary, Bool.and_eq_true, decide_eq_true_eq] at h
  refine ⟨h.2.1, fun hc => ?_⟩
  have := h.2.2
  rw [if_neg hc] at this
  exact this

/-- The statements of `insert_line` after the insertion, run without
overflow, keep the invariant: if the multiset was linked before the new line `it` was put at its place,
the multiset left is linked, holds only `it` and old lines, and at every
point of `(-inf, inf]` is as high as `it` and as every old line. -/
theorem restore_spec (inf : Int) (hinf : 0 ≤ inf) (before : List line) (it : line)
    (after : List line) (hinv : dyn_inv inf (before.reverse ++ after)) (hq : it.q = false)
    (hb : ∀ e ∈ before, e.a ≤ it.a) (ha : ∀ y ∈ after, it.a < y.a)
    (hok : restore_ok inf before it after = true) :
    dyn_inv inf (restore inf before it after) ∧
    restore inf before it after ≠ [] ∧
    (∀ e ∈ restore inf before it after,
      (e.a = it.a ∧ e.b = it.b) ∨ ∃ e' ∈ before.reverse ++ after, e.a = e'.a ∧ e.b = e'.b) ∧
    (∀ x, -inf < x → x ≤ inf → ∀ e ∈ it :: (before.reverse ++ after),
      ∃ e' ∈ restore inf before it after, e.eval x ≤ e'.eval x) := by
  obtain ⟨hch, hlast, hbq⟩ := hinv
  have hchA : after.Chain' (dyn_link inf) := (List.chain'_append.mp hch).2.1
  have hlastA : ∀ e ∈ after.getLast?, e.l = inf := by
    intro e he
    cases after with
    | nil => simp at he
    | cons y t =>
      apply hlast e
      rw [List.getLast?_append_of_ne_nil _ (by simp)]
      exact he
  have hbqA : ∀ e ∈ after, -inf ≤ e.l ∧ e.q = false :=
    fun e he => hbq e (List.mem_append_right _ he)
  have hokR := restore_ok_right inf before it after hok
  obtain ⟨⟨L, hL⟩, hinvR, hdomR, hsuf⟩ :=
    erase_right_spec inf hinf after it hchA hlastA hbqA hq ha hokR
  have hsub : ∀ e ∈ (erase_right inf it after).2, e ∈ after := by
    intro e he
    rcases hsuf with h | ⟨y0, ys, E, h1, _, h3⟩
    · rw [← h]; exact he
    · rw [h1, h3]; simp [he]
  have hr1a : (erase_right inf it after).1.a = it.a := by rw [hL]
  have hr1b : (erase_right inf it after).1.b = it.b := by rw [hL]
  have hr1e : ∀ x, (erase_right inf it after).1.eval x = it.eval x := by
    intro x; rw [hL]; rfl
  cases before with
  | nil =>
    have heq : restore inf [] it after
        = (erase_right inf it after).1 :: (erase_right inf it after).2 := rfl
    rw [heq]
    refine ⟨hinvR, by simp, ?_, ?_⟩
    · intro e he
      rcases List.mem_cons.mp he with rfl | h
      · exact Or.inl ⟨hr1a, hr1b⟩
      · exact Or.inr ⟨e, by simpa using hsub e h, rfl, rfl⟩
    · intro x hlo hhi e he
      rcases List.mem_cons.mp he with rfl | h
      · exact ⟨_, List.mem_cons_self _ _, le_of_eq (hr1e x).symm⟩
      · exact hdomR x hlo hhi e (by simpa using h)
  | cons p rest =>
    have hchB : (p :: rest).Chain' (flip (dyn_link inf)) := by
      have := (List.chain'_append.mp hch).1
      rwa [List.chain'_reverse] at this
    have hjoin : ∀ y ∈ after.head?, dyn_link inf p y := by
      intro y hy
      exact (List.chain'_append.mp hch).2.2 p (by simp) y hy
    have hpA : (p :: after).Chain' (dyn_link inf) := by
      cases after with
      | nil => simp
      | cons y t => exact List.chain'_cons.mpr ⟨hjoin y (by simp), hchA⟩
    have hpAlast : ∀ e ∈ (p :: after).getLast?, e.l = inf := by
      intro e he
      apply hlast e
      cases after with
      | nil => simpa using he
      | cons y t =>
        rw [List.getLast?_append_of_ne_nil _ (by simp)]
        simpa using he
    have hpmem : p ∈ (p :: rest).reverse ++ after := by simp
    have hpb := hb p (by simp)
    obtain ⟨hokp, hokL⟩ := restore_ok_cons inf p rest it after hok
    have hbp_eq : p.boundary inf (erase_right inf it after).1 = p.boundary inf it := by
      unfold line.boundary; rw [hr1a, hr1b]
    by_cases hcov : p.boundary inf it ≥ (erase_right inf it after).1.l
    · -- the new line is covered and erased: the multiset is as before
      have hnothing : (erase_right inf it after).2 = after :=
        covered_erases_nothing inf hinf p it after hpA hpAlast
          (by
            intro e he
            rcases List.mem_cons.mp he with rfl | h
            · exact hbq e hpmem
            · exact hbqA e h)
          hq hpb ha hokR hcov
      have hp2 : (set_boundary inf (set_boundary inf p (some (erase_right inf it after).1)).1
          after.head?).1 = p := by
        cases after with
        | nil =>
          have : p.l = inf := hpAlast p (by simp)
          simp only [set_boundary, List.head?_nil]
          rw [← this]
        | cons y t =>
          have : p.l = p.boundary inf y := (hjoin y (by simp)).1.2
          simp only [set_boundary, List.head?_cons]
          have h2 : line.boundary inf
              { a := p.a, b := p.b, q := p.q,
                l := p.boundary inf (erase_right inf it (y :: t)).1 } y = p.l := by
            rw [this]; rfl
          rw [h2]
      have hel : erase_left inf after.head? p rest = p :: rest := by
        cases rest with
        | nil => rfl
        | cons pp t => exact erase_left_stop inf _ p pp t (List.chain'_cons.mp hchB).1
      have heq : restore inf (p :: rest) it after = (p :: rest).reverse ++ after := by
        show (if (set_boundary inf p (some (erase_right inf it after).1)).2 then _ else _) = _
        have hc : (set_boundary inf p (some (erase_right inf it after).1)).2 = true := by
          simp only [set_boundary, hbp_eq, decide_eq_true_eq]
          exact hcov
        rw [if_pos hc, hnothing, hp2, hel]
      rw [heq]
      refine ⟨⟨hch, hlast, hbq⟩, by simp, ?_, ?_⟩
      · intro e he
        exact Or.inr ⟨e, he, rfl, rfl⟩
      · intro x hlo hhi e he
        rcases List.mem_cons.mp he with rfl | h
        · by_cases hx : x ≤ (erase_right inf e after).1.l
          · exact ⟨p, hpmem, eval_le_of_le_boundary inf p e hpb x hlo (le_trans hx hcov)⟩
          · cases after with
            | nil =>
              have := hinvR.2.1 (erase_right inf e []).1 (by rw [hnothing]; simp)
              omega
            | cons y t =>
              rw [hnothing] at hinvR
              have hl : dyn_link inf (erase_right inf e (y :: t)).1 y :=
                (List.chain'_cons.mp hinvR.1).1
              refine ⟨y, by simp, ?_⟩
              rw [← hr1e x]
              exact eval_le_of_boundary_lt inf _ y hl.1.1 x hhi (by rw [← hl.1.2]; omega)
        · exact ⟨e, h, le_refl _⟩
    · -- the new line stays
      have hc : (set_boundary inf p (some (erase_right inf it after).1)).2 = false := by
        simp only [set_boundary, hbp_eq, decide_eq_false_iff_not]
        exact hcov
      have hp1 : (set_boundary inf p (some (erase_right inf it after).1)).1
          = { p with l := p.boundary inf it } := by
        simp only [set_boundary, hbp_eq]
      have heq : restore inf (p :: rest) it after
          = (erase_left inf (some (erase_right inf it after).1)
              { p with l := p.boundary inf it } rest).reverse ++
            (erase_right inf it after).1 :: (erase_right inf it after).2 := by
        show (if (set_boundary inf p (some (erase_right inf it after).1)).2 then _ else _) = _
        rw [hc, hp1]
        rfl
      have hleA := dyn_le_inf inf (p :: after) hpA hpAlast
      have hbd : -inf ≤ p.boundary inf (erase_right inf it after).1 :=
        boundary_ok_low inf hinf p _ (by rw [hr1a]; exact hpb) hokp
      have hspec := erase_left_spec inf hinf (erase_right inf it after).1 rest
        { p with l := p.boundary inf it } p.l
        (List.Chain'.tail hchB)
        (by
          intro m hm
          cases rest with
          | nil => simp at hm
          | cons m' t' =>
            simp only [List.head?_cons, Option.mem_def, Option.some.injEq] at hm
            subst hm
            have : flip (dyn_link inf) p m' := (List.chain'_cons.mp hchB).1
            exact ⟨adj_congr_right inf m' p _ rfl rfl this.1, this.2⟩)
        ⟨⟨by rw [hr1a]; exact hpb, by rw [← hbp_eq]; rfl⟩, by
          show p.boundary inf it < (erase_right inf it after).1.l
          omega⟩
        (by
          show -inf ≤ p.boundary inf it
          rw [← hbp_eq]; exact hbd)
        (fun e he => (hbq e (by simp [he])).1)
        (by
          have := hokL (by rw [hbp_eq]; exact hcov)
          rw [hbp_eq] at this
          exact this)
        (by
          intro x hx1 hx2 hx3
          show (erase_right inf it after).1.eval x < p.eval x
          cases hr : (erase_right inf it after).2 with
          | nil =>
            rw [hr] at hinvR
            have := hinvR.2.1 (erase_right inf it after).1 (by simp)
            have := hleA p (by simp)
            omega
          | cons z t =>
            rw [hr] at hinvR
            have hl : dyn_link inf (erase_right inf it after).1 z :=
              (List.chain'_cons.mp hinvR.1).1
            have hzmem : z ∈ after := hsub z (by rw [hr]; simp)
            have f1 : (erase_right inf it after).1.eval x < z.eval x :=
              eval_lt_of_boundary_lt inf _ z (by rw [hr1a]; exact ha z hzmem) x
                (by rw [← hl.1.2]; exact hx2)
            have f2 : z.eval x ≤ p.eval x :=
              dyn_first_is_top inf x hx1 after p hpA hx3 z hzmem
            omega)
        (hleA p (by simp))
      obtain ⟨s1, s2, s3, s4⟩ := hspec
      rw [heq]
      refine ⟨⟨?_, ?_, ?_⟩, by simp, ?_, ?_⟩
      · refine List.chain'_split.mpr ⟨?_, hinvR.1⟩
        rw [← List.reverse_cons, List.chain'_reverse]
        exact s1
      · intro e he
        rw [List.getLast?_append_of_ne_nil _ (by simp)] at he
        exact hinvR.2.1 e he
      · intro e he
        rcases List.mem_append.mp he with h | h
        · rw [List.mem_reverse] at h
          refine ⟨s2 e h, ?_⟩
          obtain ⟨e', he', _, _, h3⟩ := s3 e h
          rw [h3]
          rcases List.mem_cons.mp he' with rfl | h'
          · exact (hbq p hpmem).2
          · exact (hbq e' (by simp [h'])).2
        · exact hinvR.2.2 e h
      · intro e he
        rcases List.mem_append.mp he with h | h
        · rw [List.mem_reverse] at h
          obtain ⟨e', he', h1, h2, _⟩ := s3 e h
          right
          rcases List.mem_cons.mp he' with rfl | h'
          · exact ⟨p, hpmem, h1, h2⟩
          · exact ⟨e', by simp [h'], h1, h2⟩
        · rcases List.mem_cons.mp h with rfl | h'
          · exact Or.inl ⟨hr1a, hr1b⟩
          · exact Or.inr ⟨e, List.mem_append_right _ (hsub e h'), rfl, rfl⟩
      · intro x hlo hhi e he
        have hleft : ∀ e' ∈ (erase_right inf it after).1 ::
            erase_left inf (some (erase_right inf it after).1)
              { p with l := p.boundary inf it } rest,
            e' ∈ (erase_left inf (some (erase_right inf it after).1)
              { p with l := p.boundary inf it } rest).reverse ++
              (erase_right inf it after).1 :: (erase_right inf it after).2 := by
          intro e' he'
          rcases List.mem_cons.mp he' with rfl | h'
          · simp
          · exact List.mem_append_left _ (List.mem_reverse.mpr h')
        rcases List.mem_cons.mp he with rfl | h
        · exact ⟨_, by simp, le_of_eq (hr1e x).symm⟩
        · rcases List.mem_append.mp h with h1 | h1
          · rw [List.mem_reverse] at h1
            rcases List.mem_cons.mp h1 with rfl | h2
            · obtain ⟨e', he', h'⟩ := s4 x hlo hhi
                { e with l := e.boundary inf it } (by simp)
              exact ⟨e', hleft e' he', h'⟩
            · obtain ⟨e', he', h'⟩ := s4 x hlo hhi e (List.mem_cons_of_mem _ h2)
              exact ⟨e', hleft e' he', h'⟩
          · obtain ⟨e', he', h'⟩ := hdomR x hlo hhi e h1
            exact ⟨e', List.mem_append_right _ he', h'⟩

end line_container

namespace line_container

/-- One `insert_line(a, b)` without overflow keeps the invariant of the
Dynamic multiset; the multiset left holds only the new line and old lines,
and at every point of `(-inf, inf]` is as high as the new line and as every
old line. -/
theorem insert_line_spec (inf : Int) (hinf : 0 ≤ inf) (c : List line) (a b : Int)
    (hinv : dyn_inv inf c) (hok : insert_line_ok inf c a b = true) :
    dyn_inv inf (insert_line inf c a b) ∧
    insert_line inf c a b ≠ [] ∧
    (∀ e ∈ insert_line inf c a b,
      (e.a = a ∧ e.b = b) ∨ ∃ e' ∈ c, e.a = e'.a ∧ e.b = e'.b) ∧
    (∀ x, -inf < x → x ≤ inf →
      (∀ e ∈ c, ∃ e' ∈ insert_line inf c a b, e.eval x ≤ e'.eval x) ∧
      ∃ e' ∈ insert_line inf c a b, a * x + b ≤ e'.eval x) := by
  have hsplit : (c.takeWhile (fun e => !((⟨a, b, false, 0⟩ : line).lt e))).reverse.reverse ++
      c.dropWhile (fun e => !((⟨a, b, false, 0⟩ : line).lt e)) = c := by
    rw [List.reverse_reverse, List.takeWhile_append_dropWhile]
  have hpos := insert_position a b 0 c (dyn_sorted inf c hinv.1) (fun e he => (hinv.2.2 e he).2)
  have hpre : ∀ e ∈ c.takeWhile (fun e => !((⟨a, b, false, 0⟩ : line).lt e)), e ∈ c := by
    intro e he
    rw [← List.takeWhile_append_dropWhile (fun e => !((⟨a, b, false, 0⟩ : line).lt e)) c]
    exact List.mem_append_left _ he
  have hpost : ∀ e ∈ c.dropWhile (fun e => !((⟨a, b, false, 0⟩ : line).lt e)), e ∈ c := by
    intro e he
    rw [← List.takeWhile_append_dropWhile (fun e => !((⟨a, b, false, 0⟩ : line).lt e)) c]
    exact List.mem_append_right _ he
  have hspec := restore_spec inf hinf
    (c.takeWhile (fun e => !((⟨a, b, false, 0⟩ : line).lt e))).reverse ⟨a, b, false, 0⟩
    (c.dropWhile (fun e => !((⟨a, b, false, 0⟩ : line).lt e)))
    (by rw [hsplit]; exact hinv) rfl
    (by
      intro e he
      rw [List.mem_reverse] at he
      exact hpos.1 e he)
    (fun e he => hpos.2 e he) hok
  rw [hsplit] at hspec
  obtain ⟨h1, h2, h3, h4⟩ := hspec
  refine ⟨h1, h2, h3, ?_⟩
  intro x hlo hhi
  refine ⟨fun e he => h4 x hlo hhi e (List.mem_cons_of_mem _ he), ?_⟩
  obtain ⟨e', he', h'⟩ := h4 x hlo hhi ⟨a, b, false, 0⟩ (by simp)
  exact ⟨e', he', h'⟩

/-- The multiset after one more `insert_line`. -/
theorem build_append (inf : Int) (ls : List (Int × Int)) (s : Int × Int) :
    build inf (ls ++ [s]) = insert_line inf (build inf ls) s.1 s.2 := by
  simp [build, List.foldl_append]

/-- Absence of overflow in a sequence of `insert_line` calls: in its first
part, and in the rest made on the multiset that the first part leaves. -/
theorem inserts_ok_append (inf : Int) :
    ∀ (l1 l2 : List (Int × Int)) (c : List line),
      inserts_ok inf c (l1 ++ l2)
        = (inserts_ok inf c l1 &&
            inserts_ok inf (l1.foldl (fun c s => insert_line inf c s.1 s.2) c) l2) := by
  intro l1
  induction l1 with
  | nil => intro l2 c; simp [inserts_ok]
  | cons s r ih =>
    intro l2 c
    have h := ih l2 (insert_line inf c s.1 s.2)
    simp only [List.cons_append, inserts_ok, List.foldl_cons]
    rw [Bool.and_assoc]
    exact congrArg (fun t => insert_line_ok inf c s.1 s.2 && t) h

/-- A run `build` without overflow: the run without its last call has no
overflow, and neither has the last call. -/
theorem build_ok_append (inf : Int) (l : List (Int × Int)) (s : Int × Int)
    (h : build_ok inf (l ++ [s]) = true) :
    build_ok inf l = true ∧ insert_line_ok inf (build inf l) s.1 s.2 = true := by
  unfold build_ok at h ⊢
  rw [inserts_ok_append] at h
  simp only [inserts_ok, Bool.and_true, Bool.and_eq_true] at h
  exact h

/-- After any sequence of `insert_line` calls without overflow the Dynamic
multiset is in a reached state. -/
theorem build_state (inf : Int) (hinf : 0 ≤ inf) (ls : List (Int × Int))
    (hov : build_ok inf ls = true) : dyn_state inf ls (build inf ls) := by
  induction ls using List.reverseRecOn with
  | nil =>
    refine ⟨⟨by simp [build], by simp [build], by simp [build]⟩, by simp, ?_, ?_⟩
    · intro e he; simp [build] at he
    · intro x _ _ s hs; simp at hs
  | append_singleton l s ih =>
    obtain ⟨hov1, hov2⟩ := build_ok_append inf l s hov
    obtain ⟨hinv, _, hfrom, hcov⟩ := ih hov1
    rw [build_append]
    obtain ⟨h1, h2, h3, h4⟩ := insert_line_spec inf hinf (build inf l) s.1 s.2 hinv hov2
    refine ⟨h1, fun _ => h2, ?_, ?_⟩
    · intro e he
      rcases h3 e he with ⟨ha, hb⟩ | ⟨e', he', ha, hb⟩
      · rw [ha, hb]; simp
      · rw [ha, hb]; exact List.mem_append_left _ (hfrom e' he')
    · intro x hlo hhi t ht
      obtain ⟨hold, hnew⟩ := h4 x hlo hhi
      rcases List.mem_append.mp ht with h | h
      · obtain ⟨e, he, f1⟩ := hcov x hlo hhi t h
        obtain ⟨e', he', f2⟩ := hold e he
        exact ⟨e', he', le_trans f1 f2⟩
      · simp only [List.mem_singleton] at h
        subst h
        exact hnew

end line_container

/-- The search of `maximum` in a container whose last stored boundary is
`inf`: for `x ≤ inf` it finds the first line whose stored boundary is not
below `x`. -/
theorem lower_bound_spec (inf x : Int) (hx : x ≤ inf) :
    ∀ c : List line, c ≠ [] → (∀ e ∈ c.getLast?, e.l = inf) →
      ∃ pre f rest, c = pre ++ f :: rest ∧
        lower_bound c ⟨0, 0, true, x⟩ = some f ∧ x ≤ f.l ∧ ∀ p ∈ pre, p.l < x := by
  intro c
  induction c with
  | nil => intro h; exact absurd rfl h
  | cons f t ih =>
    intro _ hlast
    by_cases hf : f.l < x
    · cases t with
      | nil =>
        have := hlast f (by simp)
        omega
      | cons n t' =>
        obtain ⟨pre, g, rest, hc, hp, hg, hpre⟩ := ih (by simp)
          (fun e he => hlast e (by simpa using he))
        refine ⟨f :: pre, g, rest, by rw [hc]; rfl, ?_, hg, ?_⟩
        · unfold lower_bound at hp ⊢
          rw [List.find?_cons_of_neg _ (by simp [line.lt, hf])]
          exact hp
        · intro p hp'
          rcases List.mem_cons.mp hp' with rfl | h
          · exact hf
          · exact hpre p h
    · refine ⟨[], f, t, rfl, ?_, by omega, by simp⟩
      unfold lower_bound
      rw [List.find?_cons_of_pos _ (by simp [line.lt, hf])]

namespace line_container

/-- On a Dynamic multiset in a reached state, at a point of `(-inf, inf]`,
`maximum` returns the maximum over the inserted lines. -/
theorem maximum_spec (inf : Int) (ls : List (Int × Int)) (c : List line) (x : Int)
    (hne : ls ≠ []) (hst : dyn_state inf ls c) (hlo : -inf < x) (hhi : x ≤ inf) :
    ∃ v, maximum c x = .ok v ∧ is_maximum x ls v := by
  obtain ⟨hinv, hnec, hfrom, hcov⟩ := hst
  obtain ⟨pre, f, rest, hc, hlb, hxf, hpre⟩ := lower_bound_spec inf x hhi c (hnec hne) hinv.2.1
  have hch : (pre ++ f :: rest).Chain' (dyn_link inf) := by rw [← hc]; exact hinv.1
  have hfc : f ∈ c := by rw [hc]; simp
  refine ⟨f.eval x, ?_, ⟨(f.a, f.b), hfrom f hfc, rfl⟩, ?_⟩
  · unfold maximum
    cases c with
    | nil => exact absurd rfl (hnec hne)
    | cons _ _ => simp [hlb]
  · intro s hs
    obtain ⟨e, he, h1⟩ := hcov x hlo hhi s hs
    refine le_trans h1 ?_
    rw [hc] at he
    rcases List.mem_append.mp he with h | h
    · exact mono_popped_below inf x hhi pre f rest
        (hch.imp (fun _ _ hl => dyn_link_mono_link inf _ _ hl)) hpre e h
    · rcases List.mem_cons.mp h with rfl | h'
      · exact le_refl _
      · exact dyn_first_is_top inf x hlo rest f (List.chain'_split.mp hch).2 hxf e h'

end line_container

/-! ## The last stored boundary is `inf` (no assumption on the calls) -/

namespace line_container

/-- After the right-erasing loop the last stored boundary is `inf`. -/
theorem erase_right_last (inf : Int) :
    ∀ (after : List line) (it : line), (∀ e ∈ after.getLast?, e.l = inf) →
      ∀ e ∈ ((erase_right inf it after).1 :: (erase_right inf it after).2).getLast?,
        e.l = inf := by
  intro after
  induction after with
  | nil =>
    intro it _ e he
    simp only [erase_right, set_boundary, List.getLast?_singleton, Option.mem_def,
      Option.some.injEq] at he
    rw [← he]
  | cons y ys ih =>
    intro it hlast e he
    by_cases hc : it.boundary inf y ≥ y.l
    · have heq : erase_right inf it (y :: ys)
          = erase_right inf { it with l := it.boundary inf y } ys := by
        rw [erase_right]; simp [set_boundary, hc]
      rw [heq] at he
      refine ih _ ?_ e he
      intro e' he'
      cases ys with
      | nil => simp at he'
      | cons y' t => exact hlast e' (by simpa using he')
    · have heq : erase_right inf it (y :: ys)
          = ({ it with l := it.boundary inf y }, y :: ys) := by
        rw [erase_right]; simp [set_boundary, hc]
      rw [heq] at he
      exact hlast e (by simpa using he)

/-- When `it` is the end iterator, the left-erasing loop leaves a line with
stored boundary `inf` right before it. -/
theorem erase_left_end_head (inf : Int) :
    ∀ (rest : List line) (p : line), p.l = inf →
      ∃ f t, erase_left inf none p rest = f :: t ∧ f.l = inf := by
  intro rest
  induction rest with
  | nil => intro p hp; exact ⟨p, [], rfl, hp⟩
  | cons pp t ih =>
    intro p hp
    by_cases hc : (set_boundary inf pp (some p)).2 = true
    · rw [erase_left, if_pos hc]
      exact ih _ rfl
    · rw [erase_left, if_neg hc]
      exact ⟨p, _, rfl, hp⟩

/-- After the statements of `insert_line` that follow the insertion the last
stored boundary is `inf`. -/
theorem restore_last (inf : Int) (before : List line) (it : line) (after : List line)
    (hlast : ∀ e ∈ after.getLast?, e.l = inf) :
    ∀ e ∈ (restore inf before it after).getLast?, e.l = inf := by
  have hr := erase_right_last inf after it hlast
  cases before with
  | nil => exact hr
  | cons p rest =>
    intro e he
    by_cases hc : (set_boundary inf p (some (erase_right inf it after).1)).2 = true
    · have heq : restore inf (p :: rest) it after
          = (erase_left inf (erase_right inf it after).2.head?
              (set_boundary inf (set_boundary inf p (some (erase_right inf it after).1)).1
                (erase_right inf it after).2.head?).1 rest).reverse ++
            (erase_right inf it after).2 := by
        show (if _ then _ else _) = _
        rw [if_pos hc]
      rw [heq] at he
      cases h2 : (erase_right inf it after).2 with
      | nil =>
        rw [h2] at he
        obtain ⟨f, t, hf, hfl⟩ := erase_left_end_head inf rest
          (set_boundary inf (set_boundary inf p (some (erase_right inf it after).1)).1 none).1 rfl
        simp only [List.head?_nil, List.append_nil] at he
        rw [hf, List.getLast?_reverse] at he
        simp only [List.head?_cons, Option.mem_def, Option.some.injEq] at he
        rw [← he]; exact hfl
      | cons z t =>
        rw [h2] at he hr
        rw [List.getLast?_append_of_ne_nil _ (by simp)] at he
        exact hr e (by
          rw [List.getLast?_cons_cons]
          exact he)
    · have heq : restore inf (p :: rest) it after
          = (erase_left inf (some (erase_right inf it after).1)
              (set_boundary inf p (some (erase_right inf it after).1)).1 rest).reverse ++
            (erase_right inf it after).1 :: (erase_right inf it after).2 := by
        show (if _ then _ else _) = _
        rw [if_neg hc]
      rw [heq, List.getLast?_append_of_ne_nil _ (by simp)] at he
      exact hr e he

/-- After `insert_line` on the Dynamic multiset the last stored boundary is
`inf`. -/
theorem insert_line_last (inf : Int) (c : List line) (a b : Int)
    (hlast : ∀ e ∈ c.getLast?, e.l = inf) :
    ∀ e ∈ (insert_line inf c a b).getLast?, e.l = inf := by
  apply restore_last
  intro e he
  rcases hd : c.dropWhile (fun e => !((⟨a, b, false, 0⟩ : line).lt e)) with _ | ⟨y, t⟩
  · rw [hd] at he; simp at he
  · apply hlast e
    rw [← List.takeWhile_append_dropWhile (fun e => !((⟨a, b, false, 0⟩ : line).lt e)) c,
      List.getLast?_append_of_ne_nil _ (by rw [hd]; simp)]
    exact he

/-- The left-erasing loop never erases every line before `it`. -/
theorem erase_left_ne_nil (inf : Int) (it : Option line) :
    ∀ (rest : List line) (p : line), erase_left inf it p rest ≠ [] := by
  intro rest
  induction rest with
  | nil => intro p; simp [erase_left]
  | cons pp t ih =>
    intro p
    rw [erase_left]
    split_ifs
    · exact ih _
    · simp

/-- After `insert_line` the Dynamic multiset is not empty. -/
theorem insert_line_ne_nil (inf : Int) (c : List line) (a b : Int) :
    insert_line inf c a b ≠ [] := by
  unfold insert_line restore
  simp only
  split
  · simp
  · split
    · intro h
      exact erase_left_ne_nil inf _ _ _ (List.reverse_eq_nil_iff.mp (List.append_eq_nil.mp h).1)
    · simp

/-- Every Dynamic multiset reached by calls has `inf` as last stored
boundary. -/
theorem exec_last (inf : Int) :
    ∀ (calls : List call) (c c' : List line), (∀ e ∈ c.getLast?, e.l = inf) →
      exec inf c calls = .ok c' → ∀ e ∈ c'.getLast?, e.l = inf := by
  intro calls
  induction calls with
  | nil =>
    intro c c' h hex
    simp only [exec, Except.ok.injEq] at hex
    rw [← hex]; exact h
  | cons k r ih =>
    intro c c' h hex
    cases k with
    | insert_line a b =>
      rw [exec] at hex
      exact ih _ c' (insert_line_last inf c a b h) hex
    | maximum x =>
      rw [exec] at hex
      cases hm : maximum c x with
      | error e => rw [hm] at hex; simp at hex
      | ok v => rw [hm] at hex; exact ih c c' h hex

/-- On a non-empty Dynamic multiset whose last stored boundary is `inf`,
`maximum(x)` returns a value for every `x ≤ inf`. -/
theorem maximum_returns (inf : Int) (c : List line) (x : Int) (hne : c ≠ [])
    (hlast : ∀ e ∈ c.getLast?, e.l = inf) (hx : x ≤ inf) : ∃ v, maximum c x = .ok v := by
  obtain ⟨pre, f, rest, _, hlb, _, _⟩ := lower_bound_spec inf x hx c hne hlast
  refine ⟨f.eval x, ?_⟩
  unfold maximum
  cases c with
  | nil => exact absurd rfl hne
  | cons _ _ => simp [hlb]

end line_container

namespace line_container_monotonic

/-- After `insert_line` on the Monotonic deque the last stored boundary is
`inf`. -/
theorem mono_insert_line_last (inf : Int) (c : List line) (a b : Int)
    (hlast : ∀ e ∈ c.getLast?, e.l = inf) :
    ∀ e ∈ (insert_line inf c a b).getLast?, e.l = inf := by
  unfold insert_line
  rcases hrev : c.reverse with _ | ⟨bk, rest⟩
  · intro e he
    simp only [List.getLast?_singleton, Option.mem_def, Option.some.injEq] at he
    rw [← he]
  · simp only
    split_ifs
    · exact hlast
    · intro e he
      rw [List.getLast?_reverse] at he
      simp only [List.head?_cons, Option.mem_def, Option.some.injEq] at he
      rw [← he]

/-- What the front-popping loop returns, when it returns: the deque left is
the part of the deque from its first line that is not below `x0` on, and the
value is that of this line. -/
theorem pop_front_loop_ok (x0 : Int) :
    ∀ (c : List line) (v : Int) (c' : List line), pop_front_loop x0 c = .ok (v, c') →
      ∃ pre f rest, c = pre ++ f :: rest ∧ c' = f :: rest ∧ v = f.eval x0 ∧ ¬ f.l < x0 := by
  intro c
  induction c with
  | nil => intro v c' h; simp [pop_front_loop] at h
  | cons f t ih =>
    intro v c' h
    by_cases hf : f.l < x0
    · rw [pop_front_loop, if_pos hf] at h
      obtain ⟨pre, g, rest, h1, h2, h3, h4⟩ := ih v c' h
      exact ⟨f :: pre, g, rest, by rw [h1]; rfl, h2, h3, h4⟩
    · rw [pop_front_loop, if_neg hf] at h
      simp only [Except.ok.injEq, Prod.mk.injEq] at h
      exact ⟨[], f, t, rfl, h.2.symm, h.1.symm, hf⟩

/-- A `maximum` call on the Monotonic deque that returns leaves `inf` as last
stored boundary. -/
theorem maximum_last (inf : Int) (c : List line) (x : Int) (v : Int) (c' : List line)
    (hlast : ∀ e ∈ c.getLast?, e.l = inf) (h : maximum c x = .ok (v, c')) :
    ∀ e ∈ c'.getLast?, e.l = inf := by
  unfold maximum at h
  split_ifs at h
  obtain ⟨pre, f, rest, h1, h2, _, _⟩ := pop_front_loop_ok x c v c' h
  intro e he
  apply hlast e
  rw [h1, List.getLast?_append_of_ne_nil _ (by simp), ← h2]
  exact he

/-- Every Monotonic deque reached by calls has `inf` as last stored
boundary. -/
theorem mono_exec_last (inf : Int) :
    ∀ (calls : List call) (c c' : List line), (∀ e ∈ c.getLast?, e.l = inf) →
      exec inf c calls = .ok c' → ∀ e ∈ c'.getLast?, e.l = inf := by
  intro calls
  induction calls with
  | nil =>
    intro c c' h hex
    simp only [exec, Except.ok.injEq] at hex
    rw [← hex]; exact h
  | cons k r ih =>
    intro c c' h hex
    cases k with
    | insert_line a b =>
      rw [exec] at hex
      exact ih _ c' (mono_insert_line_last inf c a b h) hex
    | maximum x =>
      rw [exec] at hex
      cases hm : maximum c x with
      | error e => rw [hm] at hex; simp at hex
      | ok vc =>
        rw [hm] at hex
        exact ih vc.2 c' (maximum_last inf c x vc.1 vc.2 h hm) hex

/-- On a non-empty Monotonic deque whose last stored boundary is `inf`, a
second `maximum(x)` right after a first one, `x ≤ inf`, returns the same
value and leaves the deque as the first call left it. -/
theorem maximum_twice (inf : Int) (c : List line) (x : Int) (hne : c ≠ [])
    (hlast : ∀ e ∈ c.getLast?, e.l = inf) (hx : x ≤ inf) :
    ∃ v c', maximum c x = .ok (v, c') ∧ maximum c' x = .ok (v, c') := by
  have h1 : ∀ c : List line, c ≠ [] → (∀ e ∈ c.getLast?, e.l = inf) →
      ∃ f rest, pop_front_loop x c = .ok (f.eval x, f :: rest) ∧ ¬ f.l < x := by
    intro c
    induction c with
    | nil => intro h; exact absurd rfl h
    | cons f t ih =>
      intro _ hl
      by_cases hf : f.l < x
      · cases t with
        | nil =>
          have := hl f (by simp)
          omega
        | cons n t' =>
          obtain ⟨g, rest, hg, hgx⟩ := ih (by simp) (fun e he => hl e (by simpa using he))
          exact ⟨g, rest, by rw [pop_front_loop, if_pos hf]; exact hg, hgx⟩
      · exact ⟨f, t, by rw [pop_front_loop, if_neg hf], hf⟩
  obtain ⟨f, rest, hp, hf⟩ := h1 c hne hlast
  refine ⟨f.eval x, f :: rest, ?_, ?_⟩
  · unfold maximum
    cases c with
    | nil => exact absurd rfl hne
    | cons _ _ => simpa using hp
  · simp [maximum, pop_front_loop, hf]

end line_container_monotonic

/-! ## The contract of the Dynamic and the Monotonic container -/

/-- C1: Dynamic container over a signed integer type with maximum `inf`:
for every non-empty sequence `ls` of `insert_line` calls, in any order,
that runs without overflow (`build_ok`: no `boundary` call made by the run
overflows), and every `x` strictly between `-inf` and `inf`, `maximum(x)`
returns the maximum of `a * x + b` over the lines inserted. -/
theorem dynamic_maximum_is_envelope (inf : Int) (ls : List (Int × Int)) (x : Int)
    (hne : ls ≠ []) (hov : line_container.build_ok inf ls = true) (hlo : -inf < x)
    (hhi : x < inf) :
    ∃ v, line_container.maximum (line_container.build inf ls) x = .ok v ∧
      is_maximum x ls v :=
  line_container.maximum_spec inf ls _ x hne
    (line_container.build_state inf (by omega) ls hov) hlo (le_of_lt hhi)

/-- The theorem `dynamic_maximum_is_envelope` for 32-bit `int`, on six lines
in no order with a repeated slope, at `x = -4`.  The intercepts of the second
and the third line differ by more than the type holds; the run does not
subtract them. -/
theorem dynamic_maximum_is_envelope_witness :
    ([(1, 0), (5, 2000000000), (0, -2000000000), (1, 7), (-3, -2), (2, 1)] :
      List (Int × Int)) ≠ [] ∧
    line_container.build_ok 2147483647
      [(1, 0), (5, 2000000000), (0, -2000000000), (1, 7), (-3, -2), (2, 1)] = true ∧
    -(2147483647 : Int) < -4 ∧ (-4 : Int) < 2147483647 ∧
    ∃ v, line_container.maximum
        (line_container.build 2147483647
          [(1, 0), (5, 2000000000), (0, -2000000000), (1, 7), (-3, -2), (2, 1)]) (-4)
          = .ok v ∧
      is_maximum (-4) [(1, 0), (5, 2000000000), (0, -2000000000), (1, 7), (-3, -2), (2, 1)] v :=
  ⟨by decide, by decide, by decide, by decide,
    dynamic_maximum_is_envelope 2147483647
      [(1, 0), (5, 2000000000), (0, -2000000000), (1, 7), (-3, -2), (2, 1)] (-4)
      (by decide) (by decide) (by decide) (by decide)⟩

/-- C2: Monotonic container over a signed integer type with maximum `inf`:
for every interleaving of calls that starts with an `insert_line`, whose
inserted slopes are non-decreasing across calls and whose query points are
non-decreasing across calls and strictly between `-inf` and `inf`, no call
fails, and a `maximum(x)` call at the end of the interleaving returns the
maximum of `a * x + b` over the lines inserted before it. -/
theorem monotonic_maximum_is_envelope (inf a b : Int) (rest : List call) (x : Int)
    (hs : ((inserted (call.insert_line a b :: rest)).map Prod.fst).Chain' (· ≤ ·))
    (hq : (queried (rest ++ [call.maximum x])).Chain' (· ≤ ·))
    (hr : ∀ q ∈ queried (rest ++ [call.maximum x]), -inf < q ∧ q < inf) :
    ∃ c v c', line_container_monotonic.exec inf [] (call.insert_line a b :: rest) = .ok c ∧
      line_container_monotonic.maximum c x = .ok (v, c') ∧
      is_maximum x (inserted (call.insert_line a b :: rest)) v := by
  have hs' : ((inserted ([call.insert_line a b] ++ rest)).map Prod.fst).Pairwise (· ≤ ·) :=
    List.chain'_iff_pairwise.mp hs
  have hq' : (queried (rest ++ [call.maximum x])).Pairwise (· ≤ ·) :=
    List.chain'_iff_pairwise.mp hq
  have hq1 : (queried ([call.insert_line a b] ++ rest)).Pairwise (· ≤ ·) := by
    rw [queried_append] at hq' ⊢
    simp only [queried, List.nil_append]
    exact (List.pairwise_append.mp hq').1
  obtain ⟨c, hc, hst⟩ := line_container_monotonic.exec_spec inf rest [call.insert_line a b] _
    (line_container_monotonic.insert_line_first inf a b) hs' hq1
    (fun q hq0 => by
      have := hr q (by rw [queried_append]; exact List.mem_append_left _ hq0)
      exact ⟨this.1, le_of_lt this.2⟩)
  have hx := hr x (by rw [queried_append]; simp [queried])
  obtain ⟨v, c', hm, hmax, _⟩ := line_container_monotonic.mono_maximum_spec inf _ c x hst
    (by
      intro q hq0
      rw [queried_append] at hq'
      simp only [List.singleton_append, queried] at hq0
      exact (List.pairwise_append.mp hq').2.2 q hq0 x (by simp [queried]))
    hx.1 (le_of_lt hx.2)
  exact ⟨c, v, c', hc, hm, hmax⟩

/-- The theorem `monotonic_maximum_is_envelope` for 32-bit `int`, on an
interleaving with a repeated slope and a repeated query point. -/
theorem monotonic_maximum_is_envelope_witness :
    ((inserted (call.insert_line (-1) 10 ::
        [call.maximum (-3), call.insert_line 0 5, call.insert_line 0 7, call.maximum (-3),
          call.insert_line 2 0, call.maximum 2])).map Prod.fst).Chain' (· ≤ ·) ∧
    (queried ([call.maximum (-3), call.insert_line 0 5, call.insert_line 0 7, call.maximum (-3),
          call.insert_line 2 0, call.maximum 2] ++ [call.maximum 4])).Chain' (· ≤ ·) ∧
    (∀ q ∈ queried ([call.maximum (-3), call.insert_line 0 5, call.insert_line 0 7,
          call.maximum (-3), call.insert_line 2 0, call.maximum 2] ++ [call.maximum 4]),
        -(2147483647 : Int) < q ∧ q < 2147483647) ∧
    ∃ c v c', line_container_monotonic.exec 2147483647 [] (call.insert_line (-1) 10 ::
        [call.maximum (-3), call.insert_line 0 5, call.insert_line 0 7, call.maximum (-3),
          call.insert_line 2 0, call.maximum 2]) = .ok c ∧
      line_container_monotonic.maximum c 4 = .ok (v, c') ∧
      is_maximum 4 (inserted (call.insert_line (-1) 10 ::
        [call.maximum (-3), call.insert_line 0 5, call.insert_line 0 7, call.maximum (-3),
          call.insert_line 2 0, call.maximum 2])) v :=
  ⟨by simp [inserted], by simp [queried], by decide,
    monotonic_maximum_is_envelope 2147483647 (-1) 10
      [call.maximum (-3), call.insert_line 0 5, call.insert_line 0 7, call.maximum (-3),
        call.insert_line 2 0, call.maximum 2] 4 (by simp [inserted]) (by simp [queried])
      (by decide)⟩

/-- C6: in every non-empty state of the Dynamic and of the Monotonic
container reached by `insert_line` and `maximum` calls, two `maximum(x)`
calls in succession (`x` a value of the type, `x ≤ inf`) both return, and
return the same value. -/
theorem maximum_twice_same (inf : Int) (callsd callsm : List call) (cd cm : List line)
    (x : Int) (hx : x ≤ inf)
    (hd : line_container.exec inf [] callsd = .ok cd) (hnd : cd ≠ [])
    (hm : line_container_monotonic.exec inf [] callsm = .ok cm) (hnm : cm ≠ []) :
    (∃ v, line_container.results inf cd [call.maximum x, call.maximum x] = [.ok v, .ok v]) ∧
    (∃ v, line_container_monotonic.results inf cm [call.maximum x, call.maximum x]
      = [.ok v, .ok v]) := by
  constructor
  · obtain ⟨v, hv⟩ := line_container.maximum_returns inf cd x hnd
      (line_container.exec_last inf callsd [] cd (by simp) hd) hx
    exact ⟨v, by simp [line_container.results, hv]⟩
  · obtain ⟨v, c', h1, h2⟩ := line_container_monotonic.maximum_twice inf cm x hnm
      (line_container_monotonic.mono_exec_last inf callsm [] cm (by simp) hm) hx
    exact ⟨v, by simp [line_container_monotonic.results, h1, h2]⟩

/-- The theorem `maximum_twice_same` for 32-bit `int`: after inserts in no
order on the Dynamic container, and after calls on the Monotonic container
whose first `maximum(6)` pops the front line. -/
theorem maximum_twice_same_witness :
    (6 : Int) ≤ 2147483647 ∧
    line_container.exec 2147483647 []
      [call.insert_line 2 0, call.insert_line 0 5, call.insert_line (-1) 10]
      = .ok [⟨-1, 10, false, 3⟩, ⟨2, 0, false, 2147483647⟩] ∧
    ([⟨-1, 10, false, 3⟩, ⟨2, 0, false, 2147483647⟩] : List line) ≠ [] ∧
    line_container_monotonic.exec 2147483647 []
      [call.insert_line (-1) 10, call.insert_line 2 0]
      = .ok [⟨-1, 10, false, 3⟩, ⟨2, 0, false, 2147483647⟩] ∧
    ([⟨-1, 10, false, 3⟩, ⟨2, 0, false, 2147483647⟩] : List line) ≠ [] ∧
    (∃ v, line_container.results 2147483647
        [⟨-1, 10, false, 3⟩, ⟨2, 0, false, 2147483647⟩] [call.maximum 6, call.maximum 6]
          = [.ok v, .ok v]) ∧
    (∃ v, line_container_monotonic.results 2147483647
        [⟨-1, 10, false, 3⟩, ⟨2, 0, false, 2147483647⟩] [call.maximum 6, call.maximum 6]
          = [.ok v, .ok v]) :=
  ⟨by decide, by rfl, by decide, by rfl, by decide,
    maximum_twice_same 2147483647
      [call.insert_line 2 0, call.insert_line 0 5, call.insert_line (-1) 10]
      [call.insert_line (-1) 10, call.insert_line 2 0]
      [⟨-1, 10, false, 3⟩, ⟨2, 0, false, 2147483647⟩]
      [⟨-1, 10, false, 3⟩, ⟨2, 0, false, 2147483647⟩] 6
      (by decide) (by rfl) (by decide) (by rfl) (by decide)⟩

/-- The maximum over a list of lines at a point is unique. -/
theorem is_maximum_unique (x : Int) (ls : List (Int × Int)) (v w : Int)
    (hv : is_maximum x ls v) (hw : is_maximum x ls w) : v = w := by
  obtain ⟨⟨s, hs, rfl⟩, hv2⟩ := hv
  obtain ⟨⟨t, ht, rfl⟩, hw2⟩ := hw
  have := hv2 t ht
  have := hw2 s hs
  omega

/-- C7: Dynamic container, both runs without overflow (`build_ok`): if the
line `d` is, at every point of the numeric type, at most as high as some
line of `P`, then at every `x` strictly between `-inf` and `inf`,
`maximum(x)` after the inserts `P`, `d`, `S` returns the same value as after
the inserts `P`, `S`. -/
theorem dominated_insert_unobservable (inf : Int) (P S : List (Int × Int)) (d : Int × Int)
    (x : Int) (hov : line_container.build_ok inf (P ++ d :: S) = true)
    (hov' : line_container.build_ok inf (P ++ S) = true)
    (hdom : ∀ y, -inf - 1 ≤ y → y ≤ inf → ∃ s ∈ P, d.1 * y + d.2 ≤ s.1 * y + s.2)
    (hlo : -inf < x) (hhi : x < inf) :
    ∃ v, line_container.maximum (line_container.build inf (P ++ d :: S)) x = .ok v ∧
      line_container.maximum (line_container.build inf (P ++ S)) x = .ok v := by
  obtain ⟨s0, hs0, hd0⟩ := hdom x (by omega) (by omega)
  have hP : P ≠ [] := by intro h; rw [h] at hs0; simp at hs0
  obtain ⟨v, hv, hvmax⟩ := line_container.maximum_spec inf (P ++ d :: S) _ x (by simp)
    (line_container.build_state inf (by omega) _ hov) hlo (le_of_lt hhi)
  obtain ⟨w, hw, hwmax⟩ := line_container.maximum_spec inf (P ++ S) _ x (by simp [hP])
    (line_container.build_state inf (by omega) _ hov') hlo (le_of_lt hhi)
  refine ⟨v, hv, ?_⟩
  rw [hw]
  congr 1
  apply is_maximum_unique x (P ++ S) w v hwmax
  obtain ⟨⟨s, hs, hsv⟩, hv2⟩ := hvmax
  obtain ⟨_, hw2⟩ := hwmax
  refine ⟨?_, ?_⟩
  · rcases List.mem_append.mp hs with h | h
    · exact ⟨s, List.mem_append_left _ h, hsv⟩
    · rcases List.mem_cons.mp h with rfl | h'
      · -- the maximum is attained by `d`: then also by a line of `P`
        refine ⟨s0, List.mem_append_left _ hs0, ?_⟩
        have := hv2 s0 (List.mem_append_left _ hs0)
        omega
      · exact ⟨s, List.mem_append_right _ h', hsv⟩
  · intro t ht
    apply hv2 t
    rcases List.mem_append.mp ht with h | h
    · exact List.mem_append_left _ h
    · exact List.mem_append_right _ (List.mem_cons_of_mem _ h)

/-- The theorem `dominated_insert_unobservable` for 32-bit `int`: the line
`(1000, -1000000001)` lies below the line `(1000, -1000000000)` of `P` at
every point.  The intercepts of the first line of `P` and of the line of `S`
differ by more than the type holds; neither run subtracts them. -/
theorem dominated_insert_unobservable_witness :
    line_container.build_ok 2147483647
      ([(0, -2000000000), (1000, -1000000000), (3000, 0)] ++
        (1000, -1000000001) :: [(10000, 1100000000)]) = true ∧
    line_container.build_ok 2147483647
      ([(0, -2000000000), (1000, -1000000000), (3000, 0)] ++ [(10000, 1100000000)]) = true ∧
    (∀ y : Int, -2147483647 - 1 ≤ y → y ≤ 2147483647 →
      ∃ s ∈ ([(0, -2000000000), (1000, -1000000000), (3000, 0)] : List (Int × Int)),
        ((1000, -1000000001) : Int × Int).1 * y + ((1000, -1000000001) : Int × Int).2
          ≤ s.1 * y + s.2) ∧
    -(2147483647 : Int) < 3 ∧ (3 : Int) < 2147483647 ∧
    ∃ v, line_container.maximum
        (line_container.build 2147483647
          ([(0, -2000000000), (1000, -1000000000), (3000, 0)] ++
            (1000, -1000000001) :: [(10000, 1100000000)])) 3 = .ok v ∧
      line_container.maximum
        (line_container.build 2147483647
          ([(0, -2000000000), (1000, -1000000000), (3000, 0)] ++ [(10000, 1100000000)])) 3
        = .ok v := by
  have h1 : line_container.build_ok 2147483647
      ([(0, -2000000000), (1000, -1000000000), (3000, 0)] ++
        (1000, -1000000001) :: [(10000, 1100000000)]) = true := by decide
  have h2 : line_container.build_ok 2147483647
      ([(0, -2000000000), (1000, -1000000000), (3000, 0)] ++ [(10000, 1100000000)])
        = true := by decide
  have h3 : ∀ y : Int, -2147483647 - 1 ≤ y → y ≤ 2147483647 →
      ∃ s ∈ ([(0, -2000000000), (1000, -1000000000), (3000, 0)] : List (Int × Int)),
        ((1000, -1000000001) : Int × Int).1 * y + ((1000, -1000000001) : Int × Int).2
          ≤ s.1 * y + s.2 :=
    fun y _ _ => ⟨(1000, -1000000000), by simp, by simp only; omega⟩
  exact ⟨h1, h2, h3, by decide, by decide,
    dominated_insert_unobservable 2147483647 _ _ _ 3 h1 h2 h3 (by decide) (by decide)⟩

/-! ## Monotonic and Dynamic side by side -/

theorem getLast?_cons_ne (x : line) (t : List line) (h : t ≠ []) :
    (x :: t).getLast? = t.getLast? := by
  cases t with
  | nil => exact absurd rfl h
  | cons y t' => exact List.getLast?_cons_cons

/-- The slope and intercept of the last element do not depend on the stored
boundary of the first. -/
theorem getLast?_key_congr (x y : line) (t : List line) (ha : x.a = y.a) (hb : x.b = y.b) :
    (x :: t).getLast?.map (fun e => (e.a, e.b)) = (y :: t).getLast?.map (fun e => (e.a, e.b)) := by
  cases t with
  | nil => simp [ha, hb]
  | cons z t' => rw [List.getLast?_cons_cons, List.getLast?_cons_cons]

namespace line_container_monotonic

/-- The back-popping loop never empties the deque. -/
theorem pop_loop_ne_nil (inf : Int) (ins : line) :
    ∀ (rest : List line) (bk : line), pop_loop inf ins bk rest ≠ [] := by
  intro rest
  induction rest with
  | nil => intro bk; simp [pop_loop]
  | cons n t ih =>
    intro bk
    rw [pop_loop]
    split_ifs
    · exact ih _
    · simp

/-- The back-popping loop, run without overflow, stores no boundary below
`-inf`. -/
theorem pop_loop_low (inf : Int) (hinf : 0 ≤ inf) (ins : line) :
    ∀ (rest : List line) (bk : line), -inf ≤ bk.l → (∀ e ∈ rest, -inf ≤ e.l) →
      (∀ e ∈ rest, e.a ≤ ins.a) → pop_loop_ok inf ins bk rest = true →
      ∀ e ∈ pop_loop inf ins bk rest, -inf ≤ e.l := by
  intro rest
  induction rest with
  | nil =>
    intro bk hbk _ _ _ e he
    simp only [pop_loop, List.mem_singleton] at he
    subst he; exact hbk
  | cons n t ih =>
    intro bk hbk hl hsl hok e he
    rw [pop_loop] at he
    rw [pop_loop_ok] at hok
    split_ifs at he hok
    · rw [Bool.and_eq_true] at hok
      exact ih { n with l := n.boundary inf ins }
        (boundary_ok_low inf hinf n ins (hsl n (by simp)) hok.1)
        (fun e he => hl e (List.mem_cons_of_mem _ he))
        (fun e he => hsl e (List.mem_cons_of_mem _ he)) hok.2 e he
    · rcases List.mem_cons.mp he with rfl | h
      · exact hbk
      · exact hl e h

/-- The back-popping loop keeps the front line of the deque. -/
theorem pop_loop_front (inf : Int) (ins : line) :
    ∀ (rest : List line) (bk : line),
      (pop_loop inf ins bk rest).getLast?.map (fun e => (e.a, e.b))
        = (bk :: rest).getLast?.map (fun e => (e.a, e.b)) := by
  intro rest
  induction rest with
  | nil => intro bk; rfl
  | cons n t ih =>
    intro bk
    rw [pop_loop]
    split_ifs
    · rw [ih, List.getLast?_cons_cons]
      cases t <;> rfl
    · rfl

/-- A call `insert_line` without overflow stores no boundary below `-inf`. -/
theorem insert_line_low (inf : Int) (hinf : 0 ≤ inf) (c : List line) (a b : Int)
    (hl : ∀ e ∈ c, -inf ≤ e.l) (hsl : ∀ e ∈ c, e.a ≤ a)
    (hok : insert_line_ok inf c a b = true) :
    ∀ e ∈ insert_line inf c a b, -inf ≤ e.l := by
  unfold insert_line
  unfold insert_line_ok at hok
  rcases hrev : c.reverse with _ | ⟨bk, rest⟩
  · intro e he
    simp only [List.mem_singleton] at he
    subst he
    simp only; omega
  · have hmem : ∀ e, e ∈ bk :: rest → e ∈ c := by
      intro e he
      rw [← List.mem_reverse, hrev]; exact he
    rw [hrev] at hok
    simp only at hok ⊢
    split_ifs at hok ⊢
    · exact hl
    · rw [Bool.and_eq_true] at hok
      intro e he
      rw [List.mem_reverse] at he
      rcases List.mem_cons.mp he with rfl | h
      · simp only; omega
      · exact pop_loop_low inf hinf _ rest _
          (boundary_ok_low inf hinf bk _ (hsl bk (hmem bk (by simp))) hok.1)
          (fun e he => hl e (hmem e (List.mem_cons_of_mem _ he)))
          (fun e he => hsl e (hmem e (List.mem_cons_of_mem _ he))) hok.2 e h

/-- The call `insert_line` on a non-empty deque keeps the front line. -/
theorem mono_insert_line_front (inf : Int) (c : List line) (a b : Int) (hne : c ≠ []) :
    (insert_line inf c a b).head?.map (fun e => (e.a, e.b))
      = c.head?.map (fun e => (e.a, e.b)) := by
  unfold insert_line
  rcases hrev : c.reverse with _ | ⟨bk, rest⟩
  · exact absurd (by simpa using hrev) hne
  · have hc : c = (bk :: rest).reverse := by rw [← hrev, List.reverse_reverse]
    simp only
    split_ifs
    · rfl
    · rw [List.head?_reverse, hc, List.head?_reverse,
        getLast?_cons_ne _ _ (pop_loop_ne_nil inf _ rest _), pop_loop_front]
      exact getLast?_key_congr _ bk rest rfl rfl

/-- A `maximum(x)` call with `x ≤ -inf` on a deque that stores no boundary
below `-inf` pops nothing and returns the value of the front line. -/
theorem mono_maximum_low (inf : Int) (f : line) (t : List line) (x : Int) (hx : x ≤ -inf)
    (hl : -inf ≤ f.l) : maximum (f :: t) x = .ok (f.eval x, f :: t) := by
  have : ¬ f.l < x := by omega
  simp [maximum, pop_front_loop, this]

/-- A reached state of the Monotonic deque is still one when a query is added
to the history and the deque is unchanged. -/
theorem mono_state_query (inf : Int) (hist : List call) (c : List line) (x : Int)
    (h : mono_state inf hist c) : mono_state inf (hist ++ [call.maximum x]) c := by
  obtain ⟨h1, h2, h3, h4⟩ := h
  have hins : inserted (hist ++ [call.maximum x]) = inserted hist := by
    rw [inserted_append]; simp [inserted]
  refine ⟨h1, h2, by rw [hins]; exact h3, ?_⟩
  intro x' hq hlo hhi
  rw [hins]
  exact h4 x' (fun q hq0 => hq q (by rw [queried_append]; exact List.mem_append_left _ hq0))
    hlo hhi

end line_container_monotonic

namespace line_container

/-- The method `set_boundary` changes the stored boundary only. -/
theorem set_boundary_key (inf : Int) (x : line) (y : Option line) :
    (set_boundary inf x y).1.a = x.a ∧ (set_boundary inf x y).1.b = x.b := by
  cases y <;> exact ⟨rfl, rfl⟩

/-- The left-erasing loop keeps the first line of the multiset. -/
theorem erase_left_front (inf : Int) (it : Option line) :
    ∀ (rest : List line) (p : line),
      (erase_left inf it p rest).getLast?.map (fun e => (e.a, e.b))
        = (p :: rest).getLast?.map (fun e => (e.a, e.b)) := by
  intro rest
  induction rest with
  | nil => intro p; rfl
  | cons pp t ih =>
    intro p
    rw [erase_left]
    split_ifs
    · rw [ih, List.getLast?_cons_cons]
      apply getLast?_key_congr
      · rw [(set_boundary_key inf _ it).1, (set_boundary_key inf pp _).1]
      · rw [(set_boundary_key inf _ it).2, (set_boundary_key inf pp _).2]
    · rw [List.getLast?_cons_cons, List.getLast?_cons_cons]
      apply getLast?_key_congr
      · rw [(set_boundary_key inf pp _).1]
      · rw [(set_boundary_key inf pp _).2]

/-- When no stored slope exceeds `a`, the new line is put at the end. -/
theorem insert_at_end (a b l : Int) :
    ∀ c : List line, (∀ e ∈ c, e.a ≤ a ∧ e.q = false) →
      c.takeWhile (fun e => !((⟨a, b, false, l⟩ : line).lt e)) = c ∧
      c.dropWhile (fun e => !((⟨a, b, false, l⟩ : line).lt e)) = [] := by
  intro c
  induction c with
  | nil => intro _; simp
  | cons f t ih =>
    intro h
    have hf := h f (by simp)
    have hlt : (⟨a, b, false, l⟩ : line).lt f = false := by
      simp [line.lt, hf.2]; omega
    have hrec := ih (fun e he => h e (List.mem_cons_of_mem _ he))
    simp only [List.takeWhile_cons, List.dropWhile_cons, hlt, Bool.not_false, if_true]
    exact ⟨by rw [hrec.1], hrec.2⟩

/-- An `insert_line(a, b)` with `a` not below the stored slopes, on a
non-empty multiset, keeps the first line. -/
theorem insert_line_front (inf : Int) (c : List line) (a b : Int) (hne : c ≠ [])
    (hsl : ∀ e ∈ c, e.a ≤ a ∧ e.q = false) :
    (insert_line inf c a b).head?.map (fun e => (e.a, e.b))
      = c.head?.map (fun e => (e.a, e.b)) := by
  obtain ⟨h1, h2⟩ := insert_at_end a b 0 c hsl
  unfold insert_line
  rw [h1, h2]
  rcases hrev : c.reverse with _ | ⟨p, rest⟩
  · exact absurd (by simpa using hrev) hne
  · have hc : c = (p :: rest).reverse := by rw [← hrev, List.reverse_reverse]
    rw [hc, List.head?_reverse]
    unfold restore
    simp only
    split_ifs
    · rw [List.head?_append_of_ne_nil _
        (by simpa using erase_left_ne_nil inf _ rest _),
        List.head?_reverse, erase_left_front]
      apply getLast?_key_congr
      · rw [(set_boundary_key inf _ _).1, (set_boundary_key inf p _).1]
      · rw [(set_boundary_key inf _ _).2, (set_boundary_key inf p _).2]
    · rw [List.head?_append_of_ne_nil _
        (by simpa using erase_left_ne_nil inf _ rest _),
        List.head?_reverse, erase_left_front]
      apply getLast?_key_congr
      · rw [(set_boundary_key inf p _).1]
      · rw [(set_boundary_key inf p _).2]

end line_container

namespace line_container

/-- One more `insert_line(a, b)` without overflow, on a multiset in a
reached state, leaves a reached state. -/
theorem insert_line_state (inf : Int) (hinf : 0 ≤ inf) (ls : List (Int × Int)) (c : List line)
    (a b : Int) (hst : dyn_state inf ls c) (hok : insert_line_ok inf c a b = true) :
    dyn_state inf (ls ++ [(a, b)]) (insert_line inf c a b) := by
  obtain ⟨hinv, _, hfrom, hcov⟩ := hst
  obtain ⟨h1, h2, h3, h4⟩ := insert_line_spec inf hinf c a b hinv hok
  refine ⟨h1, fun _ => h2, ?_, ?_⟩
  · intro e he
    rcases h3 e he with ⟨ha, hb⟩ | ⟨e', he', ha, hb⟩
    · rw [ha, hb]; simp
    · rw [ha, hb]; exact List.mem_append_left _ (hfrom e' he')
  · intro x hlo hhi t ht
    obtain ⟨hold, hnew⟩ := h4 x hlo hhi
    rcases List.mem_append.mp ht with h | h
    · obtain ⟨e, he, f1⟩ := hcov x hlo hhi t h
      obtain ⟨e', he', f2⟩ := hold e he
      exact ⟨e', he', le_trans f1 f2⟩
    · simp only [List.mem_singleton] at h
      subst h
      exact hnew

/-- A `maximum(x)` call with `x ≤ -inf` on a multiset that stores no
boundary below `-inf` returns the value of the first line. -/
theorem maximum_low (inf : Int) (g : line) (t : List line) (x : Int) (hx : x ≤ -inf)
    (hl : -inf ≤ g.l) : maximum (g :: t) x = .ok (g.eval x) := by
  have : ¬ g.l < x := by omega
  simp [maximum, lower_bound, line.lt, this]

end line_container

/-- Runs of the same calls on a Monotonic deque and a Dynamic multiset in a
joint state, both without overflow, with non-decreasing slopes and non-decreasing
query points of the type: every `maximum` call returns on both, with the
same value. -/
theorem results_agree (inf : Int) (hinf : 0 ≤ inf) (first : Int × Int) :
    ∀ (calls hist : List call) (cm cd : List line),
      joint_state inf first hist cm cd →
      line_container.calls_ok inf cd calls = true →
      line_container_monotonic.calls_ok inf cm calls = true →
      ((inserted (hist ++ calls)).map Prod.fst).Pairwise (· ≤ ·) →
      (queried (hist ++ calls)).Pairwise (· ≤ ·) →
      (∀ q ∈ queried calls, q ≤ inf) →
      ∃ vs : List Int, vs.length = (queried calls).length ∧
        line_container_monotonic.results inf cm calls = vs.map Except.ok ∧
        line_container.results inf cd calls = vs.map Except.ok := by
  intro calls
  induction calls with
  | nil =>
    intro hist cm cd _ _ _ _ _ _
    exact ⟨[], rfl, rfl, rfl⟩
  | cons k r ih =>
    intro hist cm cd hj hovd hovm hs hq hr
    obtain ⟨hm, hd, hne, hlow, hdf, hmf⟩ := hj
    have happ : hist ++ k :: r = (hist ++ [k]) ++ r := by simp
    cases k with
    | insert_line a b =>
      have hins : inserted (hist ++ [call.insert_line a b]) = inserted hist ++ [(a, b)] := by
        rw [inserted_append]; rfl
      have hqs : queried (hist ++ [call.insert_line a b]) = queried hist := by
        rw [queried_append]; simp [queried]
      have hsl : ∀ s ∈ inserted hist, s.1 ≤ a := by
        intro s hs0
        rw [inserted_append, List.map_append, List.pairwise_append] at hs
        exact hs.2.2 s.1 (List.mem_map_of_mem _ hs0) a (by simp [inserted])
      rw [line_container.calls_ok, Bool.and_eq_true] at hovd
      rw [line_container_monotonic.calls_ok, Bool.and_eq_true] at hovm
      have hcmne : cm ≠ [] := hm.2.1
      have hcdne : cd ≠ [] := hd.2.1 hne
      have hj' : joint_state inf first (hist ++ [call.insert_line a b])
          (line_container_monotonic.insert_line inf cm a b)
          (line_container.insert_line inf cd a b) := by
        refine ⟨line_container_monotonic.mono_insert_line_state inf hist cm a b hm hsl, ?_, ?_, ?_,
          ?_, ?_⟩
        · rw [hins]
          exact line_container.insert_line_state inf hinf _ cd a b hd hovd.1
        · rw [hins]; simp
        · apply line_container_monotonic.insert_line_low inf hinf cm a b hlow
          · intro e he
            exact hsl (e.a, e.b) (hm.2.2.1 e he)
          · exact hovm.1
        · rw [line_container.insert_line_front inf cd a b hcdne
            (fun e he => ⟨hsl (e.a, e.b) (hd.2.2.1 e he), (hd.1.2.2 e he).2⟩)]
          exact hdf
        · intro hql
          rw [hqs] at hql
          rw [line_container_monotonic.mono_insert_line_front inf cm a b hcmne]
          exact hmf hql
      obtain ⟨vs, h0, h1, h2⟩ := ih (hist ++ [call.insert_line a b]) _ _ hj'
        hovd.2 hovm.2 (by rw [← happ]; exact hs) (by rw [← happ]; exact hq)
        (fun q hq0 => hr q (by simpa [queried] using hq0))
      exact ⟨vs, by simpa [queried] using h0,
        by rw [line_container_monotonic.results]; exact h1,
        by rw [line_container.results]; exact h2⟩
    | maximum x =>
      have hins : inserted (hist ++ [call.maximum x]) = inserted hist := by
        rw [inserted_append]; simp [inserted]
      have hqx : ∀ q ∈ queried hist, q ≤ x := by
        intro q hq0
        rw [queried_append, List.pairwise_append] at hq
        exact hq.2.2 q hq0 x (by simp [queried])
      have hxi : x ≤ inf := hr x (by simp [queried])
      have hxmem : x ∈ queried (hist ++ [call.maximum x]) := by
        rw [queried_append]; simp [queried]
      by_cases hx : -inf < x
      · -- a query in `(-inf, inf]`: both return the maximum
        obtain ⟨v, cm', hmv, hvmax, hm'⟩ :=
          line_container_monotonic.mono_maximum_spec inf hist cm x hm hqx hx hxi
        obtain ⟨w, hdw, hwmax⟩ := line_container.maximum_spec inf _ cd x hne hd hx hxi
        have hvw : w = v := is_maximum_unique x _ w v hwmax hvmax
        have hsub : ∀ e ∈ cm', e ∈ cm := by
          intro e he
          unfold line_container_monotonic.maximum at hmv
          split_ifs at hmv
          obtain ⟨pre, f, rest, h1, h2, _, _⟩ :=
            line_container_monotonic.pop_front_loop_ok x cm v cm' hmv
          rw [h1, ← h2]; exact List.mem_append_right _ he
        have hj' : joint_state inf first (hist ++ [call.maximum x]) cm' cd := by
          refine ⟨hm', by rw [hins]; exact hd, by rw [hins]; exact hne,
            fun e he => hlow e (hsub e he), hdf, ?_⟩
          intro hql
          have := hql x hxmem
          omega
        obtain ⟨vs, h0, h1, h2⟩ := ih (hist ++ [call.maximum x]) cm' cd hj'
          (by rw [line_container.calls_ok, hdw] at hovd; exact hovd)
          (by rw [line_container_monotonic.calls_ok, hmv] at hovm; exact hovm)
          (by rw [← happ]; exact hs) (by rw [← happ]; exact hq)
          (fun q hq0 => hr q (by simp [queried, hq0]))
        refine ⟨v :: vs, by simp [queried, h0], ?_, ?_⟩
        · rw [line_container_monotonic.results, hmv]
          simp [h1]
        · rw [line_container.results, hdw, hvw]
          simp [h2]
      · -- a query at or below `-inf`: both return the value of the first line
        have hxl : x ≤ -inf := by omega
        have hmf' := hmf (fun q hq0 => le_trans (hqx q hq0) hxl)
        obtain ⟨f, tm, rfl⟩ : ∃ f tm, cm = f :: tm := by
          cases cm with
          | nil => simp at hmf'
          | cons f tm => exact ⟨f, tm, rfl⟩
        obtain ⟨g, td, rfl⟩ : ∃ g td, cd = g :: td := by
          cases cd with
          | nil => simp at hdf
          | cons g td => exact ⟨g, td, rfl⟩
        simp only [List.head?_cons, Option.map_some', Option.some.injEq] at hmf' hdf
        have hmv := line_container_monotonic.mono_maximum_low inf f tm x hxl (hlow f (by simp))
        have hdw := line_container.maximum_low inf g td x hxl (hd.1.2.2 g (by simp)).1
        have hfg : g.eval x = f.eval x := by
          have h1 : g.a = f.a := by rw [← hmf'] at hdf; exact congrArg Prod.fst hdf
          have h2 : g.b = f.b := by rw [← hmf'] at hdf; exact congrArg Prod.snd hdf
          unfold line.eval; rw [h1, h2]
        have hj' : joint_state inf first (hist ++ [call.maximum x]) (f :: tm) (g :: td) := by
          refine ⟨line_container_monotonic.mono_state_query inf hist _ x hm,
            by rw [hins]; exact hd, by rw [hins]; exact hne, hlow, ?_, ?_⟩
          · simp [hdf]
          · intro _; simp [hmf']
        obtain ⟨vs, h0, h1, h2⟩ := ih (hist ++ [call.maximum x]) _ _ hj'
          (by rw [line_container.calls_ok, hdw] at hovd; exact hovd)
          (by rw [line_container_monotonic.calls_ok, hmv] at hovm; exact hovm)
          (by rw [← happ]; exact hs) (by rw [← happ]; exact hq)
          (fun q hq0 => hr q (by simp [queried, hq0]))
        refine ⟨f.eval x :: vs, by simp [queried, h0], ?_, ?_⟩
        · rw [line_container_monotonic.results, hmv]
          simp [h1]
        · rw [line_container.results, hdw, hfg]
          simp [h2]

/-- C9: signed integer type with maximum `inf`: for every interleaving of
calls that starts with an `insert_line`, runs without overflow on the
Dynamic and on the Monotonic container (`calls_ok`: no `boundary` call made
by either run overflows), whose inserted slopes are non-decreasing across
calls and whose query points (values of the type, so at most `inf`) are
non-decreasing across calls, every `maximum` call returns on the Monotonic
and on the Dynamic container, and both return the same values. -/
theorem monotonic_agrees_with_dynamic (inf a b : Int) (rest : List call) (hinf : 0 ≤ inf)
    (hovd : line_container.calls_ok inf [] (call.insert_line a b :: rest) = true)
    (hovm : line_container_monotonic.calls_ok inf [] (call.insert_line a b :: rest) = true)
    (hs : ((inserted (call.insert_line a b :: rest)).map Prod.fst).Chain' (· ≤ ·))
    (hq : (queried rest).Chain' (· ≤ ·)) (hr : ∀ q ∈ queried rest, q ≤ inf) :
    ∃ vs : List Int, vs.length = (queried rest).length ∧
      line_container_monotonic.results inf [] (call.insert_line a b :: rest)
        = vs.map Except.ok ∧
      line_container.results inf [] (call.insert_line a b :: rest) = vs.map Except.ok := by
  have hj : joint_state inf (a, b) [call.insert_line a b]
      (line_container_monotonic.insert_line inf [] a b)
      (line_container.insert_line inf [] a b) := by
    refine ⟨line_container_monotonic.insert_line_first inf a b, ?_, by simp [inserted], ?_,
      rfl, fun _ => rfl⟩
    · have := line_container.build_state inf hinf [(a, b)] (by rfl)
      exact this
    · intro e he
      simp only [line_container_monotonic.insert_line, List.reverse_nil,
        List.mem_singleton] at he
      subst he
      simp only; omega
  rw [line_container.calls_ok, Bool.and_eq_true] at hovd
  rw [line_container_monotonic.calls_ok, Bool.and_eq_true] at hovm
  obtain ⟨vs, h0, h1, h2⟩ := results_agree inf hinf (a, b) rest [call.insert_line a b] _ _ hj
    hovd.2 hovm.2 (List.chain'_iff_pairwise.mp hs)
    (by simpa [queried] using List.chain'_iff_pairwise.mp hq) hr
  exact ⟨vs, h0, by rw [line_container_monotonic.results]; exact h1,
    by rw [line_container.results]; exact h2⟩

/-- The theorem `monotonic_agrees_with_dynamic` for 32-bit `int`, with
queries at the minimum of the type, at `-inf`, inside the range and at
`inf`.  The intercepts of the first and the last line differ by more than
the type holds; neither run subtracts them. -/
theorem monotonic_agrees_with_dynamic_witness :
    (0 : Int) ≤ 2147483647 ∧
    line_container.calls_ok 2147483647 [] (call.insert_line 0 (-2000000000) ::
      [call.maximum (-2147483648), call.insert_line 0 7, call.maximum (-2147483647),
        call.insert_line 1 0, call.maximum 3, call.insert_line 5 2000000000,
        call.maximum 2147483647]) = true ∧
    line_container_monotonic.calls_ok 2147483647 [] (call.insert_line 0 (-2000000000) ::
      [call.maximum (-2147483648), call.insert_line 0 7, call.maximum (-2147483647),
        call.insert_line 1 0, call.maximum 3, call.insert_line 5 2000000000,
        call.maximum 2147483647]) = true ∧
    ((inserted (call.insert_line 0 (-2000000000) ::
      [call.maximum (-2147483648), call.insert_line 0 7, call.maximum (-2147483647),
        call.insert_line 1 0, call.maximum 3, call.insert_line 5 2000000000,
        call.maximum 2147483647])).map Prod.fst).Chain' (· ≤ ·) ∧
    (queried [call.maximum (-2147483648), call.insert_line 0 7, call.maximum (-2147483647),
        call.insert_line 1 0, call.maximum 3, call.insert_line 5 2000000000,
        call.maximum 2147483647]).Chain' (· ≤ ·) ∧
    (∀ q ∈ queried [call.maximum (-2147483648), call.insert_line 0 7,
        call.maximum (-2147483647), call.insert_line 1 0, call.maximum 3,
        call.insert_line 5 2000000000, call.maximum 2147483647], q ≤ 2147483647) ∧
    ∃ vs : List Int,
      vs.length = (queried [call.maximum (-2147483648), call.insert_line 0 7,
        call.maximum (-2147483647), call.insert_line 1 0, call.maximum 3,
        call.insert_line 5 2000000000, call.maximum 2147483647]).length ∧
      line_container_monotonic.results 2147483647 [] (call.insert_line 0 (-2000000000) ::
        [call.maximum (-2147483648), call.insert_line 0 7, call.maximum (-2147483647),
          call.insert_line 1 0, call.maximum 3, call.insert_line 5 2000000000,
          call.maximum 2147483647])
        = vs.map Except.ok ∧
      line_container.results 2147483647 [] (call.insert_line 0 (-2000000000) ::
        [call.maximum (-2147483648), call.insert_line 0 7, call.maximum (-2147483647),
          call.insert_line 1 0, call.maximum 3, call.insert_line 5 2000000000,
          call.maximum 2147483647])
        = vs.map Except.ok :=
  ⟨by decide, by decide, by decide, by simp [inserted], by simp [queried], by decide,
    monotonic_agrees_with_dynamic 2147483647 0 (-2000000000)
      [call.maximum (-2147483648), call.insert_line 0 7, call.maximum (-2147483647),
        call.insert_line 1 0, call.maximum 3, call.insert_line 5 2000000000,
        call.maximum 2147483647]
      (by decide) (by decide) (by decide) (by simp [inserted]) (by simp [queried])
      (by decide)⟩

/-! ## The search of `maximum` runs on a partitioned range -/

/-- A Dynamic multiset that satisfies the invariant is partitioned with
respect to every query probe, so that `multiset::lower_bound` is specified
on it and returns what `lower_bound` returns. -/
theorem dyn_partitioned (inf : Int) (c : List line) (hinv : dyn_inv inf c) (x : Int) :
    partitioned c ⟨0, 0, true, x⟩ := by
  have h1 : c.Chain' (fun p n : line => p.l < n.l) := hinv.1.imp (fun _ _ hl => hl.2)
  haveI : IsTrans line (fun p n : line => p.l < n.l) := ⟨fun _ _ _ h1 h2 => lt_trans h1 h2⟩
  have h2 : c.Pairwise (fun p n : line => p.l < n.l) := List.chain'_iff_pairwise.mp h1
  refine h2.imp ?_
  intro e f hef he
  simp only [line.lt, Bool.or_true, if_true, decide_eq_false_iff_not, not_lt] at he ⊢
  omega

/-! ## Further properties of the Dynamic and the Monotonic container -/

/-- C11: Dynamic container over a signed integer type with maximum `inf`:
after every sequence of `insert_line` calls from the empty container that
runs without overflow (`build_ok`: no `boundary` call made by the run
overflows), the retained lines are in ascending slope order and the
stored boundaries `l` ascend strictly along them: each line's `l` is
strictly less than that of every line after it, its right neighbour first. -/
theorem dynamic_boundaries_strictly_ascend (inf : Int) (ls : List (Int × Int))
    (hinf : 0 ≤ inf) (hov : line_container.build_ok inf ls = true) :
    (line_container.build inf ls).Pairwise (fun p n => p.a ≤ n.a ∧ p.l < n.l) := by
  have h := (line_container.build_state inf hinf ls hov).1.1
  have h1 : (line_container.build inf ls).Chain' (fun p n : line => p.a ≤ n.a ∧ p.l < n.l) :=
    h.imp (fun _ _ h => ⟨h.1.1, h.2⟩)
  haveI : IsTrans line (fun p n : line => p.a ≤ n.a ∧ p.l < n.l) :=
    ⟨fun _ _ _ h1 h2 => ⟨le_trans h1.1 h2.1, lt_trans h1.2 h2.2⟩⟩
  exact List.chain'_iff_pairwise.mp h1

/-- The theorem `dynamic_boundaries_strictly_ascend` for 32-bit `int`, on six
inserts in no order with repeated slopes.  The intercepts of the first and
the third line differ by more than the type holds; the run does not
subtract them. -/
theorem dynamic_boundaries_strictly_ascend_witness :
    (0 : Int) ≤ 2147483647 ∧
    line_container.build_ok 2147483647
      [(5, 2000000000), (1, 5), (0, -2000000000), (1, 7), (-3, -2), (5, 1)] = true ∧
    (line_container.build 2147483647
      [(5, 2000000000), (1, 5), (0, -2000000000), (1, 7), (-3, -2), (5, 1)]).Pairwise
        (fun p n => p.a ≤ n.a ∧ p.l < n.l) :=
  ⟨by decide, by decide,
    dynamic_boundaries_strictly_ascend 2147483647
      [(5, 2000000000), (1, 5), (0, -2000000000), (1, 7), (-3, -2), (5, 1)]
      (by decide) (by decide)⟩

/-- C12 (the code fails the claim): for 32-bit `int`, after
`insert_line(0,0)` and `insert_line(0,5)` the Dynamic container still holds
the line `(0,0)`, with stored boundary `-inf`, before the line `(0,5)` of the
same slope and larger intercept, and `maximum(-2147483647)` returns `0`,
which is not the maximum `5` over the inserted lines.  After
`insert_line(-1,0)` first, where the line `(0,0)` is not the first of the
multiset, the same two calls erase it. -/
theorem dynamic_keeps_dominated_first :
    line_container.build 2147483647 [(0, 0), (0, 5)]
      = [⟨0, 0, false, -2147483647⟩, ⟨0, 5, false, 2147483647⟩] ∧
    ¬ (∀ e ∈ line_container.build 2147483647 [(0, 0), (0, 5)],
        ∀ f ∈ line_container.build 2147483647 [(0, 0), (0, 5)],
          e ≠ f → e.a = f.a → ¬ e.b ≤ f.b) ∧
    line_container.build_ok 2147483647 [(0, 0), (0, 5)] = true ∧
    line_container.maximum (line_container.build 2147483647 [(0, 0), (0, 5)]) (-2147483647)
      = .ok 0 ∧
    ¬ is_maximum (-2147483647) [(0, 0), (0, 5)] 0 ∧
    is_maximum (-2147483647) [(0, 0), (0, 5)] 5 ∧
    line_container.build 2147483647 [(-1, 0), (0, 0), (0, 5)]
      = [⟨-1, 0, false, -5⟩, ⟨0, 5, false, 2147483647⟩] := by
  refine ⟨by decide, by decide, by decide, by rfl, by decide, by decide, by decide⟩

/-- C13: for integer lines `L` and `R` with `L.a < R.a` and every integer
`x`, `x ≤ L.boundary(R)` holds exactly when `L.eval(x) ≥ R.eval(x)`; so
`L.boundary(R)` is the last point at which `L` is at least as high as `R`:
it is so there, and strictly lower at the next point. -/
theorem boundary_is_last_point (inf : Int) (L R : line) (h : L.a < R.a) :
    (∀ x : Int, x ≤ L.boundary inf R ↔ L.eval x ≥ R.eval x) ∧
    L.eval (L.boundary inf R) ≥ R.eval (L.boundary inf R) ∧
    L.eval (L.boundary inf R + 1) < R.eval (L.boundary inf R + 1) := by
  refine ⟨fun x => boundary_le_iff inf L R h x, ?_, ?_⟩
  · exact (boundary_le_iff inf L R h _).mp (le_refl _)
  · exact eval_lt_of_boundary_lt inf L R h _ (by omega)

/-- The theorem `boundary_is_last_point` on the lines `(-3, 1)` and `(2, -6)`,
which cross between `1` and `2`. -/
theorem boundary_is_last_point_witness :
    (⟨-3, 1, false, 0⟩ : line).a < (⟨2, -6, false, 0⟩ : line).a ∧
    (∀ x : Int, x ≤ (⟨-3, 1, false, 0⟩ : line).boundary 2147483647 ⟨2, -6, false, 0⟩ ↔
      (⟨-3, 1, false, 0⟩ : line).eval x ≥ (⟨2, -6, false, 0⟩ : line).eval x) ∧
    (⟨-3, 1, false, 0⟩ : line).eval
        ((⟨-3, 1, false, 0⟩ : line).boundary 2147483647 ⟨2, -6, false, 0⟩) ≥
      (⟨2, -6, false, 0⟩ : line).eval
        ((⟨-3, 1, false, 0⟩ : line).boundary 2147483647 ⟨2, -6, false, 0⟩) ∧
    (⟨-3, 1, false, 0⟩ : line).eval
        ((⟨-3, 1, false, 0⟩ : line).boundary 2147483647 ⟨2, -6, false, 0⟩ + 1) <
      (⟨2, -6, false, 0⟩ : line).eval
        ((⟨-3, 1, false, 0⟩ : line).boundary 2147483647 ⟨2, -6, false, 0⟩ + 1) :=
  ⟨by decide, boundary_is_last_point 2147483647 ⟨-3, 1, false, 0⟩ ⟨2, -6, false, 0⟩ (by decide)⟩

/-- C18: Monotonic `insert_line(a, b)` on a non-empty deque whose last line
has slope `a` and an intercept `≥ b` returns at once: the deque, with all
its lines and stored boundaries, is the same after the call. -/
theorem monotonic_insert_no_op (inf : Int) (c : List line) (bk : line) (a b : Int)
    (hlast : c.getLast? = some bk) (ha : bk.a = a) (hb : bk.b ≥ b) :
    line_container_monotonic.insert_line inf c a b = c := by
  unfold line_container_monotonic.insert_line
  rcases hrev : c.reverse with _ | ⟨bk', rest⟩
  · have : c = [] := by simpa using hrev
    rw [this] at hlast
    simp at hlast
  · have h1 : c.getLast? = some bk' := by
      rw [← List.reverse_reverse c, hrev, List.getLast?_reverse]; rfl
    rw [hlast] at h1
    simp only [Option.some.injEq] at h1
    subst h1
    simp only
    rw [if_pos ⟨ha, hb⟩]

/-- The theorem `monotonic_insert_no_op` for 32-bit `int`, on a deque of two
lines and the call `insert_line(2, -1)`. -/
theorem monotonic_insert_no_op_witness :
    ([⟨-1, 10, false, 3⟩, ⟨2, 0, false, 2147483647⟩] : List line).getLast?
      = some ⟨2, 0, false, 2147483647⟩ ∧
    (⟨2, 0, false, 2147483647⟩ : line).a = 2 ∧
    (⟨2, 0, false, 2147483647⟩ : line).b ≥ -1 ∧
    line_container_monotonic.insert_line 2147483647
      [⟨-1, 10, false, 3⟩, ⟨2, 0, false, 2147483647⟩] 2 (-1)
      = [⟨-1, 10, false, 3⟩, ⟨2, 0, false, 2147483647⟩] :=
  ⟨by decide, by decide, by decide,
    monotonic_insert_no_op 2147483647 [⟨-1, 10, false, 3⟩, ⟨2, 0, false, 2147483647⟩]
      ⟨2, 0, false, 2147483647⟩ 2 (-1) (by decide) (by decide) (by decide)⟩

/-! ## Static container: the pop loop -/

namespace line_container_static

/-- C14 (the claim fails): in the third iteration of the constructor on the
batch `(0,0)`, `(1,0)`, `(2,-10)` (32-bit `int`) the hull is `(0,0)` with
recorded boundary `0`, then `(1,0)`; the boundary of `(0,0)` against the
candidate `(2,-10)` is `5 >= 0`, so the loop as the claim words it pops
`(1,0)`, while the loop of the source pops nothing (`0 >= 5` is false). -/
theorem pop_loop_not_as_specified :
    [(⟨0, 0, false, 0⟩ : line), ⟨1, 0, false, 2147483647⟩, ⟨2, -10, false, 0⟩].foldl
        (step 2147483647) []
      = [⟨2, -10, false, 2147483647⟩, ⟨1, 0, false, 10⟩, ⟨0, 0, false, 0⟩] ∧
    pop_loop 2147483647 ⟨2, -10, false, 0⟩
        [⟨1, 0, false, 2147483647⟩, ⟨0, 0, false, 0⟩]
      = [⟨1, 0, false, 2147483647⟩, ⟨0, 0, false, 0⟩] ∧
    pop_loop_as_specified 2147483647 ⟨2, -10, false, 0⟩
        [⟨1, 0, false, 2147483647⟩, ⟨0, 0, false, 0⟩]
      = [⟨0, 0, false, 0⟩] ∧
    pop_loop 2147483647 ⟨2, -10, false, 0⟩ [⟨1, 0, false, 2147483647⟩, ⟨0, 0, false, 0⟩]
      ≠ pop_loop_as_specified 2147483647 ⟨2, -10, false, 0⟩
          [⟨1, 0, false, 2147483647⟩, ⟨0, 0, false, 0⟩] := by
  refine ⟨by decide, by decide, by decide, by decide⟩

/-- C14 (amended): in the Static constructor, before a candidate line `elt`
is appended, the last hull element is popped exactly while the hull has at
least two elements and the boundary recorded on the second-to-last element
is `>=` the second-to-last element's boundary against the candidate: the
loop leaves the hull without its last `k` elements, the test held in each
of the `k` states passed, and fails in the state left. -/
theorem pop_loop_exactly_while (inf : Int) (elt : line) (hull : List line) :
    ∃ k, pop_loop inf elt hull = hull.drop k ∧
      (∀ j < k, ∃ h1 h2 rest, hull.drop j = h1 :: h2 :: rest ∧ h2.l ≥ h2.boundary inf elt) ∧
      ¬ ∃ h1 h2 rest, hull.drop k = h1 :: h2 :: rest ∧ h2.l ≥ h2.boundary inf elt := by
  induction hull with
  | nil =>
    refine ⟨0, rfl, fun j hj => absurd hj (Nat.not_lt_zero j), ?_⟩
    rintro ⟨h1, h2, rest, h, _⟩
    simp at h
  | cons h1 t ih =>
    cases t with
    | nil =>
      refine ⟨0, rfl, fun j hj => absurd hj (Nat.not_lt_zero j), ?_⟩
      rintro ⟨h1', h2, rest, h, _⟩
      simp at h
    | cons h2 rest =>
      by_cases hc : h2.l ≥ h2.boundary inf elt
      · obtain ⟨k, hk1, hk2, hk3⟩ := ih
        refine ⟨k + 1, ?_, ?_, ?_⟩
        · rw [pop_loop, if_pos hc]
          exact hk1
        · intro j hj
          cases j with
          | zero => exact ⟨h1, h2, rest, rfl, hc⟩
          | succ j' => exact hk2 j' (by omega)
        · exact hk3
      · refine ⟨0, ?_, fun j hj => absurd hj (Nat.not_lt_zero j), ?_⟩
        · rw [pop_loop, if_neg hc]
          rfl
        · rintro ⟨h1', h2', rest', h, hge⟩
          simp only [List.drop_zero, List.cons.injEq] at h
          obtain ⟨_, rfl, _⟩ := h
          exact hc hge

end line_container_static

/-! ## Static container: the hull invariant -/

/-- The boundary of two lines whose intercept difference is representable
is not above `inf`. -/
theorem boundary_le_inf (inf : Int) (hinf : 0 ≤ inf) (s o : line) (h : s.a ≤ o.a)
    (hb : s.a ≠ o.a → s.b - o.b ≤ inf) : s.boundary inf o ≤ inf := by
  rcases lt_or_eq_of_le h with hlt | heq
  · by_contra hcon
    push_neg at hcon
    have h1 := (boundary_le_iff inf s o hlt (inf + 1)).mp (by omega)
    have h2 := hb (ne_of_lt hlt)
    unfold line.eval at h1
    nlinarith
  · unfold line.boundary
    rw [if_pos heq]
    split_ifs <;> omega

/-- Three lines of ascending slopes, the boundaries being values of the
type: if the boundary of the first against the second is below its boundary
against the third, it is not above the boundary of the second against the
third. -/
theorem static_middle (inf : Int) (h2 h elt : line) (s1 : h2.a ≤ h.a) (s2 : h.a ≤ elt.a)
    (hu : -inf ≤ h2.boundary inf h) (hv : h2.boundary inf elt ≤ inf)
    (hw : -inf ≤ h.boundary inf elt) (hlt : h2.boundary inf h < h2.boundary inf elt) :
    h2.boundary inf h ≤ h.boundary inf elt := by
  rcases lt_or_eq_of_le s1 with hl1 | he1
  · have e1 := eval_le_of_le_boundary inf h2 elt (le_trans s1 s2) (h2.boundary inf h + 1)
      (by omega) (by omega)
    have e2 := eval_lt_of_boundary_lt inf h2 h hl1 (h2.boundary inf h + 1) (by omega)
    rcases lt_or_eq_of_le s2 with hl2 | he2
    · have := (boundary_le_iff inf h elt hl2 (h2.boundary inf h + 1)).mpr (by omega)
      omega
    · have hb : h.b > elt.b := by
        unfold line.eval at e1 e2
        rw [he2] at e2
        omega
      have : h.boundary inf elt = inf := by
        unfold line.boundary
        rw [if_pos he2, if_pos hb]
      omega
  · have : h2.boundary inf h = -inf := by
      have hcases : h2.boundary inf h = inf ∨ h2.boundary inf h = -inf := by
        unfold line.boundary
        rw [if_pos he1]
        split_ifs
        · exact Or.inl rfl
        · exact Or.inr rfl
      rcases hcases with h' | h'
      · omega
      · exact h'
    omega

namespace line_container_static

/-- The pop loop leaves a final part of the hull (back to front), not empty
when the hull is not, in which the test of the loop fails. -/
theorem static_pop_loop_spec (inf : Int) (elt : line) :
    ∀ hull : List line,
      (∃ k, pop_loop inf elt hull = hull.drop k) ∧
      (hull ≠ [] → pop_loop inf elt hull ≠ []) ∧
      ∀ h h2 rest, pop_loop inf elt hull = h :: h2 :: rest → h2.l < h2.boundary inf elt := by
  intro hull
  induction hull with
  | nil =>
    refine ⟨⟨0, rfl⟩, fun h => absurd rfl h, ?_⟩
    intro h h2 rest hr
    simp [pop_loop] at hr
  | cons h1 t ih =>
    cases t with
    | nil =>
      refine ⟨⟨0, rfl⟩, fun _ => by simp [pop_loop], ?_⟩
      intro h h2 rest hr
      simp [pop_loop] at hr
    | cons h2 rest =>
      by_cases hc : h2.l ≥ h2.boundary inf elt
      · have heq : pop_loop inf elt (h1 :: h2 :: rest) = pop_loop inf elt (h2 :: rest) := by
          rw [pop_loop, if_pos hc]
        rw [heq]
        obtain ⟨⟨k, hk⟩, hne, htest⟩ := ih
        exact ⟨⟨k + 1, hk⟩, fun _ => hne (by simp), htest⟩
      · have heq : pop_loop inf elt (h1 :: h2 :: rest) = h1 :: h2 :: rest := by
          rw [pop_loop, if_neg hc]
        rw [heq]
        refine ⟨⟨0, rfl⟩, fun _ => by simp, ?_⟩
        intro h h2' rest' hr
        simp only [List.cons.injEq] at hr
        obtain ⟨_, rfl, _⟩ := hr
        omega

/-- In the state that a pop loop without overflow leaves, the boundary of
the second-to-last line against the candidate was computed without
overflow. -/
theorem static_pop_loop_ok_spec (inf : Int) (elt : line) :
    ∀ hull : List line, pop_loop_ok inf elt hull = true →
      ∀ h h2 rest, pop_loop inf elt hull = h :: h2 :: rest → h2.boundary_ok inf elt = true := by
  intro hull
  induction hull with
  | nil =>
    intro _ h h2 rest hr
    simp [pop_loop] at hr
  | cons h1 t ih =>
    cases t with
    | nil =>
      intro _ h h2 rest hr
      simp [pop_loop] at hr
    | cons h2 rest =>
      intro hok h h2' rest' hr
      rw [pop_loop_ok, Bool.and_eq_true] at hok
      by_cases hc : h2.l ≥ h2.boundary inf elt
      · rw [pop_loop, if_pos hc] at hr
        have := hok.2
        rw [if_pos hc] at this
        exact ih this h h2' rest' hr
      · rw [pop_loop, if_neg hc] at hr
        simp only [List.cons.injEq] at hr
        obtain ⟨_, rfl, _⟩ := hr
        exact hok.1

/-- One iteration of the constructor without overflow keeps the hull
invariant, when the candidate's slope is not below the slopes of the hull;
the hull left starts with the candidate and otherwise holds old hull
lines. -/
theorem step_spec (inf : Int) (hinf : 0 ≤ inf) (hull : List line) (elt : line)
    (hinv : static_inv inf hull) (hsl : ∀ h ∈ hull, h.a ≤ elt.a)
    (hok : step_ok inf hull elt = true) :
    static_inv inf (step inf hull elt) ∧
    ∀ e ∈ step inf hull elt,
      (e.a = elt.a ∧ e.b = elt.b) ∨ ∃ e' ∈ hull, e.a = e'.a ∧ e.b = e'.b := by
  obtain ⟨hch, _, hbd⟩ := hinv
  obtain ⟨⟨k, hk⟩, _, htest⟩ := static_pop_loop_spec inf elt hull
  unfold step_ok at hok
  rw [Bool.and_eq_true] at hok
  have hok2 := static_pop_loop_ok_spec inf elt hull hok.1
  have hokh := hok.2
  have hsub : ∀ e ∈ pop_loop inf elt hull, e ∈ hull := by
    intro e he
    rw [hk] at he
    exact List.mem_of_mem_drop he
  have hchR : (pop_loop inf elt hull).Chain' (flip (static_link inf)) := by
    rw [hk]
    exact List.Chain'.drop hch k
  unfold step
  cases hr : pop_loop inf elt hull with
  | nil =>
    simp only
    refine ⟨⟨by simp, by simp, ?_⟩, ?_⟩
    · intro e he
      simp only [List.mem_singleton] at he
      subst he
      simp only
      omega
    · intro e he
      simp only [List.mem_singleton] at he
      subst he
      exact Or.inl ⟨rfl, rfl⟩
  | cons h rest =>
    rw [hr] at hsub hchR htest hok2 hokh
    simp only at hokh
    have hh := hsl h (hsub h (by simp))
    have hlo : -inf ≤ h.boundary inf elt := boundary_ok_low inf hinf h elt hh hokh
    have hhi : h.boundary inf elt ≤ inf := boundary_ok_high inf hinf h elt hh hokh
    simp only
    refine ⟨⟨?_, by simp, ?_⟩, ?_⟩
    · refine List.chain'_cons.mpr ⟨⟨⟨hh, rfl⟩, hhi⟩, ?_⟩
      cases rest with
      | nil => simp
      | cons h2 rest' =>
        obtain ⟨hl, hrest⟩ := List.chain'_cons.mp hchR
        refine List.chain'_cons.mpr ⟨⟨adj_congr_right inf h2 h _ rfl rfl hl.1, ?_⟩, hrest⟩
        have h2s := hsl h2 (hsub h2 (by simp))
        have ht := htest h h2 rest' rfl
        have := static_middle inf h2 h elt hl.1.1 hh
          (by rw [← hl.1.2]; exact (hbd h2 (hsub h2 (by simp))).1)
          (boundary_ok_high inf hinf h2 elt h2s (hok2 h h2 rest' rfl))
          hlo (by rw [← hl.1.2]; exact ht)
        show h2.l ≤ h.boundary inf elt
        rw [hl.1.2]
        exact this
    · intro e he
      rcases List.mem_cons.mp he with rfl | h'
      · simp only; omega
      · rcases List.mem_cons.mp h' with rfl | h''
        · exact ⟨hlo, hhi⟩
        · exact hbd e (hsub e (List.mem_cons_of_mem _ h''))
    · intro e he
      rcases List.mem_cons.mp he with rfl | h'
      · exact Or.inl ⟨rfl, rfl⟩
      · rcases List.mem_cons.mp h' with rfl | h''
        · exact Or.inr ⟨h, hsub h (by simp), rfl, rfl⟩
        · exact Or.inr ⟨e, hsub e (List.mem_cons_of_mem _ h''), rfl, rfl⟩

/-- The iterations of the constructor over candidates sorted by slope, run
without overflow, keep the hull invariant. -/
theorem fold_spec (inf : Int) (hinf : 0 ≤ inf) :
    ∀ (S hull : List line), static_inv inf hull →
      S.Pairwise (fun p n => p.a ≤ n.a) → (∀ h ∈ hull, ∀ s ∈ S, h.a ≤ s.a) →
      steps_ok inf hull S = true →
      static_inv inf (S.foldl (step inf) hull) := by
  intro S
  induction S with
  | nil => intro hull hinv _ _ _; exact hinv
  | cons elt S' ih =>
    intro hull hinv hsort hsl hok
    rw [steps_ok, Bool.and_eq_true] at hok
    have hstep := step_spec inf hinf hull elt hinv (fun h hh => hsl h hh elt (by simp)) hok.1
    rw [List.foldl_cons]
    refine ih _ hstep.1 (List.Pairwise.of_cons hsort) ?_ hok.2
    intro e he s hs
    rcases hstep.2 e he with ⟨ha, _⟩ | ⟨e', he', ha, _⟩
    · rw [ha]; exact List.rel_of_pairwise_cons hsort hs
    · rw [ha]; exact hsl e' he' s (List.mem_cons_of_mem _ hs)

/-- The sorted input of the constructor is in ascending slope order. -/
theorem sort_sorted (input : List line) (hq : ∀ e ∈ input, e.q = false) :
    (sort input).Pairwise (fun p n => p.a ≤ n.a) := by
  have hmap : (sort input).map (fun e => e.a)
      = (input.map (fun e => e.a)).insertionSort (· ≤ ·) := by
    unfold sort
    apply List.map_insertionSort
    intro x hx y hy
    simp [line.lt, hq x hx, hq y hy]
  have hs : ((sort input).map (fun e => e.a)).Sorted (· ≤ ·) := by
    rw [hmap]
    exact List.sorted_insertionSort _ _
  exact (List.pairwise_map.mp hs)

/-- The sorted input holds the lines of the input. -/
theorem mem_sort (input : List line) (e : line) : e ∈ sort input ↔ e ∈ input := by
  unfold sort
  exact List.mem_insertionSort _

/-- Every possible outcome of the sort of a batch is in ascending slope
order. -/
theorem sorted_input_ascending (batch : List (Int × Int)) (S : List line)
    (h : sorted_input batch S) : S.Pairwise (fun p n => p.a ≤ n.a) := by
  obtain ⟨hp, hs⟩ := h
  have hq : ∀ e ∈ S, e.q = false := by
    intro e he
    obtain ⟨s, _, rfl⟩ := List.mem_map.mp (hp.mem_iff.mp he)
    rfl
  refine List.Pairwise.imp_of_mem ?_ hs
  intro p n hpm hnm hlt
  simp only [line.lt, hq p hpm, hq n hnm, Bool.or_self, Bool.false_eq_true, if_false,
    decide_eq_false_iff_not, not_lt] at hlt
  exact hlt

/-- The stable sort of the model gives a possible outcome of the sort of a
batch. -/
theorem sort_sorted_input (batch : List (Int × Int)) :
    sorted_input batch (sort (batch.map (fun s => (⟨s.1, s.2, false, 0⟩ : line)))) := by
  refine ⟨List.perm_insertionSort _ _, ?_⟩
  have hq : ∀ e ∈ batch.map (fun s => (⟨s.1, s.2, false, 0⟩ : line)), e.q = false := by
    intro e he
    obtain ⟨s, _, rfl⟩ := List.mem_map.mp he
    rfl
  have h := sort_sorted _ hq
  refine List.Pairwise.imp_of_mem ?_ h
  intro p n hpm hnm hle
  have hp := hq p ((mem_sort _ p).mp hpm)
  have hn := hq n ((mem_sort _ n).mp hnm)
  simp only [line.lt, hp, hn, Bool.or_self, Bool.false_eq_true, if_false,
    decide_eq_false_iff_not, not_lt]
  exact hle

/-- The constructor of the model is the loop of the constructor run on the
stably sorted batch. -/
theorem construct_eq_construct_sorted (inf : Int) (batch : List (Int × Int)) :
    construct inf batch
      = construct_sorted inf (sort (batch.map (fun s => (⟨s.1, s.2, false, 0⟩ : line)))) :=
  rfl

/-- The hull that the loop of the constructor builds, without overflow, from
lines in ascending slope order satisfies the hull invariant (in
back-to-front order). -/
theorem construct_sorted_inv (inf : Int) (hinf : 0 ≤ inf) (S : List line)
    (hs : S.Pairwise (fun p n => p.a ≤ n.a)) (hok : construct_ok inf S = true) :
    static_inv inf (construct_sorted inf S).reverse := by
  unfold construct_sorted
  rw [List.reverse_reverse]
  exact fold_spec inf hinf S [] ⟨by simp, by simp, by simp⟩ hs (by simp) hok

end line_container_static

/-! ## The binary search on a partitioned range -/

/-- On a range where the elements less than the probe are exactly those
before the position `r`, the first element not less than the probe is the
element at `r` (none if `r` is the end). -/
theorem find_eq_get_of_split (probe : line) :
    ∀ (c : List line) (r : Nat),
      (∀ i, i < r → ∀ e, c.get? i = some e → e.lt probe = true) →
      (∀ i, r ≤ i → ∀ e, c.get? i = some e → e.lt probe = false) →
      lower_bound c probe = c.get? r := by
  intro c
  induction c with
  | nil => intro r _ _; rfl
  | cons e t ih =>
    intro r hlo hhi
    cases r with
    | zero =>
      have := hhi 0 (le_refl _) e rfl
      simp [lower_bound, this]
    | succ r' =>
      have h0 := hlo 0 (Nat.succ_pos _) e rfl
      have hrec := ih r'
        (fun i hi e' he' => hlo (i + 1) (by omega) e' (by simpa using he'))
        (fun i hi e' he' => hhi (i + 1) (by omega) e' (by simpa using he'))
      unfold lower_bound at hrec ⊢
      rw [List.find?_cons_of_neg _ (by simp [h0])]
      simpa using hrec

/-- The bisection of `std::lower_bound` on a partitioned range stops at the
position that splits the range into the elements less than the probe and
the others. -/
theorem bisect_spec (c : List line) (probe : line)
    (hp : ∀ i j ei ej, i < j → c.get? i = some ei → c.get? j = some ej →
      ei.lt probe = false → ej.lt probe = false) :
    ∀ fuel first len, len ≤ fuel → first + len ≤ c.length →
      (∀ i, i < first → ∀ e, c.get? i = some e → e.lt probe = true) →
      (∀ i, first + len ≤ i → ∀ e, c.get? i = some e → e.lt probe = false) →
      (∀ i, i < bisect c probe fuel first len → ∀ e, c.get? i = some e → e.lt probe = true) ∧
      (∀ i, bisect c probe fuel first len ≤ i → ∀ e, c.get? i = some e →
        e.lt probe = false) := by
  intro fuel
  induction fuel with
  | zero =>
    intro first len hlen _ hlo hhi
    have : len = 0 := by omega
    subst this
    exact ⟨hlo, hhi⟩
  | succ fuel ih =>
    intro first len hlen hbound hlo hhi
    by_cases h0 : len = 0
    · subst h0
      rw [bisect, if_pos rfl]
      exact ⟨hlo, hhi⟩
    · have hidx : first + len / 2 < c.length := by
        have : len / 2 < len := Nat.div_lt_self (by omega) (by decide)
        omega
      obtain ⟨m, hm⟩ : ∃ m, c.get? (first + len / 2) = some m :=
        ⟨c.get ⟨_, hidx⟩, List.get?_eq_get hidx⟩
      have hhalf : len / 2 < len := Nat.div_lt_self (by omega) (by decide)
      by_cases hlt : m.lt probe = true
      · have heq : bisect c probe (fuel + 1) first len
            = bisect c probe fuel (first + len / 2 + 1) (len - len / 2 - 1) := by
          rw [bisect, if_neg h0, hm]
          simp only [hlt, if_true]
        rw [heq]
        refine ih _ _ (by omega) (by omega) ?_ (fun i hi e he => hhi i (by omega) e he)
        intro i hi e he
        by_cases hie : i = first + len / 2
        · rw [hie, hm] at he
          simp only [Option.some.injEq] at he
          rw [← he]; exact hlt
        · by_contra hcon
          have hfalse : e.lt probe = false := by simpa using hcon
          have := hp i (first + len / 2) e m (by omega) he hm hfalse
          rw [this] at hlt
          exact absurd hlt (by simp)
      · have hltf : m.lt probe = false := by simpa using hlt
        have heq : bisect c probe (fuel + 1) first len
            = bisect c probe fuel first (len / 2) := by
          rw [bisect, if_neg h0, hm]
          simp only [hltf, Bool.false_eq_true, if_false]
        rw [heq]
        refine ih _ _ (by omega) (by omega) hlo ?_
        intro i hi e he
        by_cases hie : i = first + len / 2
        · rw [hie, hm] at he
          simp only [Option.some.injEq] at he
          rw [← he]; exact hltf
        · exact hp (first + len / 2) i m e (by omega) hm he hltf

/-- On a partitioned range the bisection of `std::lower_bound` reaches the
first element not less than the probe. -/
theorem bisect_eq_lower_bound (c : List line) (probe : line) (hp : partitioned c probe) :
    c.get? (bisect c probe c.length 0 c.length) = lower_bound c probe := by
  have hidx : ∀ i j ei ej, i < j → c.get? i = some ei → c.get? j = some ej →
      ei.lt probe = false → ej.lt probe = false := by
    intro i j ei ej hij hi hj
    obtain ⟨hi', rfl⟩ := List.get?_eq_some.mp hi
    obtain ⟨hj', rfl⟩ := List.get?_eq_some.mp hj
    exact List.pairwise_iff_get.mp hp ⟨i, hi'⟩ ⟨j, hj'⟩ hij
  obtain ⟨h1, h2⟩ := bisect_spec c probe hidx c.length 0 c.length (le_refl _) (by omega)
    (fun i hi => absurd hi (Nat.not_lt_zero i))
    (fun i hi e he => by
      have := (List.get?_eq_some.mp he).1
      omega)
  exact (find_eq_get_of_split probe c _ h1 h2).symm

/-- A range along which the stored boundaries do not descend is partitioned
with respect to every query probe. -/
theorem partitioned_of_ascending (c : List line) (h : c.Pairwise (fun p n => p.l ≤ n.l))
    (x0 : Int) : partitioned c ⟨0, 0, true, x0⟩ := by
  refine h.imp ?_
  intro e f hef he
  simp only [line.lt, Bool.or_true, if_true, decide_eq_false_iff_not, not_lt] at he ⊢
  omega

namespace line_container_static

/-- After at least one iteration of the constructor the last hull line has
stored boundary `inf`. -/
theorem fold_head (inf : Int) :
    ∀ (S hull : List line), S ≠ [] →
      ∃ e t, S.foldl (step inf) hull = e :: t ∧ e.l = inf := by
  intro S
  induction S with
  | nil => intro _ h; exact absurd rfl h
  | cons elt S' ih =>
    intro hull _
    rw [List.foldl_cons]
    cases S' with
    | nil =>
      simp only [List.foldl_nil]
      unfold step
      split
      · exact ⟨_, _, rfl, rfl⟩
      · exact ⟨_, _, rfl, rfl⟩
    | cons s t => exact ih _ (by simp)

/-- The hull constructed from a non-empty batch is not empty and its last
line has stored boundary `inf`. -/
theorem construct_last (inf : Int) (batch : List (Int × Int)) (hne : batch ≠ []) :
    construct inf batch ≠ [] ∧ ∀ e ∈ (construct inf batch).getLast?, e.l = inf := by
  have hS : sort (batch.map (fun s => (⟨s.1, s.2, false, 0⟩ : line))) ≠ [] := by
    intro h
    have := congrArg List.length h
    unfold sort at this
    rw [List.length_insertionSort, List.length_map] at this
    exact hne (List.length_eq_zero.mp this)
  obtain ⟨e, t, he, hl⟩ := fold_head inf _ [] hS
  unfold construct
  rw [he]
  refine ⟨by simp, ?_⟩
  intro e' he'
  rw [List.getLast?_reverse] at he'
  simp only [List.head?_cons, Option.mem_def, Option.some.injEq] at he'
  rw [← he']; exact hl

/-- The stored boundaries of a hull that satisfies the invariant do not
descend from first to last element. -/
theorem ascending_of_inv (inf : Int) (hull : List line) (h : static_inv inf hull.reverse) :
    hull.Pairwise (fun p n => p.l ≤ n.l) := by
  have h1 : hull.Chain' (static_link inf) := by
    have := h.1
    rw [List.chain'_reverse] at this
    simpa [flip] using this
  have h2 : hull.Chain' (fun p n : line => p.l ≤ n.l) := h1.imp (fun _ _ hl => hl.2)
  haveI : IsTrans line (fun p n : line => p.l ≤ n.l) := ⟨fun _ _ _ h1 h2 => le_trans h1 h2⟩
  exact List.chain'_iff_pairwise.mp h2

end line_container_static

/-- C16: in every non-empty state of the Dynamic and of the Monotonic
container reached by `insert_line` and `maximum` calls, and in the Static
hull constructed from a non-empty batch, the last line has stored boundary
`inf`; so for every `x0 ≤ inf` the search of `maximum` finds a line:
`lower_bound` does not return the end position in Dynamic and Static, and
the front-popping loop of Monotonic ends with a non-empty deque. -/
theorem last_boundary_is_inf (inf : Int) (callsd callsm : List call) (cd cm : List line)
    (batch : List (Int × Int)) (x0 : Int) (hx : x0 ≤ inf)
    (hd : line_container.exec inf [] callsd = .ok cd) (hnd : cd ≠ [])
    (hm : line_container_monotonic.exec inf [] callsm = .ok cm) (hnm : cm ≠ [])
    (hb : batch ≠ []) :
    ((∀ e ∈ cd.getLast?, e.l = inf) ∧ ∃ e, lower_bound cd ⟨0, 0, true, x0⟩ = some e) ∧
    ((∀ e ∈ cm.getLast?, e.l = inf) ∧
      ∃ v f rest, line_container_monotonic.pop_front_loop x0 cm = .ok (v, f :: rest)) ∧
    ((∀ e ∈ (line_container_static.construct inf batch).getLast?, e.l = inf) ∧
      ∃ e, lower_bound (line_container_static.construct inf batch) ⟨0, 0, true, x0⟩
        = some e) := by
  have hld := line_container.exec_last inf callsd [] cd (by simp) hd
  have hlm := line_container_monotonic.mono_exec_last inf callsm [] cm (by simp) hm
  obtain ⟨hns, hls⟩ := line_container_static.construct_last inf batch hb
  refine ⟨⟨hld, ?_⟩, ⟨hlm, ?_⟩, ⟨hls, ?_⟩⟩
  · obtain ⟨_, f, _, _, h, _, _⟩ := lower_bound_spec inf x0 hx cd hnd hld
    exact ⟨f, h⟩
  · obtain ⟨v, c', h1, _⟩ := line_container_monotonic.maximum_twice inf cm x0 hnm hlm hx
    unfold line_container_monotonic.maximum at h1
    split_ifs at h1 with hemp
    obtain ⟨_, f, rest, _, h2, _, _⟩ :=
      line_container_monotonic.pop_front_loop_ok x0 cm v c' h1
    exact ⟨v, f, rest, by rw [h1, h2]⟩
  · obtain ⟨_, f, _, _, h, _, _⟩ := lower_bound_spec inf x0 hx _ hns hls
    exact ⟨f, h⟩

/-- C17: Static container over a signed integer type with maximum `inf`:
for every batch of lines and every outcome `S` of the sort of the batch on
which the loop of the constructor runs without overflow (`construct_ok`: no
`boundary` call made by the run overflows), the stored boundaries of the
constructed hull do not descend from the first to the last element; so for
every `x0` the hull is partitioned with respect to `l < x0`, and the binary
search of `maximum` reaches the first hull element whose boundary is
`>= x0`. -/
theorem static_boundaries_ascend (inf : Int) (batch : List (Int × Int)) (S : List line)
    (hinf : 0 ≤ inf) (hS : line_container_static.sorted_input batch S)
    (hov : line_container_static.construct_ok inf S = true) :
    (line_container_static.construct_sorted inf S).Pairwise (fun p n => p.l ≤ n.l) ∧
    ∀ x0 : Int,
      partitioned (line_container_static.construct_sorted inf S) ⟨0, 0, true, x0⟩ ∧
      (line_container_static.construct_sorted inf S).get?
          (bisect (line_container_static.construct_sorted inf S) ⟨0, 0, true, x0⟩
            (line_container_static.construct_sorted inf S).length 0
            (line_container_static.construct_sorted inf S).length)
        = (line_container_static.construct_sorted inf S).find? (fun e => decide (x0 ≤ e.l)) ∧
      lower_bound (line_container_static.construct_sorted inf S) ⟨0, 0, true, x0⟩
        = (line_container_static.construct_sorted inf S).find?
            (fun e => decide (x0 ≤ e.l)) := by
  have hasc := line_container_static.ascending_of_inv inf _
    (line_container_static.construct_sorted_inv inf hinf S
      (line_container_static.sorted_input_ascending batch S hS) hov)
  refine ⟨hasc, fun x0 => ?_⟩
  have hpart := partitioned_of_ascending _ hasc x0
  have hlb : lower_bound (line_container_static.construct_sorted inf S) ⟨0, 0, true, x0⟩
      = (line_container_static.construct_sorted inf S).find? (fun e => decide (x0 ≤ e.l)) := by
    unfold lower_bound
    congr 1
    funext e
    by_cases h : e.l < x0
    · simp [line.lt, h]
    · simp [line.lt, h, not_lt.mp h]
  exact ⟨hpart, by rw [bisect_eq_lower_bound _ _ hpart, hlb], hlb⟩

theorem last_boundary_is_inf_witness :
    (5 : Int) ≤ 2147483647 ∧
    line_container.exec 2147483647 [] [call.insert_line 0 0, call.insert_line 1 0]
      = .ok [⟨0, 0, false, 0⟩, ⟨1, 0, false, 2147483647⟩] ∧
    line_container_monotonic.exec 2147483647 []
        [call.insert_line 0 0, call.insert_line 1 0, call.maximum 3]
      = .ok [⟨1, 0, false, 2147483647⟩] ∧
    ((∀ e ∈ ([⟨0, 0, false, 0⟩, ⟨1, 0, false, 2147483647⟩] : List line).getLast?,
        e.l = 2147483647) ∧
      ∃ e, lower_bound [⟨0, 0, false, 0⟩, ⟨1, 0, false, 2147483647⟩] ⟨0, 0, true, 5⟩
        = some e) ∧
    ((∀ e ∈ ([⟨1, 0, false, 2147483647⟩] : List line).getLast?, e.l = 2147483647) ∧
      ∃ v f rest, line_container_monotonic.pop_front_loop 5 [⟨1, 0, false, 2147483647⟩]
        = .ok (v, f :: rest)) ∧
    ((∀ e ∈ (line_container_static.construct 2147483647 [(1, 0), (0, 0)]).getLast?,
        e.l = 2147483647) ∧
      ∃ e, lower_bound (line_container_static.construct 2147483647 [(1, 0), (0, 0)])
        ⟨0, 0, true, 5⟩ = some e) := by
  have h1 : (5 : Int) ≤ 2147483647 := by decide
  have h2 : line_container.exec 2147483647 [] [call.insert_line 0 0, call.insert_line 1 0]
      = .ok [⟨0, 0, false, 0⟩, ⟨1, 0, false, 2147483647⟩] := by rfl
  have h3 : line_container_monotonic.exec 2147483647 []
        [call.insert_line 0 0, call.insert_line 1 0, call.maximum 3]
      = .ok [⟨1, 0, false, 2147483647⟩] := by rfl
  exact ⟨h1, h2, h3, last_boundary_is_inf 2147483647 _ _ _ _ [(1, 0), (0, 0)] 5 h1 h2
    (by simp) h3 (by simp) (by simp)⟩

/-- The theorem `static_boundaries_ascend` for 32-bit `int`, on a batch with
a repeated slope, sorted with the two lines of that slope in the order
opposite to the one of the batch.  The intercepts of the lines of least and
of largest slope differ by more than the type holds; the run does not
subtract them. -/
theorem static_boundaries_ascend_witness :
    (0 : Int) ≤ 2147483647 ∧
    line_container_static.sorted_input
      [(3000, 0), (0, -2000000000), (10000, 1100000000), (3000, -5), (1000, -1000000000)]
      [⟨0, -2000000000, false, 0⟩, ⟨1000, -1000000000, false, 0⟩, ⟨3000, -5, false, 0⟩,
        ⟨3000, 0, false, 0⟩, ⟨10000, 1100000000, false, 0⟩] ∧
    line_container_static.construct_ok 2147483647
      [⟨0, -2000000000, false, 0⟩, ⟨1000, -1000000000, false, 0⟩, ⟨3000, -5, false, 0⟩,
        ⟨3000, 0, false, 0⟩, ⟨10000, 1100000000, false, 0⟩] = true ∧
    (line_container_static.construct_sorted 2147483647
      [⟨0, -2000000000, false, 0⟩, ⟨1000, -1000000000, false, 0⟩, ⟨3000, -5, false, 0⟩,
        ⟨3000, 0, false, 0⟩, ⟨10000, 1100000000, false, 0⟩]).Pairwise
      (fun p n => p.l ≤ n.l) ∧
    ∀ x0 : Int,
      partitioned (line_container_static.construct_sorted 2147483647
      [⟨0, -2000000000, false, 0⟩, ⟨1000, -1000000000, false, 0⟩, ⟨3000, -5, false, 0⟩,
        ⟨3000, 0, false, 0⟩, ⟨10000, 1100000000, false, 0⟩]) ⟨0, 0, true, x0⟩ ∧
      (line_container_static.construct_sorted 2147483647
      [⟨0, -2000000000, false, 0⟩, ⟨1000, -1000000000, false, 0⟩, ⟨3000, -5, false, 0⟩,
        ⟨3000, 0, false, 0⟩, ⟨10000, 1100000000, false, 0⟩]).get?
          (bisect (line_container_static.construct_sorted 2147483647
      [⟨0, -2000000000, false, 0⟩, ⟨1000, -1000000000, false, 0⟩, ⟨3000, -5, false, 0⟩,
        ⟨3000, 0, false, 0⟩, ⟨10000, 1100000000, false, 0⟩]) ⟨0, 0, true, x0⟩
            (line_container_static.construct_sorted 2147483647
      [⟨0, -2000000000, false, 0⟩, ⟨1000, -1000000000, false, 0⟩, ⟨3000, -5, false, 0⟩,
        ⟨3000, 0, false, 0⟩, ⟨10000, 1100000000, false, 0⟩]).length 0
            (line_container_static.construct_sorted 2147483647
      [⟨0, -2000000000, false, 0⟩, ⟨1000, -1000000000, false, 0⟩, ⟨3000, -5, false, 0⟩,
        ⟨3000, 0, false, 0⟩, ⟨10000, 1100000000, false, 0⟩]).length)
        = (line_container_static.construct_sorted 2147483647
      [⟨0, -2000000000, false, 0⟩, ⟨1000, -1000000000, false, 0⟩, ⟨3000, -5, false, 0⟩,
        ⟨3000, 0, false, 0⟩, ⟨10000, 1100000000, false, 0⟩]).find? (fun e => decide (x0 ≤ e.l)) ∧
      lower_bound (line_container_static.construct_sorted 2147483647
      [⟨0, -2000000000, false, 0⟩, ⟨1000, -1000000000, false, 0⟩, ⟨3000, -5, false, 0⟩,
        ⟨3000, 0, false, 0⟩, ⟨10000, 1100000000, false, 0⟩]) ⟨0, 0, true, x0⟩
        = (line_container_static.construct_sorted 2147483647
      [⟨0, -2000000000, false, 0⟩, ⟨1000, -1000000000, false, 0⟩, ⟨3000, -5, false, 0⟩,
        ⟨3000, 0, false, 0⟩, ⟨10000, 1100000000, false, 0⟩]).find? (fun e => decide (x0 ≤ e.l)) := by
  have h1 : (0 : Int) ≤ 2147483647 := by decide
  have h2 : line_container_static.sorted_input
      [(3000, 0), (0, -2000000000), (10000, 1100000000), (3000, -5), (1000, -1000000000)]
      [⟨0, -2000000000, false, 0⟩, ⟨1000, -1000000000, false, 0⟩, ⟨3000, -5, false, 0⟩,
        ⟨3000, 0, false, 0⟩, ⟨10000, 1100000000, false, 0⟩] := ⟨by decide, by decide⟩
  have h3 : line_container_static.construct_ok 2147483647
      [⟨0, -2000000000, false, 0⟩, ⟨1000, -1000000000, false, 0⟩, ⟨3000, -5, false, 0⟩,
        ⟨3000, 0, false, 0⟩, ⟨10000, 1100000000, false, 0⟩] = true := by decide
  exact ⟨h1, h2, h3, static_boundaries_ascend 2147483647 _ _ h1 h2 h3⟩

/-! ## The Static container with exact division: envelope correctness -/

namespace non_integral

/-- The embedding of the finite values keeps the order. -/
theorem fin_le_fin {K : Type} [LinearOrderedField K] (x y : K) :
    (fin x : WithBot (WithTop K)) ≤ fin y ↔ x ≤ y := by
  simp [fin]

/-- The embedding of the finite values keeps the strict order. -/
theorem fin_lt_fin {K : Type} [LinearOrderedField K] (x y : K) :
    (fin x : WithBot (WithTop K)) < fin y ↔ x < y := by
  simp [fin]

/-- Every finite value is below `inf`. -/
theorem fin_lt_inf {K : Type} [LinearOrderedField K] (x : K) :
    (fin x : WithBot (WithTop K)) < inf K := by
  unfold fin inf
  exact WithBot.coe_lt_coe.mpr (WithTop.coe_lt_top x)

/-- For lines of different slopes `boundary` is the quotient. -/
theorem boundary_of_lt {K : Type} [LinearOrderedField K] (p n : line K) (h : p.a < n.a) :
    p.boundary n = fin (line.div (n.b - p.b) (p.a - n.a)) := by
  unfold line.boundary
  rw [if_neg (ne_of_lt h)]

/-- For `p.a < n.a` the points up to the quotient are those where `n` is not
above `p`. -/
theorem crossing_le_iff {K : Type} [LinearOrderedField K] (p n : line K) (h : p.a < n.a)
    (x : K) : x ≤ line.div (n.b - p.b) (p.a - n.a) ↔ n.eval x ≤ p.eval x := by
  have hd : p.a - n.a < 0 := by linarith
  unfold line.div line.eval
  rw [le_div_iff_of_neg hd]
  constructor <;> intro h' <;> nlinarith

/-- For `p.a < n.a` the points from the quotient on are those where `p` is
not above `n`. -/
theorem crossing_ge_iff {K : Type} [LinearOrderedField K] (p n : line K) (h : p.a < n.a)
    (x : K) : line.div (n.b - p.b) (p.a - n.a) ≤ x ↔ p.eval x ≤ n.eval x := by
  have hd : p.a - n.a < 0 := by linarith
  unfold line.div line.eval
  rw [div_le_iff_of_neg hd]
  constructor <;> intro h' <;> nlinarith

/-- Three lines of ascending slopes: when the first crosses the third not
after it crosses the second, the second is nowhere above both others. -/
theorem popped_dominated {K : Type} [LinearOrderedField K] (h2 h1 elt : line K)
    (s1 : h2.a < h1.a) (s2 : h1.a < elt.a)
    (hc : line.div (elt.b - h2.b) (h2.a - elt.a) ≤ line.div (h1.b - h2.b) (h2.a - h1.a))
    (x : K) : h1.eval x ≤ h2.eval x ∨ h1.eval x ≤ elt.eval x := by
  by_cases hx : x ≤ line.div (h1.b - h2.b) (h2.a - h1.a)
  · exact Or.inl ((crossing_le_iff h2 h1 s1 x).mp hx)
  · right
    have e1 := (crossing_le_iff h2 h1 s1 _).mp (le_refl (line.div (h1.b - h2.b) (h2.a - h1.a)))
    have e2 := (crossing_ge_iff h2 elt (lt_trans s1 s2) _).mp hc
    push_neg at hx
    generalize line.div (h1.b - h2.b) (h2.a - h1.a) = c at hx e1 e2
    unfold line.eval at e1 e2 ⊢
    nlinarith [mul_pos (sub_pos.mpr hx) (sub_pos.mpr s2)]

/-- Three lines of ascending slopes: when the first crosses the second
before it crosses the third, the second crosses the third after that. -/
theorem crossing_middle {K : Type} [LinearOrderedField K] (h2 h1 elt : line K)
    (s1 : h2.a < h1.a) (s2 : h1.a < elt.a)
    (hlt : line.div (h1.b - h2.b) (h2.a - h1.a) < line.div (elt.b - h2.b) (h2.a - elt.a)) :
    line.div (h1.b - h2.b) (h2.a - h1.a) < line.div (elt.b - h1.b) (h1.a - elt.a) := by
  have e1 := (crossing_ge_iff h2 h1 s1 _).mp (le_refl (line.div (h1.b - h2.b) (h2.a - h1.a)))
  have e2 : ¬ h2.eval (line.div (h1.b - h2.b) (h2.a - h1.a))
      ≤ elt.eval (line.div (h1.b - h2.b) (h2.a - h1.a)) :=
    fun hle => absurd ((crossing_ge_iff h2 elt (lt_trans s1 s2) _).mpr hle) (not_le.mpr hlt)
  by_contra hcon
  push_neg at hcon
  have e3 := (crossing_ge_iff h1 elt s2 _).mp hcon
  exact e2 (le_trans e1 e3)

/-- The first line of a linked range whose stored boundary is not below `x`
is at `x` not below any later line. -/
theorem hull_first_is_top {K : Type} [LinearOrderedField K] (x : K) :
    ∀ (rest : List (line K)) (f : line K), (f :: rest).Chain' link → fin x ≤ f.l →
      ∀ e ∈ rest, e.eval x ≤ f.eval x := by
  intro rest
  induction rest with
  | nil => intro f _ _ e he; simp at he
  | cons n t ih =>
    intro f hch hx e he
    obtain ⟨hl, hrest⟩ := List.chain'_cons.mp hch
    have hxc : x ≤ line.div (n.b - f.b) (f.a - n.a) := by
      rw [hl.2.1] at hx
      exact (fin_le_fin _ _).mp hx
    have hnf := (crossing_le_iff f n hl.1 x).mp hxc
    rcases List.mem_cons.mp he with rfl | h
    · exact hnf
    · exact le_trans (ih n hrest (le_trans hx (le_of_lt hl.2.2)) e h) hnf

/-- The lines of a linked range whose stored boundaries are below `x` are at
`x` not above the line that follows them. -/
theorem hull_popped_below {K : Type} [LinearOrderedField K] (x : K) :
    ∀ (pre : List (line K)) (f : line K) (rest : List (line K)),
      (pre ++ f :: rest).Chain' link → (∀ p ∈ pre, p.l < fin x) →
      ∀ e ∈ pre, e.eval x ≤ f.eval x := by
  intro pre
  induction pre with
  | nil => intro f rest _ _ e he; simp at he
  | cons p t ih =>
    intro f rest hch hpre e he
    have hch' : (p :: (t ++ f :: rest)).Chain' link := hch
    obtain ⟨hl, hrest⟩ := List.chain'_cons'.mp hch'
    have hrec := ih f rest hrest (fun q hq => hpre q (List.mem_cons_of_mem _ hq))
    rcases List.mem_cons.mp he with rfl | h
    · cases t with
      | nil =>
        have hl' := hl f (by simp)
        have hlt := hpre e (by simp)
        rw [hl'.2.1] at hlt
        exact (crossing_ge_iff e f hl'.1 x).mp (le_of_lt ((fin_lt_fin _ _).mp hlt))
      | cons n t' =>
        have hl' := hl n (by simp)
        have hlt := hpre e (by simp)
        rw [hl'.2.1] at hlt
        exact le_trans ((crossing_ge_iff e n hl'.1 x).mp (le_of_lt ((fin_lt_fin _ _).mp hlt)))
          (hrec n (by simp))
    · exact hrec e h

/-- The search of `maximum` on a non-empty range whose last line has stored
boundary `inf`: for a finite `x` it finds the first line whose stored
boundary is not below `x`. -/
theorem hull_lower_bound_spec {K : Type} [LinearOrderedField K] (x : K) :
    ∀ c : List (line K), c ≠ [] → (∀ e ∈ c.getLast?, e.l = inf K) →
      ∃ pre f rest, c = pre ++ f :: rest ∧
        lower_bound c ⟨0, 0, true, fin x⟩ = some f ∧ fin x ≤ f.l ∧ ∀ p ∈ pre, p.l < fin x := by
  intro c
  induction c with
  | nil => intro h; exact absurd rfl h
  | cons f t ih =>
    intro _ hlast
    by_cases hf : f.l < fin x
    · cases t with
      | nil =>
        have := hlast f (by simp)
        rw [this] at hf
        exact absurd hf (lt_asymm (fin_lt_inf x))
      | cons n t' =>
        obtain ⟨pre, g, rest, hc, hp, hg, hpre⟩ := ih (by simp)
          (fun e he => hlast e (by simpa using he))
        refine ⟨f :: pre, g, rest, by rw [hc]; rfl, ?_, hg, ?_⟩
        · unfold lower_bound at hp ⊢
          rw [List.find?_cons_of_neg _ (by simp [line.lt, hf])]
          exact hp
        · intro p hp'
          rcases List.mem_cons.mp hp' with rfl | h
          · exact hf
          · exact hpre p h
    · refine ⟨[], f, t, rfl, ?_, not_lt.mp hf, by simp⟩
      unfold lower_bound
      rw [List.find?_cons_of_pos _ (by simp [line.lt, hf])]

namespace line_container_static

/-- The pop loop leaves a final part of the hull (back to front), not empty
when the hull is not, in which the test of the loop fails; the lines that
the hull and the candidate cover stay covered. -/
theorem hull_pop_loop_spec {K : Type} [LinearOrderedField K] (elt : line K)
    (ls : List (line K)) :
    ∀ hull : List (line K), hull.Chain' (flip link) → (∀ e ∈ hull, e.a < elt.a) →
      (∀ x : K, ∀ s ∈ ls, ∃ e ∈ elt :: hull, s.eval x ≤ e.eval x) →
      (∃ k, pop_loop elt hull = hull.drop k) ∧
      (hull ≠ [] → pop_loop elt hull ≠ []) ∧
      (∀ h h2 rest, pop_loop elt hull = h :: h2 :: rest → h2.l < h2.boundary elt) ∧
      ∀ x : K, ∀ s ∈ ls, ∃ e ∈ elt :: pop_loop elt hull, s.eval x ≤ e.eval x := by
  intro hull
  induction hull with
  | nil =>
    intro _ _ hcov
    refine ⟨⟨0, rfl⟩, fun h => absurd rfl h, ?_, hcov⟩
    intro h h2 rest hr
    simp [pop_loop] at hr
  | cons h1 t ih =>
    intro hch hsl hcov
    cases t with
    | nil =>
      refine ⟨⟨0, rfl⟩, fun _ => by simp [pop_loop], ?_, hcov⟩
      intro h h2 rest hr
      simp [pop_loop] at hr
    | cons h2 rest =>
      by_cases hc : h2.l ≥ h2.boundary elt
      · have heq : pop_loop elt (h1 :: h2 :: rest) = pop_loop elt (h2 :: rest) := by
          rw [pop_loop, if_pos hc]
        rw [heq]
        obtain ⟨hl, hrest⟩ := List.chain'_cons.mp hch
        have s2 : h1.a < elt.a := hsl h1 (by simp)
        have s1 : h2.a < h1.a := hl.1
        have hc' : line.div (elt.b - h2.b) (h2.a - elt.a)
            ≤ line.div (h1.b - h2.b) (h2.a - h1.a) := by
          rw [boundary_of_lt h2 elt (lt_trans s1 s2), hl.2.1] at hc
          exact (fin_le_fin _ _).mp hc
        have hcov' : ∀ x : K, ∀ s ∈ ls, ∃ e ∈ elt :: h2 :: rest, s.eval x ≤ e.eval x := by
          intro x s hs
          obtain ⟨e, he, hle⟩ := hcov x s hs
          rcases List.mem_cons.mp he with rfl | he'
          · exact ⟨e, by simp, hle⟩
          · rcases List.mem_cons.mp he' with rfl | he''
            · rcases popped_dominated h2 e elt s1 s2 hc' x with hd | hd
              · exact ⟨h2, by simp, le_trans hle hd⟩
              · exact ⟨elt, by simp, le_trans hle hd⟩
            · exact ⟨e, List.mem_cons_of_mem _ he'', hle⟩
        obtain ⟨⟨k, hk⟩, hne, htest, hcv⟩ := ih hrest
          (fun e he => hsl e (List.mem_cons_of_mem _ he)) hcov'
        exact ⟨⟨k + 1, hk⟩, fun _ => hne (by simp), htest, hcv⟩
      · have heq : pop_loop elt (h1 :: h2 :: rest) = h1 :: h2 :: rest := by
          rw [pop_loop, if_neg hc]
        rw [heq]
        refine ⟨⟨0, rfl⟩, fun _ => by simp, ?_, hcov⟩
        intro h h2' rest' hr
        simp only [List.cons.injEq] at hr
        obtain ⟨_, rfl, _⟩ := hr
        exact not_le.mp hc

/-- One iteration of the constructor keeps the hull invariant, when the
candidate's slope is above the slopes of the lines processed before. -/
theorem hull_step_spec {K : Type} [LinearOrderedField K] (ls hull : List (line K))
    (elt : line K) (hinv : hull_inv ls hull) (hsl : ∀ s ∈ ls, s.a < elt.a) :
    hull_inv (ls ++ [elt]) (step hull elt) := by
  obtain ⟨hch, _, hmem, hcov⟩ := hinv
  have hsl' : ∀ e ∈ hull, e.a < elt.a := by
    intro e he
    obtain ⟨s, hs, ha, _⟩ := hmem e he
    rw [← ha]; exact hsl s hs
  obtain ⟨⟨k, hk⟩, _, htest, hcv⟩ := hull_pop_loop_spec elt ls hull hch hsl'
    (fun x s hs => by
      obtain ⟨e, he, hle⟩ := hcov x s hs
      exact ⟨e, List.mem_cons_of_mem _ he, hle⟩)
  have hsub : ∀ e ∈ pop_loop elt hull, e ∈ hull := by
    intro e he
    rw [hk] at he
    exact List.mem_of_mem_drop he
  have hchR : (pop_loop elt hull).Chain' (flip link) := by
    rw [hk]
    exact List.Chain'.drop hch k
  unfold step
  cases hr : pop_loop elt hull with
  | nil =>
    rw [hr] at hcv
    simp only
    refine ⟨by simp, by simp, ?_, ?_⟩
    · intro e he
      simp only [List.mem_singleton] at he
      subst he
      exact ⟨elt, by simp, rfl, rfl⟩
    · intro x s hs
      refine ⟨_, List.mem_singleton.mpr rfl, ?_⟩
      rcases List.mem_append.mp hs with h | h
      · obtain ⟨e, he, hle⟩ := hcv x s h
        simp only [List.mem_singleton] at he
        subst he
        exact hle
      · simp only [List.mem_singleton] at h
        subst h
        exact le_refl _
  | cons h rest =>
    rw [hr] at hsub hchR htest hcv
    have hh : h.a < elt.a := hsl' h (hsub h (by simp))
    simp only
    refine ⟨?_, by simp, ?_, ?_⟩
    · refine List.chain'_cons.mpr ⟨⟨hh, boundary_of_lt h elt hh, ?_⟩, ?_⟩
      · show h.boundary elt < inf K
        rw [boundary_of_lt h elt hh]
        exact fin_lt_inf _
      · cases rest with
        | nil => simp
        | cons h2 rest' =>
          obtain ⟨hl, hrest⟩ := List.chain'_cons.mp hchR
          refine List.chain'_cons.mpr ⟨⟨hl.1, hl.2.1, ?_⟩, hrest⟩
          have ht := htest h h2 rest' rfl
          show h2.l < h.boundary elt
          rw [boundary_of_lt h elt hh]
          rw [boundary_of_lt h2 elt (lt_trans hl.1 hh), hl.2.1] at ht
          rw [hl.2.1]
          exact (fin_lt_fin _ _).mpr
            (crossing_middle h2 h elt hl.1 hh ((fin_lt_fin _ _).mp ht))
    · intro e he
      rcases List.mem_cons.mp he with rfl | h'
      · exact ⟨elt, by simp, rfl, rfl⟩
      · rcases List.mem_cons.mp h' with rfl | h''
        · obtain ⟨s, hs, ha, hb⟩ := hmem h (hsub h (by simp))
          exact ⟨s, List.mem_append_left _ hs, ha, hb⟩
        · obtain ⟨s, hs, ha, hb⟩ := hmem e (hsub e (List.mem_cons_of_mem _ h''))
          exact ⟨s, List.mem_append_left _ hs, ha, hb⟩
    · intro x s hs
      rcases List.mem_append.mp hs with hin | hin
      · obtain ⟨e, he, hle⟩ := hcv x s hin
        rcases List.mem_cons.mp he with rfl | he'
        · exact ⟨_, List.mem_cons_self _ _, hle⟩
        · rcases List.mem_cons.mp he' with rfl | he''
          · exact ⟨_, List.mem_cons_of_mem _ (List.mem_cons_self _ _), hle⟩
          · exact ⟨e, List.mem_cons_of_mem _ (List.mem_cons_of_mem _ he''), hle⟩
      · simp only [List.mem_singleton] at hin
        subst hin
        exact ⟨_, List.mem_cons_self _ _, le_refl _⟩

/-- The iterations of the constructor over candidates of strictly ascending
slopes keep the hull invariant. -/
theorem hull_fold_spec {K : Type} [LinearOrderedField K] :
    ∀ (S ls hull : List (line K)), hull_inv ls hull →
      (ls ++ S).Pairwise (fun p n => p.a < n.a) →
      hull_inv (ls ++ S) (S.foldl step hull) := by
  intro S
  induction S with
  | nil => intro ls hull hinv _; simpa using hinv
  | cons elt S' ih =>
    intro ls hull hinv hsort
    have hstep := hull_step_spec ls hull elt hinv (by
      intro s hs
      exact (List.pairwise_append.mp hsort).2.2 s hs elt (by simp))
    rw [List.foldl_cons]
    have := ih (ls ++ [elt]) _ hstep (by simpa using hsort)
    simpa using this

/-- The sorted input of the constructor, for pairwise distinct slopes, is in
strictly ascending slope order. -/
theorem hull_sort_sorted {K : Type} [LinearOrderedField K] (input : List (line K))
    (hq : ∀ e ∈ input, e.q = false) (hd : (input.map (fun e => e.a)).Nodup) :
    (sort input).Pairwise (fun p n => p.a < n.a) := by
  have hmap : (sort input).map (fun e => e.a)
      = (input.map (fun e => e.a)).insertionSort (· ≤ ·) := by
    unfold sort
    apply List.map_insertionSort
    intro x hx y hy
    simp [line.lt, hq x hx, hq y hy]
  have hs : ((sort input).map (fun e => e.a)).Sorted (· ≤ ·) := by
    rw [hmap]
    exact List.sorted_insertionSort _ _
  have hn : ((sort input).map (fun e => e.a)).Nodup := by
    rw [hmap]
    exact (List.perm_insertionSort _ _).nodup_iff.mpr hd
  exact List.pairwise_map.mp (hs.lt_of_le hn)

/-- The sorted input holds the lines of the input. -/
theorem hull_mem_sort {K : Type} [LinearOrderedField K] (input : List (line K))
    (e : line K) : e ∈ sort input ↔ e ∈ input := by
  unfold sort
  exact List.mem_insertionSort _

end line_container_static

/-- C15: Static container with exact division, over an ordered field
extended by the sentinels `inf` and `-inf`: for every non-empty batch of
lines with pairwise distinct slopes and every finite `x`, `maximum(x)` on
the constructed container returns the maximum of `a * x + b` over the
lines of the batch. -/
theorem static_exact_maximum_is_envelope {K : Type} [LinearOrderedField K]
    (batch : List (K × K)) (x : K) (hne : batch ≠ [])
    (hd : (batch.map Prod.fst).Nodup) :
    ∃ v, line_container_static.maximum (line_container_static.construct batch) x = .ok v ∧
      is_maximum x batch v := by
  have hinput : ∀ e ∈ batch.map (fun s => (⟨s.1, s.2, false, fin 0⟩ : line K)),
      e.q = false ∧ (e.a, e.b) ∈ batch := by
    intro e he
    obtain ⟨s, hs, rfl⟩ := List.mem_map.mp he
    exact ⟨rfl, hs⟩
  have hsorted := line_container_static.hull_sort_sorted
    (batch.map (fun s => (⟨s.1, s.2, false, fin 0⟩ : line K)))
    (fun e he => (hinput e he).1) (by simpa [List.map_map, Function.comp_def] using hd)
  have hinv := line_container_static.hull_fold_spec
    (line_container_static.sort (batch.map (fun s => (⟨s.1, s.2, false, fin 0⟩ : line K))))
    [] [] ⟨by simp, by simp, by simp, by simp⟩ (by simpa using hsorted)
  simp only [List.nil_append] at hinv
  obtain ⟨hch, hhead, hmem, hcov⟩ := hinv
  have hc : (line_container_static.construct batch).Chain' link := by
    unfold line_container_static.construct
    rw [List.chain'_reverse]
    exact hch
  have hlast : ∀ e ∈ (line_container_static.construct batch).getLast?, e.l = inf K := by
    unfold line_container_static.construct
    rw [List.getLast?_reverse]
    exact hhead
  have hcovb : ∀ s ∈ batch, ∃ e ∈ line_container_static.construct batch,
      s.1 * x + s.2 ≤ e.eval x := by
    intro s hs
    obtain ⟨e, he, hle⟩ := hcov x ⟨s.1, s.2, false, fin 0⟩
      ((line_container_static.hull_mem_sort _ _).mpr (List.mem_map.mpr ⟨s, hs, rfl⟩))
    exact ⟨e, by unfold line_container_static.construct; simpa using he, hle⟩
  have hmemb : ∀ e ∈ line_container_static.construct batch, (e.a, e.b) ∈ batch := by
    intro e he
    unfold line_container_static.construct at he
    obtain ⟨s, hs, ha, hb⟩ := hmem e (by simpa using he)
    rw [← ha, ← hb]
    exact (hinput s ((line_container_static.hull_mem_sort _ _).mp hs)).2
  have hnec : line_container_static.construct batch ≠ [] := by
    obtain ⟨s, hs⟩ := List.exists_mem_of_ne_nil batch hne
    obtain ⟨e, he, _⟩ := hcovb s hs
    exact List.ne_nil_of_mem he
  obtain ⟨pre, f, rest, hsplit, hlb, hxf, hpre⟩ :=
    hull_lower_bound_spec x (line_container_static.construct batch) hnec hlast
  have hch' : (pre ++ f :: rest).Chain' link := by rw [← hsplit]; exact hc
  have hfc : f ∈ line_container_static.construct batch := by rw [hsplit]; simp
  refine ⟨f.eval x, ?_, ⟨(f.a, f.b), hmemb f hfc, rfl⟩, ?_⟩
  · unfold line_container_static.maximum
    rw [hlb]
  · intro s hs
    obtain ⟨e, he, h1⟩ := hcovb s hs
    refine le_trans h1 ?_
    rw [hsplit] at he
    rcases List.mem_append.mp he with h | h
    · exact hull_popped_below x pre f rest hch' hpre e h
    · rcases List.mem_cons.mp h with rfl | h'
      · exact le_refl _
      · exact hull_first_is_top x rest f (List.chain'_split.mp hch').2 hxf e h'

theorem static_exact_maximum_is_envelope_witness :
    ([((0 : ℚ), (0 : ℚ)), (11, -5), (10, -1)] : List (ℚ × ℚ)) ≠ [] ∧
    (([((0 : ℚ), (0 : ℚ)), (11, -5), (10, -1)] : List (ℚ × ℚ)).map Prod.fst).Nodup ∧
    ∃ v, line_container_static.maximum
        (line_container_static.construct [((0 : ℚ), (0 : ℚ)), (11, -5), (10, -1)]) 2 = .ok v ∧
      is_maximum 2 [((0 : ℚ), (0 : ℚ)), (11, -5), (10, -1)] v := by
  have h1 : ([((0 : ℚ), (0 : ℚ)), (11, -5), (10, -1)] : List (ℚ × ℚ)) ≠ [] := by simp
  have h2 : (([((0 : ℚ), (0 : ℚ)), (11, -5), (10, -1)] : List (ℚ × ℚ)).map Prod.fst).Nodup := by
    simp
  exact ⟨h1, h2, static_exact_maximum_is_envelope _ 2 h1 h2⟩

end non_integral
